import Mathlib

/-!
# Verification of `src/module/common-api.js` (angular-restmod `RMCommonApi`)

Shallow embedding of the hook-dispatch engine (`$dispatch`, `$on`, `$decorate`,
`$dispatcher`) and the request lifecycle (`$send` / `performRequest`, `$cancel`,
`$then`, `$finally`) of `RMCommonApi`, together with proofs of the testable
properties stated about it.

Modelling conventions:
* Objects live in a heap indexed by `Nat`; each object carries the fields the
  source uses: `$$cb` (instance hooks), `$$dsp` (active dispatch override),
  `$scope` / `$type` back-references, `$pending`, `$promise`, `$status`,
  `$response`, `$error`.
* JS `undefined` / `null` are modelled explicitly where the source distinguishes
  them (`$pending` is set to `undefined` on the success path, `null` on the
  error path; `$promise` starts `undefined` and is reset to `null` by `$cancel`).
* Hook callbacks are a small deep-embedded language (`Cb`): they can log a tag,
  run in sequence, throw, re-dispatch a hook on their context object, or observe
  the context's `$response` / `$error` fields.  This makes callback behaviour
  (including exceptions) expressible while keeping everything executable.
* Promises are a heap of `PState` values; `$q` settlement and reaction firing
  run eagerly (a settlement immediately runs the attached reactions), which
  preserves per-object ordering behaviour.  Handlers attached by the source
  (`performRequest` and the two `$http(...).then` handlers) are deep-embedded.
* All recursion is fuel-indexed; `none` means fuel exhaustion, never a program
  behaviour.
* An observation log (`Ev`, newest first) records transport issuance and
  settlement, the lifecycle hook dispatch sites, user callback invocation, and
  operation completion.
-/

namespace RMCommonApi

/-- A JS exception (we only track a tag). -/
inductive JsE where
  | typeError : JsE
  | thrown : String → JsE
deriving DecidableEq, Repr

/-- JS values that flow through the lifecycle: the owning object (`self`),
a request descriptor (`_options`), a transport response payload, `null`,
or a thrown-exception value. -/
inductive Value where
  | vobj : Nat → Value
  | vdesc : Nat → Value
  | vnum : Nat → Value
  | vnull : Value
  | verr : JsE → Value
deriving DecidableEq, Repr

/-- The `$response` field: `undefined` (never set), `null` (reset by
`performRequest`), or a recorded response value. -/
inductive RVal where
  | rundef : RVal
  | rnull : RVal
  | rval : Value → RVal
deriving DecidableEq, Repr

/-- The `$pending` field: `undefined` (initial, and reset on the success path),
`null` (reset on the error path), or an array of descriptor ids. -/
inductive PendVal where
  | pundef : PendVal
  | pnull : PendVal
  | parr : List Nat → PendVal
deriving DecidableEq, Repr

/-- The `$promise` field: `undefined` (no request ever initiated), `null`
(reset by `$cancel`), or a reference into the promise heap. -/
inductive PromVal where
  | prUndef : PromVal
  | prNull : PromVal
  | prSome : Nat → PromVal
deriving DecidableEq, Repr

/-- Observation log events (the log lists the newest event first). -/
inductive Ev where
  | cbLog : String → Ev            -- a hook callback logged a tag
  | issued : Nat → Ev              -- `$http(_options)` invoked for descriptor k
  | tSettle : Nat → Ev             -- the transport for descriptor k settled
  | beforeReq : Nat → Ev           -- `before-request` dispatched for k
  | afterReq : Nat → Value → Ev    -- `after-request` dispatched for k
  | afterReqErr : Nat → Value → Ev -- `after-request-error` dispatched for k
  | succCb : Nat → Value → Ev      -- the `_success` callback invoked for k
  | errCb : Nat → Value → Ev       -- the `_error` callback invoked for k
  | opDone : Nat → String → Ev     -- descriptor k's perform-chain completed
deriving DecidableEq, Repr

/-- Deep-embedded hook callbacks. -/
inductive Cb where
  | nop : Cb
  | logC : String → Cb
  | seqC : Cb → Cb → Cb
  | throwC : String → Cb
  | dspSame : String → Cb          -- `this.$dispatch(hook)` on the context object
  | obsState : String → String → Cb
      -- logs the first tag if ctx has `$response === null && $error === false`,
      -- else the second tag
deriving Repr

/-- The `$$dsp` slot's possible values: an arbitrary dispatcher function, or the
composed closure built by `$decorate` from a hooks mapping (which first invokes
the old dispatcher, then the mapping's entry for the hook, if present)
(`common-api.js` lines 158-162). -/
inductive Dsp where
  | fnD : (String → Cb) → Dsp
  | compD : Option Dsp → List (String × Cb) → Dsp

/-- Argument to `$decorate`: a dispatcher function (or `null`/`undefined`),
or a hooks mapping object. -/
inductive DecArg where
  | fnA : Option Dsp → DecArg
  | mapA : List (String × Cb) → DecArg

/-- The handlers the source attaches to promises: `performRequest` for a queued
descriptor (attached as both branches, line 343), and the success / error
handlers of `$http(_options).then(...)` (lines 288 and 315). -/
inductive Handler where
  | hPerform : Nat → Handler
  | hHttpOk : Nat → Handler
  | hHttpErr : Nat → Handler
deriving DecidableEq, Repr

/-- A promise reaction: optional fulfillment / rejection handlers and the
promise that the handler's result settles.  `none` handlers pass the value
through (used for promise adoption). -/
structure Reaction where
  onOk : Option Handler
  onErr : Option Handler
  target : Nat
deriving DecidableEq, Repr

/-- Promise states. -/
inductive PState where
  | ppend : List Reaction → PState
  | pres : Value → PState
  | prej : Value → PState
deriving DecidableEq, Repr

/-- What a handler returns: a plain value, a promise (adopted by the target),
or `$q.reject(v)`. -/
inductive HRes where
  | val : Value → HRes
  | prom : Nat → HRes
  | rej : Value → HRes
deriving DecidableEq, Repr

/-- Submission record for one descriptor: the owner object, the dispatcher
captured at `$send` time (line 269), and whether `_success` / `_error`
callbacks were supplied. -/
structure Sub where
  owner : Nat
  sdsp : Option Dsp
  hasSucc : Bool
  hasErr : Bool

/-- Transport call state for a descriptor: in flight (with the transport's
promise) or settled. -/
inductive TState where
  | inflight : Nat → TState
  | settledT : TState
deriving DecidableEq, Repr

/-- Ghost lifecycle phase of a descriptor (instrumentation only): waiting in
the queue, transport in flight, or perform-chain completed. -/
inductive Ph where
  | waiting : Ph
  | flying : Ph
  | donePh : Ph
deriving DecidableEq, Repr

/-- One `CommonApi` object. -/
structure ObjData where
  hasDispatch : Bool                  -- whether the object exposes `$dispatch`
  cbs : List (String × List Cb)       -- `$$cb`
  dsp : Option Dsp                    -- `$$dsp`
  scope : Option Nat                  -- `$scope`
  typeRef : Option Nat                -- `$type`
  pending : PendVal                   -- `$pending`
  promise : PromVal                   -- `$promise`
  status : Option String              -- `$status`
  response : RVal                     -- `$response`
  errFlag : Option Bool               -- `$error` (none = undefined)
  subsOrd : List Nat                  -- ghost: descriptor submission order

/-- Whole machine state. -/
structure MState where
  objs : Nat → Option ObjData
  descs : Nat → Option Bool           -- descriptor id → `_options.canceled`
  subs : Nat → Option Sub
  proms : Nat → Option PState
  trans : Nat → Option TState
  phase : Nat → Option Ph             -- ghost instrumentation
  nextP : Nat                         -- next fresh promise id
  log : List Ev                       -- newest first

/-! ## State helpers -/

def updObj (st : MState) (oid : Nat) (od : ObjData) : MState :=
  { st with objs := fun i => if i = oid then some od else st.objs i }

def updProm (st : MState) (pid : Nat) (p : PState) : MState :=
  { st with proms := fun i => if i = pid then some p else st.proms i }

def updDesc (st : MState) (k : Nat) (b : Bool) : MState :=
  { st with descs := fun i => if i = k then some b else st.descs i }

def updSub (st : MState) (k : Nat) (s : Sub) : MState :=
  { st with subs := fun i => if i = k then some s else st.subs i }

def updTrans (st : MState) (k : Nat) (t : TState) : MState :=
  { st with trans := fun i => if i = k then some t else st.trans i }

def updPhase (st : MState) (k : Nat) (p : Ph) : MState :=
  { st with phase := fun i => if i = k then some p else st.phase i }

def emit (st : MState) (e : Ev) : MState :=
  { st with log := e :: st.log }

/-- Read an object's `$$dsp` (absent object reads as no dispatcher). -/
def dspOf (st : MState) (oid : Nat) : Option Dsp :=
  match st.objs oid with
  | some od => od.dsp
  | none => none

/-- Write an object's `$$dsp`. -/
def setDsp (st : MState) (oid : Nat) (d : Option Dsp) : MState :=
  match st.objs oid with
  | some od => updObj st oid { od with dsp := d }
  | none => st

/-- Look up the instance callbacks registered for a hook
(`this.$$cb && this.$$cb[_hook]`, line 85). -/
def lookupCbs (cbs : List (String × List Cb)) (hook : String) : List Cb :=
  match cbs with
  | [] => []
  | (h, l) :: rest => if h = hook then l else lookupCbs rest hook

/-- Look up a hooks mapping's entry (`_hooks[_hook]`, line 160). -/
def lookupHook (m : List (String × Cb)) (hook : String) : Option Cb :=
  match m with
  | [] => none
  | (h, c) :: rest => if h = hook then some c else lookupHook rest hook

/-! ## Dispatch engine (`$dispatch`, lines 73-101; callback and dispatcher
     evaluation)

All of these are combined in a single fuel-indexed function `runD` so that the
recursion is structural in the fuel; `none` is fuel exhaustion. -/

/-- Sequencing of two steps of JS code: `none` (fuel exhaustion) propagates,
an exception skips the continuation, a normal completion continues. -/
def dbind {α β : Type} (x : Option (MState × Except JsE α))
    (f : MState → α → Option (MState × Except JsE β)) :
    Option (MState × Except JsE β) :=
  match x with
  | none => none
  | some (st, Except.error e) => some (st, Except.error e)
  | some (st, Except.ok a) => f st a

theorem dbind_eq_some {α β : Type} {x : Option (MState × Except JsE α)}
    {f : MState → α → Option (MState × Except JsE β)} {st' : MState}
    {r : Except JsE β} (h : dbind x f = some (st', r)) :
    (∃ st1 e, x = some (st1, Except.error e) ∧ st' = st1 ∧ r = Except.error e) ∨
    (∃ st1 a, x = some (st1, Except.ok a) ∧ f st1 a = some (st', r)) := by
  cases hx : x with
  | none => rw [hx] at h; exact absurd h (by simp [dbind])
  | some p =>
    obtain ⟨st1, r1⟩ := p
    cases r1 with
    | error e =>
      rw [hx] at h
      simp only [dbind] at h
      obtain ⟨h1, h2⟩ := Prod.mk.injEq .. ▸ Option.some.inj h
      exact Or.inl ⟨st1, e, rfl, h1.symm, h2.symm⟩
    | ok a =>
      rw [hx] at h
      simp only [dbind] at h
      exact Or.inr ⟨st1, a, rfl, h⟩

/-- Dispatch-engine jobs: run a callback, a callback list, a dispatcher value,
or a full `$dispatch` (receiver, context, hook, args). -/
inductive DJob where
  | jCb : Nat → Cb → DJob
  | jCbs : Nat → List Cb → DJob
  | jDsp : Nat → Dsp → String → List Value → DJob
  | jDispatch : Nat → Nat → String → List Value → DJob

def runD : Nat → MState → DJob → Option (MState × Except JsE Unit)
  | 0, _, _ => none
  | fuel + 1, st, job =>
    match job with
    | DJob.jCb ctx cb =>
      match cb with
      | Cb.nop => some (st, Except.ok ())
      | Cb.logC tag => some (emit st (Ev.cbLog tag), Except.ok ())
      | Cb.seqC a b =>
        dbind (runD fuel st (DJob.jCb ctx a)) fun st' _ =>
          runD fuel st' (DJob.jCb ctx b)
      | Cb.throwC tag => some (st, Except.error (JsE.thrown tag))
      | Cb.dspSame hook => runD fuel st (DJob.jDispatch ctx ctx hook [])
      | Cb.obsState tFresh tStale =>
        match st.objs ctx with
        | none => some (st, Except.error JsE.typeError)
        | some od =>
          if od.response = RVal.rnull ∧ od.errFlag = some false then
            some (emit st (Ev.cbLog tFresh), Except.ok ())
          else
            some (emit st (Ev.cbLog tStale), Except.ok ())
    | DJob.jCbs ctx cbs =>
      -- `for(i = 0; !!(cb = cbs[i]); i++) cb.apply(_ctx, _args)` (lines 86-88);
      -- an exception propagates and stops the loop.
      match cbs with
      | [] => some (st, Except.ok ())
      | cb :: rest =>
        dbind (runD fuel st (DJob.jCb ctx cb)) fun st' _ =>
          runD fuel st' (DJob.jCbs ctx rest)
    | DJob.jDsp ctx d hook args =>
      match d with
      | Dsp.fnD f => runD fuel st (DJob.jCb ctx (f hook))
      | Dsp.compD old m =>
        -- the closure built at lines 158-162: invoke the old dispatcher first,
        -- then the mapping's entry for this hook, if present.
        dbind (match old with
               | none => some (st, Except.ok ())
               | some d' => runD fuel st (DJob.jDsp ctx d' hook args)) fun st' _ =>
          match lookupHook m hook with
          | none => some (st', Except.ok ())
          | some cb => runD fuel st' (DJob.jCb ctx cb)
    | DJob.jDispatch rcv ctx hook args =>
      -- `$dispatch` (lines 73-101).  NOTE: there is no try/finally here; an
      -- exception from any callback skips the `this.$$dsp = dsp` restore.
      match st.objs rcv with
      | none => some (st, Except.error JsE.typeError)
      | some od =>
        -- `if(dsp) { this.$$dsp = undefined; dsp(_hook, _args, _ctx); }`
        dbind (match od.dsp with
               | none => some (st, Except.ok ())
               | some d => runD fuel (setDsp st rcv none) (DJob.jDsp ctx d hook args))
          fun st1 _ =>
        -- instance callbacks
        dbind (runD fuel st1 (DJob.jCbs ctx (lookupCbs od.cbs hook))) fun st2 _ =>
        -- bubble: scope if it exposes `$dispatch`, else type (lines 92-96)
        dbind (match od.scope with
               | some sid =>
                 match st2.objs sid with
                 | some sod =>
                   if sod.hasDispatch then
                     runD fuel st2 (DJob.jDispatch sid ctx hook args)
                   else
                     match od.typeRef with
                     | some tid => runD fuel st2 (DJob.jDispatch tid ctx hook args)
                     | none => some (st2, Except.ok ())
                 | none =>
                   -- a falsy `$scope`: fall through to `$type`
                   match od.typeRef with
                   | some tid => runD fuel st2 (DJob.jDispatch tid ctx hook args)
                   | none => some (st2, Except.ok ())
               | none =>
                 match od.typeRef with
                 | some tid => runD fuel st2 (DJob.jDispatch tid ctx hook args)
                 | none => some (st2, Except.ok ())) fun st3 _ =>
        -- `this.$$dsp = dsp; // reenable dsp.` (line 98)
        some (setDsp st3 rcv od.dsp, Except.ok ())

/-- `$dispatch(_hook, _args)` with the default context (`_ctx = this`). -/
def dispatch (fuel : Nat) (st : MState) (oid : Nat) (hook : String)
    (args : List Value) : Option (MState × Except JsE Unit) :=
  runD fuel st (DJob.jDispatch oid oid hook args)

/-- `$on(_hook, _fun)` (lines 122-126): append to the hook's callback list. -/
def onHook (st : MState) (oid : Nat) (hook : String) (cb : Cb) : MState :=
  match st.objs oid with
  | none => st
  | some od =>
    let rec addCb : List (String × List Cb) → List (String × List Cb)
      | [] => [(hook, [cb])]
      | (h, l) :: rest => if h = hook then (h, l ++ [cb]) :: rest else (h, l) :: addCb rest
    updObj st oid { od with cbs := addCb od.cbs }

/-- The new `$$dsp` value installed by `$decorate` (lines 158-162): a function
argument (or null) is installed as-is; a hooks mapping is wrapped in the
composing closure. -/
def mkDspArg (arg : DecArg) (old : Option Dsp) : Option Dsp :=
  match arg with
  | DecArg.fnA d => d
  | DecArg.mapA m => some (Dsp.compD old m)

/-- `$decorate(_hooks, _fun)` (lines 153-170): install the new dispatcher, run
the body, and restore the old dispatcher in a `finally` (restoration happens on
both normal and exceptional completion). -/
def decorate {α : Type} (st : MState) (oid : Nat) (arg : DecArg)
    (body : MState → Option (MState × Except JsE α)) :
    Option (MState × Except JsE α) :=
  let old := dspOf st oid
  let st1 := setDsp st oid (mkDspArg arg old)
  match body st1 with
  | none => none
  | some (st2, r) => some (setDsp st2 oid old, r)

/-- `$decorate` with a deep-embedded callback as the body (the body runs in the
callee object context). -/
def decorateCb (fuel : Nat) (st : MState) (oid : Nat) (arg : DecArg) (body : Cb) :
    Option (MState × Except JsE Unit) :=
  decorate st oid arg (fun s => runD fuel s (DJob.jCb oid body))

/-- `$dispatcher()` (lines 204-206). -/
def dispatcher (st : MState) (oid : Nat) : Option Dsp :=
  dspOf st oid

/-! ## Request lifecycle (`$send` / `performRequest`, lines 267-349) -/

def setStatus (st : MState) (oid : Nat) (s : String) : MState :=
  match st.objs oid with
  | some od => updObj st oid { od with status := some s }
  | none => st

def setPromise (st : MState) (oid : Nat) (p : PromVal) : MState :=
  match st.objs oid with
  | some od => updObj st oid { od with promise := p }
  | none => st

/-- `this.$pending.splice(this.$pending.indexOf(_options), 1)` (lines 303, 325):
removes the first occurrence; if the element is absent, `indexOf` returns `-1`
and `splice(-1, 1)` removes the last element (a no-op on an empty array). -/
def splicePending (l : List Nat) (k : Nat) : List Nat :=
  if l.contains k then l.erase k else l.dropLast

/-- `performRequest` (lines 274-337) up to the transport call: the cancellation
check, the `before-request` decorated dispatch, and the `$http(_options)`
issuance with its two settlement handlers attached. -/
def runPerform (fuel : Nat) (st : MState) (k : Nat) :
    Option (MState × Except JsE HRes) :=
  match st.subs k with
  | none => some (st, Except.error JsE.typeError)
  | some sub =>
    let oid := sub.owner
    -- `if(_options.canceled) { self.$status = 'canceled'; return $q.when(self); }`
    if st.descs k = some true then
      let st := setStatus st oid "canceled"
      let st := updPhase st k Ph.donePh
      let st := emit st (Ev.opDone k "canceled")
      some (st, Except.ok (HRes.val (Value.vobj oid)))
    else
      -- `self.$decorate(dsp, function() { this.$response = null;
      --    this.$error = false; this.$dispatch('before-request', [_options]); })`
      match decorate st oid (DecArg.fnA sub.sdsp) (fun s =>
        match s.objs oid with
        | none => some (s, Except.error JsE.typeError)
        | some od =>
          let s := updObj s oid { od with response := RVal.rnull, errFlag := some false }
          let s := emit s (Ev.beforeReq k)
          runD fuel s (DJob.jDispatch oid oid "before-request" [Value.vdesc k])) with
      | none => none
      | some (st1, Except.error e) =>
        -- a hook exception propagates out of `performRequest`; the transport
        -- call is never issued and this descriptor's turn is over
        some (emit (updPhase st1 k Ph.donePh) (Ev.opDone k "threw"), Except.error e)
      | some (st1, Except.ok _) =>
        -- `return $http(_options).then(okHandler, errHandler)` (line 288)
        let tpid := st1.nextP
        let ppid := st1.nextP + 1
        let st2 := { st1 with nextP := st1.nextP + 2 }
        let st2 := updProm st2 tpid
          (PState.ppend [⟨some (Handler.hHttpOk k), some (Handler.hHttpErr k), ppid⟩])
        let st2 := updProm st2 ppid (PState.ppend [])
        let st2 := updTrans st2 k (TState.inflight tpid)
        let st2 := updPhase st2 k Ph.flying
        let st2 := emit st2 (Ev.issued k)
        some (st2, Except.ok (HRes.prom ppid))

/-- The transport success handler (lines 288-314). -/
def runHttpOk (fuel : Nat) (st : MState) (k : Nat) (v : Value) :
    Option (MState × Except JsE HRes) :=
  match st.subs k with
  | none => some (st, Except.error JsE.typeError)
  | some sub =>
    let oid := sub.owner
    -- `if(_options.canceled) { self.$status = 'canceled'; return self; }`
    if st.descs k = some true then
      let st := setStatus st oid "canceled"
      let st := updPhase st k Ph.donePh
      let st := emit st (Ev.opDone k "canceled")
      some (st, Except.ok (HRes.val (Value.vobj oid)))
    else
      match decorate st oid (DecArg.fnA sub.sdsp) (fun s =>
        match s.objs oid with
        | none => some (s, Except.error JsE.typeError)
        | some od =>
          match od.pending with
          | PendVal.parr l =>
            let l' := splicePending l k
            -- `if(this.$pending.length === 0) this.$pending = undefined;`
            let pend' := if l' = [] then PendVal.pundef else PendVal.parr l'
            let s := updObj s oid
              { od with pending := pend', status := some "ok", response := RVal.rval v }
            let s := emit s (Ev.afterReq k v)
            dbind (runD fuel s (DJob.jDispatch oid oid "after-request" [v])) fun s' _ =>
              -- `if(_success) _success.call(this, _response);`
              if sub.hasSucc then some (emit s' (Ev.succCb k v), Except.ok ())
              else some (s', Except.ok ())
          | _ => some (s, Except.error JsE.typeError)) with
      | none => none
      | some (st1, Except.error e) =>
        some (emit (updPhase st1 k Ph.donePh) (Ev.opDone k "threw"), Except.error e)
      | some (st1, Except.ok _) =>
        -- `return self;`
        some (emit (updPhase st1 k Ph.donePh) (Ev.opDone k "ok"),
          Except.ok (HRes.val (Value.vobj oid)))

/-- The transport error handler (lines 315-336). -/
def runHttpErr (fuel : Nat) (st : MState) (k : Nat) (v : Value) :
    Option (MState × Except JsE HRes) :=
  match st.subs k with
  | none => some (st, Except.error JsE.typeError)
  | some sub =>
    let oid := sub.owner
    -- `if(_options.canceled) { self.$status = 'canceled'; return self; }`
    -- (note: the canceled branch RESOLVES, it does not reject)
    if st.descs k = some true then
      let st := setStatus st oid "canceled"
      let st := updPhase st k Ph.donePh
      let st := emit st (Ev.opDone k "canceled")
      some (st, Except.ok (HRes.val (Value.vobj oid)))
    else
      match decorate st oid (DecArg.fnA sub.sdsp) (fun s =>
        match s.objs oid with
        | none => some (s, Except.error JsE.typeError)
        | some od =>
          match od.pending with
          | PendVal.parr l =>
            let l' := splicePending l k
            -- `if(this.$pending.length === 0) this.$pending = null;`
            let pend' := if l' = [] then PendVal.pnull else PendVal.parr l'
            let s := updObj s oid
              { od with pending := pend', status := some "error", response := RVal.rval v }
            let s := emit s (Ev.afterReqErr k v)
            dbind (runD fuel s (DJob.jDispatch oid oid "after-request-error" [v])) fun s' _ =>
              -- `if(_error) _error.call(this, _response);`
              if sub.hasErr then some (emit s' (Ev.errCb k v), Except.ok ())
              else some (s', Except.ok ())
          | _ => some (s, Except.error JsE.typeError)) with
      | none => none
      | some (st1, Except.error e) =>
        some (emit (updPhase st1 k Ph.donePh) (Ev.opDone k "threw"), Except.error e)
      | some (st1, Except.ok _) =>
        -- `return $q.reject(self);`
        some (emit (updPhase st1 k Ph.donePh) (Ev.opDone k "error"),
          Except.ok (HRes.rej (Value.vobj oid)))

/-- Run a deep-embedded handler. -/
def runHandler (fuel : Nat) (st : MState) (h : Handler) (v : Value) :
    Option (MState × Except JsE HRes) :=
  match h with
  | Handler.hPerform k => runPerform fuel st k
  | Handler.hHttpOk k => runHttpOk fuel st k v
  | Handler.hHttpErr k => runHttpErr fuel st k v

/-! ## Promise settlement

Settling a promise runs its reactions; a handler's result settles the
reaction's target (or is adopted if the handler returned a pending promise).
Reactions run eagerly, preserving registration order. -/

inductive SJob where
  | sSettle : Nat → Bool → Value → SJob
  | sReacts : List Reaction → Bool → Value → SJob
  | sReact : Reaction → Bool → Value → SJob

def runS : Nat → MState → SJob → Option MState
  | 0, _, _ => none
  | fuel + 1, st, job =>
    match job with
    | SJob.sSettle pid ok v =>
      match st.proms pid with
      | some (PState.ppend rs) =>
        let st := updProm st pid (if ok then PState.pres v else PState.prej v)
        runS fuel st (SJob.sReacts rs ok v)
      | _ => some st  -- already settled (or unknown): settling is a no-op
    | SJob.sReacts rs ok v =>
      match rs with
      | [] => some st
      | r :: rest =>
        (runS fuel st (SJob.sReact r ok v)).bind fun st' =>
          runS fuel st' (SJob.sReacts rest ok v)
    | SJob.sReact r ok v =>
      match (if ok then r.onOk else r.onErr) with
      | none =>
        -- missing handler: the value passes through to the target
        runS fuel st (SJob.sSettle r.target ok v)
      | some hd =>
        match runHandler fuel st hd v with
        | none => none
        | some (st', Except.error e) =>
          -- a handler exception rejects the target with the exception
          runS fuel st' (SJob.sSettle r.target false (Value.verr e))
        | some (st', Except.ok hres) =>
          match hres with
          | HRes.val v' => runS fuel st' (SJob.sSettle r.target true v')
          | HRes.rej v' => runS fuel st' (SJob.sSettle r.target false v')
          | HRes.prom p' =>
            -- the target adopts the returned promise
            match st'.proms p' with
            | some (PState.ppend rs') =>
              some (updProm st' p' (PState.ppend (rs' ++ [⟨none, none, r.target⟩])))
            | some (PState.pres v') => runS fuel st' (SJob.sSettle r.target true v')
            | some (PState.prej v') => runS fuel st' (SJob.sSettle r.target false v')
            | none => some st'

/-- The synchronous bookkeeping at the top of `$send` (lines 269-272): record
the submission (owner, the dispatcher captured at submit time, the callbacks),
create the descriptor's `canceled` flag, and push the descriptor onto
`$pending` (`this.$pending = (this.$pending || []); this.$pending.push(...)`). -/
def sendPrep (st : MState) (oid k : Nat) (od : ObjData) (hasSucc hasErr : Bool) :
    MState :=
  let sub : Sub := ⟨oid, od.dsp, hasSucc, hasErr⟩
  let st := updSub st k sub
  let st := updDesc st k false
  let st := updPhase st k Ph.waiting
  let oldPend := match od.pending with | PendVal.parr l => l | _ => []
  match st.objs oid with
  | some od' => updObj st oid
      { od' with pending := PendVal.parr (oldPend ++ [k]),
                 subsOrd := od'.subsOrd ++ [k] }
  | none => st

/-- `$send(_options, _success, _error)` (lines 267-349).  The fresh descriptor
id `k` stands for the `_options` object; a reused id is rejected (skipped) so
that ids denote distinct descriptor objects. -/
def sendOp (fuel : Nat) (st : MState) (oid k : Nat) (hasSucc hasErr : Bool) :
    Option MState :=
  match st.objs oid with
  | none => some st
  | some od =>
    if (st.subs k).isSome || (st.descs k).isSome then some st
    else
      let st := sendPrep st oid k od hasSucc hasErr
      match od.promise with
      | PromVal.prSome p =>
        -- `this.$promise = this.$promise.then(performRequest, performRequest);`
        let q := st.nextP
        let st := { st with nextP := st.nextP + 1 }
        let st := updProm st q (PState.ppend [])
        let r : Reaction := ⟨some (Handler.hPerform k), some (Handler.hPerform k), q⟩
        match st.proms p with
        | some (PState.ppend rs) =>
          some (setPromise (updProm st p (PState.ppend (rs ++ [r]))) oid (PromVal.prSome q))
        | some (PState.pres v) =>
          -- `.then` on a settled promise: the reaction still runs (eagerly here)
          runS fuel (setPromise st oid (PromVal.prSome q)) (SJob.sReact r true v)
        | some (PState.prej v) =>
          runS fuel (setPromise st oid (PromVal.prSome q)) (SJob.sReact r false v)
        | none => some st
      | _ =>
        -- `$promise` is `undefined` or `null` (falsy): run `performRequest()` now
        match runPerform fuel st k with
        | none => none
        | some (st1, Except.error _) =>
          -- the hook exception propagates out of `$send`; the
          -- `this.$promise = ...` assignment never happens
          some st1
        | some (st1, Except.ok hres) =>
          match hres with
          | HRes.prom p' => some (setPromise st1 oid (PromVal.prSome p'))
          | HRes.val v' =>
            let p' := st1.nextP
            let st1 := { st1 with nextP := st1.nextP + 1 }
            some (setPromise (updProm st1 p' (PState.pres v')) oid (PromVal.prSome p'))
          | HRes.rej v' =>
            let p' := st1.nextP
            let st1 := { st1 with nextP := st1.nextP + 1 }
            some (setPromise (updProm st1 p' (PState.prej v')) oid (PromVal.prSome p'))

/-- Mark every listed descriptor canceled. -/
def markCanceled (st : MState) (l : List Nat) : MState :=
  match l with
  | [] => st
  | k :: rest => markCanceled (updDesc st k true) rest

/-- `$cancel()` (lines 358-369): set every pending descriptor's `canceled`
flag, then reset `$promise` to `null`. -/
def cancelOp (st : MState) (oid : Nat) : MState :=
  match st.objs oid with
  | none => st
  | some od =>
    let st :=
      match od.pending with
      | PendVal.parr l => markCanceled st l
      | _ => st
    setPromise st oid PromVal.prNull

/-- `$then(_success, _error)` (lines 227-230):
`this.$promise = this.$promise.then(_success, _error)`.  When `$promise` is
`undefined` or `null`, `.then` is invoked on a non-object: a `TypeError`.
(The user callbacks themselves are outside the claims; the attached
continuation is modelled as a pass-through.) -/
def thenOp (st : MState) (oid : Nat) : Except JsE MState :=
  match st.objs oid with
  | none => Except.error JsE.typeError
  | some od =>
    match od.promise with
    | PromVal.prSome p =>
      let q := st.nextP
      let st := { st with nextP := st.nextP + 1 }
      match st.proms p with
      | some (PState.ppend rs) =>
        let st := updProm st p (PState.ppend (rs ++ [⟨none, none, q⟩]))
        Except.ok (setPromise (updProm st q (PState.ppend [])) oid (PromVal.prSome q))
      | some (PState.pres v) =>
        Except.ok (setPromise (updProm st q (PState.pres v)) oid (PromVal.prSome q))
      | some (PState.prej v) =>
        Except.ok (setPromise (updProm st q (PState.prej v)) oid (PromVal.prSome q))
      | none => Except.ok st
    | _ => Except.error JsE.typeError

/-- `$finally(_cb)` (lines 248-251):
`this.$promise = this.$promise['finally'](_cb)`.  Same precondition: when
`$promise` is `undefined` or `null`, this is a `TypeError`. -/
def finallyOp (st : MState) (oid : Nat) : Except JsE MState :=
  match st.objs oid with
  | none => Except.error JsE.typeError
  | some od =>
    match od.promise with
    | PromVal.prSome p =>
      let q := st.nextP
      let st := { st with nextP := st.nextP + 1 }
      match st.proms p with
      | some (PState.ppend rs) =>
        let st := updProm st p (PState.ppend (rs ++ [⟨none, none, q⟩]))
        Except.ok (setPromise (updProm st q (PState.ppend [])) oid (PromVal.prSome q))
      | some (PState.pres v) =>
        Except.ok (setPromise (updProm st q (PState.pres v)) oid (PromVal.prSome q))
      | some (PState.prej v) =>
        Except.ok (setPromise (updProm st q (PState.prej v)) oid (PromVal.prSome q))
      | none => Except.ok st
    | _ => Except.error JsE.typeError

/-! ## The action machine

An execution is an adversarially chosen list of actions: user calls (`$send`,
`$cancel`, `$on`, installing/removing a dispatch override) and transport
settlements.  `step` is total on valid states; `none` only signals fuel
exhaustion. -/

inductive Act where
  | send : Nat → Nat → Bool → Bool → Act        -- oid, descriptor id, has callbacks
  | cancel : Nat → Act
  | settleA : Nat → Bool → Nat → Act            -- descriptor id, success?, payload
  | setDspA : Nat → Option Dsp → Act            -- install/remove `$$dsp`
  | onA : Nat → String → Cb → Act               -- `$on`

def step (fuel : Nat) (st : MState) (a : Act) : Option MState :=
  match a with
  | Act.send oid k s e => sendOp fuel st oid k s e
  | Act.cancel oid => some (cancelOp st oid)
  | Act.settleA k ok n =>
    match st.trans k with
    | some (TState.inflight pid) =>
      let st := updTrans st k TState.settledT
      let st := emit st (Ev.tSettle k)
      runS fuel st (SJob.sSettle pid ok (Value.vnum n))
    | _ => some st  -- not in flight: nothing to settle
  | Act.setDspA oid d => some (setDsp st oid d)
  | Act.onA oid h cb => some (onHook st oid h cb)

def exec (fuel : Nat) (st : MState) : List Act → Option MState
  | [] => some st
  | a :: rest => (step fuel st a).bind fun st' => exec fuel st' rest

/-! ## Initial states -/

/-- A freshly built object: no hooks, no override, no scope/type, nothing
pending, no promise. -/
def initObj : ObjData :=
  { hasDispatch := true, cbs := [], dsp := none, scope := none, typeRef := none
    pending := PendVal.pundef, promise := PromVal.prUndef, status := none
    response := RVal.rundef, errFlag := none, subsOrd := [] }

/-- A machine with a single fresh object (id 0). -/
def init1 : MState :=
  { objs := fun i => if i = 0 then some initObj else none
    descs := fun _ => none, subs := fun _ => none, proms := fun _ => none
    trans := fun _ => none, phase := fun _ => none, nextP := 0, log := [] }

/-! ## Dispatch frame: the dispatch engine only touches `$$dsp` and the log

Hook callbacks can log, throw and re-dispatch, but they cannot reach the
promise heap, the descriptors, or any lifecycle field of any object; this is
the key separation used by the lifecycle proofs. -/

/-- Project away the `$$dsp` field. -/
def eraseDsp (od : ObjData) : ObjData := { od with dsp := none }

/-- Dispatch frame: only `$$dsp` slots may change, and the log grows only by
`cbLog` entries. -/
def DFrame (st st' : MState) : Prop :=
  st'.descs = st.descs ∧ st'.subs = st.subs ∧ st'.proms = st.proms ∧
  st'.trans = st.trans ∧ st'.phase = st.phase ∧ st'.nextP = st.nextP ∧
  (∀ i, (st'.objs i).map eraseDsp = (st.objs i).map eraseDsp) ∧
  (∃ l, st'.log = l ++ st.log ∧ ∀ e ∈ l, ∃ t, e = Ev.cbLog t)

theorem DFrame_refl (st : MState) : DFrame st st :=
  ⟨rfl, rfl, rfl, rfl, rfl, rfl, fun _ => rfl, ⟨[], by simp, by simp⟩⟩

theorem DFrame_trans {a b c : MState} (h1 : DFrame a b) (h2 : DFrame b c) :
    DFrame a c := by
  obtain ⟨d1, s1, p1, t1, f1, n1, o1, l1, hl1, he1⟩ := h1
  obtain ⟨d2, s2, p2, t2, f2, n2, o2, l2, hl2, he2⟩ := h2
  refine ⟨d2.trans d1, s2.trans s1, p2.trans p1, t2.trans t1, f2.trans f1,
    n2.trans n1, fun i => (o2 i).trans (o1 i), ⟨l2 ++ l1, ?_, ?_⟩⟩
  · rw [hl2, hl1, List.append_assoc]
  · intro e he
    rcases List.mem_append.mp he with h | h
    · exact he2 e h
    · exact he1 e h

theorem DFrame_emit (st : MState) (t : String) :
    DFrame st (emit st (Ev.cbLog t)) :=
  ⟨rfl, rfl, rfl, rfl, rfl, rfl, fun _ => rfl, ⟨[Ev.cbLog t], rfl, by simp⟩⟩

theorem DFrame_setDsp (st : MState) (oid : Nat) (d : Option Dsp) :
    DFrame st (setDsp st oid d) := by
  unfold setDsp
  cases h : st.objs oid with
  | none => exact DFrame_refl st
  | some od =>
    refine ⟨rfl, rfl, rfl, rfl, rfl, rfl, fun i => ?_, ⟨[], rfl, by simp⟩⟩
    simp only [updObj]
    by_cases hi : i = oid
    · subst hi; simp [h, eraseDsp]
    · simp [hi]

/-- `DFrame` is preserved by `dbind`-sequencing. -/
theorem DFrame_dbind {α β : Type} {st0 : MState}
    {x : Option (MState × Except JsE α)}
    {f : MState → α → Option (MState × Except JsE β)} {st' : MState}
    {r : Except JsE β}
    (hx : ∀ st1 r1, x = some (st1, r1) → DFrame st0 st1)
    (hf : ∀ st1 a st2 r2, x = some (st1, Except.ok a) →
      f st1 a = some (st2, r2) → DFrame st1 st2)
    (h : dbind x f = some (st', r)) : DFrame st0 st' := by
  rcases dbind_eq_some h with ⟨st1, e, hx1, heq, _⟩ | ⟨st1, a, hx1, hf1⟩
  · exact heq ▸ hx st1 _ hx1
  · exact DFrame_trans (hx st1 _ hx1) (hf st1 a st' r hx1 hf1)

theorem runD_frame : ∀ fuel st job st' r,
    runD fuel st job = some (st', r) → DFrame st st' := by
  intro fuel
  induction fuel with
  | zero => intro st job st' r h; exact absurd h (by simp [runD])
  | succ n ih =>
    intro st job st' r h
    cases job with
    | jCb ctx cb =>
      cases cb with
      | nop =>
        simp only [runD] at h
        obtain ⟨h1, _⟩ := Prod.mk.injEq .. ▸ Option.some.inj h
        exact h1 ▸ DFrame_refl st
      | logC tag =>
        simp only [runD] at h
        obtain ⟨h1, _⟩ := Prod.mk.injEq .. ▸ Option.some.inj h
        exact h1 ▸ DFrame_emit st tag
      | seqC a b =>
        simp only [runD] at h
        exact DFrame_dbind (fun st1 r1 hx => ih st _ st1 r1 hx)
          (fun st1 _ st2 r2 _ hf => ih st1 _ st2 r2 hf) h
      | throwC tag =>
        simp only [runD] at h
        obtain ⟨h1, _⟩ := Prod.mk.injEq .. ▸ Option.some.inj h
        exact h1 ▸ DFrame_refl st
      | dspSame hook =>
        simp only [runD] at h
        exact ih st _ st' r h
      | obsState t1 t2 =>
        simp only [runD] at h
        cases ho : st.objs ctx with
        | none =>
          simp only [ho] at h
          obtain ⟨h1, _⟩ := Prod.mk.injEq .. ▸ Option.some.inj h
          exact h1 ▸ DFrame_refl st
        | some od =>
          simp only [ho] at h
          split at h <;>
            (obtain ⟨h1, _⟩ := Prod.mk.injEq .. ▸ Option.some.inj h
             exact h1 ▸ DFrame_emit st _)
    | jCbs ctx cbs =>
      cases cbs with
      | nil =>
        simp only [runD] at h
        obtain ⟨h1, _⟩ := Prod.mk.injEq .. ▸ Option.some.inj h
        exact h1 ▸ DFrame_refl st
      | cons cb rest =>
        simp only [runD] at h
        exact DFrame_dbind (fun st1 r1 hx => ih st _ st1 r1 hx)
          (fun st1 _ st2 r2 _ hf => ih st1 _ st2 r2 hf) h
    | jDsp ctx d hook args =>
      cases d with
      | fnD f =>
        simp only [runD] at h
        exact ih st _ st' r h
      | compD old m =>
        simp only [runD] at h
        refine DFrame_dbind (fun st1 r1 hx => ?_) (fun st1 _ st2 r2 _ hf => ?_) h
        · cases old with
          | none =>
            obtain ⟨h1, _⟩ := Prod.mk.injEq .. ▸ Option.some.inj hx
            exact h1 ▸ DFrame_refl st
          | some d' => exact ih st _ st1 r1 hx
        · cases hm : lookupHook m hook with
          | none =>
            rw [hm] at hf
            obtain ⟨h1, _⟩ := Prod.mk.injEq .. ▸ Option.some.inj hf
            exact h1 ▸ DFrame_refl st1
          | some cb =>
            rw [hm] at hf
            exact ih st1 _ st2 r2 hf
    | jDispatch rcv ctx hook args =>
      simp only [runD] at h
      cases ho : st.objs rcv with
      | none =>
        simp only [ho] at h
        obtain ⟨h1, _⟩ := Prod.mk.injEq .. ▸ Option.some.inj h
        exact h1 ▸ DFrame_refl st
      | some od =>
        simp only [ho] at h
        refine DFrame_dbind ?_ ?_ h
        · -- the override step
          intro st1 r1 hx
          cases hd : od.dsp with
          | none =>
            rw [hd] at hx
            obtain ⟨h1, _⟩ := Prod.mk.injEq .. ▸ Option.some.inj hx
            exact h1 ▸ DFrame_refl st
          | some d =>
            rw [hd] at hx
            exact DFrame_trans (DFrame_setDsp st rcv none) (ih _ _ st1 r1 hx)
        · -- instance callbacks, bubbling, restore
          intro st1 a stR rR hxe hf
          refine DFrame_dbind (fun st2 r2 hx2 => ih st1 _ st2 r2 hx2) ?_ hf
          intro st2 a2 stR3 rR3 hxe2 hf3
          refine DFrame_dbind ?_ ?_ hf3
          · -- bubbling branch analysis
            intro st3 r3 hx3
            cases hsc : od.scope with
            | some sid =>
              simp only [hsc] at hx3
              cases hso : st2.objs sid with
              | some sod =>
                simp only [hso] at hx3
                by_cases hhd : sod.hasDispatch
                · rw [if_pos hhd] at hx3
                  exact ih st2 _ st3 r3 hx3
                · rw [if_neg hhd] at hx3
                  cases ht : od.typeRef with
                  | some tid =>
                    simp only [ht] at hx3
                    exact ih st2 _ st3 r3 hx3
                  | none =>
                    simp only [ht] at hx3
                    obtain ⟨h1, _⟩ := Prod.mk.injEq .. ▸ Option.some.inj hx3
                    exact h1 ▸ DFrame_refl st2
              | none =>
                simp only [hso] at hx3
                cases ht : od.typeRef with
                | some tid =>
                  simp only [ht] at hx3
                  exact ih st2 _ st3 r3 hx3
                | none =>
                  simp only [ht] at hx3
                  obtain ⟨h1, _⟩ := Prod.mk.injEq .. ▸ Option.some.inj hx3
                  exact h1 ▸ DFrame_refl st2
            | none =>
              simp only [hsc] at hx3
              cases ht : od.typeRef with
              | some tid =>
                simp only [ht] at hx3
                exact ih st2 _ st3 r3 hx3
              | none =>
                simp only [ht] at hx3
                obtain ⟨h1, _⟩ := Prod.mk.injEq .. ▸ Option.some.inj hx3
                exact h1 ▸ DFrame_refl st2
          · -- the `this.$$dsp = dsp` restore
            intro st3 a3 st4 r4 hxe3 hf4
            obtain ⟨h1, _⟩ := Prod.mk.injEq .. ▸ Option.some.inj hf4
            exact h1 ▸ DFrame_setDsp st3 rcv od.dsp

/-! ## Small state-update lemmas -/

@[simp] theorem updObj_descs (st : MState) (oid : Nat) (od : ObjData) :
    (updObj st oid od).descs = st.descs := rfl
@[simp] theorem updProm_descs (st : MState) (pid : Nat) (p : PState) :
    (updProm st pid p).descs = st.descs := rfl
@[simp] theorem updTrans_descs (st : MState) (k : Nat) (t : TState) :
    (updTrans st k t).descs = st.descs := rfl
@[simp] theorem updPhase_descs (st : MState) (k : Nat) (p : Ph) :
    (updPhase st k p).descs = st.descs := rfl
@[simp] theorem updSub_descs (st : MState) (k : Nat) (s : Sub) :
    (updSub st k s).descs = st.descs := rfl
@[simp] theorem emit_descs (st : MState) (e : Ev) :
    (emit st e).descs = st.descs := rfl

theorem setDsp_descs (st : MState) (oid : Nat) (d : Option Dsp) :
    (setDsp st oid d).descs = st.descs := by
  unfold setDsp; cases st.objs oid <;> rfl

theorem setStatus_descs (st : MState) (oid : Nat) (s : String) :
    (setStatus st oid s).descs = st.descs := by
  unfold setStatus; cases st.objs oid <;> rfl

theorem setPromise_descs (st : MState) (oid : Nat) (p : PromVal) :
    (setPromise st oid p).descs = st.descs := by
  unfold setPromise; cases st.objs oid <;> rfl

@[simp] theorem updObj_log (st : MState) (oid : Nat) (od : ObjData) :
    (updObj st oid od).log = st.log := rfl
@[simp] theorem updProm_log (st : MState) (pid : Nat) (p : PState) :
    (updProm st pid p).log = st.log := rfl
@[simp] theorem updTrans_log (st : MState) (k : Nat) (t : TState) :
    (updTrans st k t).log = st.log := rfl
@[simp] theorem updPhase_log (st : MState) (k : Nat) (p : Ph) :
    (updPhase st k p).log = st.log := rfl
@[simp] theorem updSub_log (st : MState) (k : Nat) (s : Sub) :
    (updSub st k s).log = st.log := rfl
@[simp] theorem updDesc_log (st : MState) (k : Nat) (b : Bool) :
    (updDesc st k b).log = st.log := rfl
@[simp] theorem emit_log (st : MState) (e : Ev) :
    (emit st e).log = e :: st.log := rfl

theorem setDsp_log (st : MState) (oid : Nat) (d : Option Dsp) :
    (setDsp st oid d).log = st.log := by
  unfold setDsp; cases st.objs oid <;> rfl

theorem setStatus_log (st : MState) (oid : Nat) (s : String) :
    (setStatus st oid s).log = st.log := by
  unfold setStatus; cases st.objs oid <;> rfl

theorem setPromise_log (st : MState) (oid : Nat) (p : PromVal) :
    (setPromise st oid p).log = st.log := by
  unfold setPromise; cases st.objs oid <;> rfl

theorem updDesc_descs_ne (st : MState) (k k' : Nat) (b : Bool) (h : k ≠ k') :
    (updDesc st k' b).descs k = st.descs k := by
  simp [updDesc, h]

@[simp] theorem updSub_objs (st : MState) (k : Nat) (s : Sub) :
    (updSub st k s).objs = st.objs := rfl
@[simp] theorem updDesc_objs (st : MState) (k : Nat) (b : Bool) :
    (updDesc st k b).objs = st.objs := rfl
@[simp] theorem updPhase_objs (st : MState) (k : Nat) (p : Ph) :
    (updPhase st k p).objs = st.objs := rfl
@[simp] theorem updProm_objs (st : MState) (pid : Nat) (p : PState) :
    (updProm st pid p).objs = st.objs := rfl
@[simp] theorem updTrans_objs (st : MState) (k : Nat) (t : TState) :
    (updTrans st k t).objs = st.objs := rfl
@[simp] theorem emit_objs (st : MState) (e : Ev) :
    (emit st e).objs = st.objs := rfl
@[simp] theorem updProm_proms_at (st : MState) (pid : Nat) (p : PState) :
    (updProm st pid p).proms pid = some p := by simp [updProm]
@[simp] theorem updDesc_descs_at (st : MState) (k : Nat) (b : Bool) :
    (updDesc st k b).descs k = some b := by simp [updDesc]

/-! ## Log extensions -/

/-- The log of `st'` extends the log of `st` by events satisfying `P`. -/
def LogExtP (P : Ev → Prop) (st st' : MState) : Prop :=
  ∃ l, st'.log = l ++ st.log ∧ ∀ e ∈ l, P e

theorem LogExtP_refl (P : Ev → Prop) (st : MState) : LogExtP P st st :=
  ⟨[], by simp, by simp⟩

theorem LogExtP_of_eq (P : Ev → Prop) {st st' : MState} (h : st'.log = st.log) :
    LogExtP P st st' :=
  ⟨[], by simp [h], by simp⟩

theorem LogExtP_trans {P : Ev → Prop} {a b c : MState}
    (h1 : LogExtP P a b) (h2 : LogExtP P b c) : LogExtP P a c := by
  obtain ⟨l1, hl1, he1⟩ := h1
  obtain ⟨l2, hl2, he2⟩ := h2
  refine ⟨l2 ++ l1, ?_, ?_⟩
  · rw [hl2, hl1, List.append_assoc]
  · intro e he
    rcases List.mem_append.mp he with h | h
    · exact he2 e h
    · exact he1 e h

theorem LogExtP_emit {P : Ev → Prop} (st : MState) {e : Ev} (he : P e) :
    LogExtP P st (emit st e) :=
  ⟨[e], rfl, by simpa using he⟩

/-- Events attributed to descriptor `k` that must not occur once `k` is
canceled: its transport issuance, its `before-request` / `after-request` /
`after-request-error` dispatches, and its success / error callbacks. -/
def evForB (k : Nat) (e : Ev) : Bool :=
  match e with
  | Ev.issued k' => k' == k
  | Ev.beforeReq k' => k' == k
  | Ev.afterReq k' _ => k' == k
  | Ev.afterReqErr k' _ => k' == k
  | Ev.succCb k' _ => k' == k
  | Ev.errCb k' _ => k' == k
  | _ => false

theorem LogExtP_of_DFrame {k : Nat} {st st' : MState} (h : DFrame st st') :
    LogExtP (fun e => evForB k e = false) st st' := by
  obtain ⟨-, -, -, -, -, -, -, l, hl, he⟩ := h
  refine ⟨l, hl, fun e hme => ?_⟩
  obtain ⟨t, rfl⟩ := he e hme
  rfl

/-! ## Cancellation safety of the lifecycle handlers -/

/-- Abbreviation for the event predicate used by the cancellation proofs. -/
def NoKev (k : Nat) (st st' : MState) : Prop :=
  LogExtP (fun e => evForB k e = false) st st'

theorem decorate_descs_logext {k : Nat} {α : Type} {st : MState} {oid : Nat}
    {arg : DecArg} {body : MState → Option (MState × Except JsE α)}
    {st' : MState} {r : Except JsE α}
    (hbody : ∀ s s' r', body s = some (s', r') →
      s'.descs = s.descs ∧ NoKev k s s')
    (h : decorate st oid arg body = some (st', r)) :
    st'.descs = st.descs ∧ NoKev k st st' := by
  simp only [decorate] at h
  cases hb : body (setDsp st oid (mkDspArg arg (dspOf st oid))) with
  | none => rw [hb] at h; exact absurd h (by simp)
  | some p =>
    obtain ⟨s2, r2⟩ := p
    rw [hb] at h
    obtain ⟨h1, _⟩ := Prod.mk.injEq .. ▸ Option.some.inj h
    obtain ⟨hd, hl⟩ := hbody _ _ _ hb
    subst h1
    constructor
    · rw [setDsp_descs, hd, setDsp_descs]
    · have h2 : NoKev k (setDsp st oid (mkDspArg arg (dspOf st oid))) s2 := hl
      refine LogExtP_trans (LogExtP_trans ?_ h2) ?_
      · exact LogExtP_of_eq _ (setDsp_log ..)
      · exact LogExtP_of_eq _ (setDsp_log ..)

theorem dbind_runD_tail_descs_logext {k fuel : Nat} {s : MState} {j : DJob}
    {E : Ev} {c : Bool} {s' : MState} {r : Except JsE Unit}
    (hE : evForB k E = false)
    (h : dbind (runD fuel s j)
      (fun s2 _ => if c then some (emit s2 E, Except.ok ())
                   else some (s2, Except.ok ())) = some (s', r)) :
    s'.descs = s.descs ∧ NoKev k s s' := by
  rcases dbind_eq_some h with ⟨s1, e, hx, heq, _⟩ | ⟨s1, a, hx, hf⟩
  · have hfr := runD_frame _ _ _ _ _ hx
    subst heq
    exact ⟨hfr.1, LogExtP_of_DFrame hfr⟩
  · have hfr := runD_frame _ _ _ _ _ hx
    have base : s1.descs = s.descs ∧ NoKev k s s1 := ⟨hfr.1, LogExtP_of_DFrame hfr⟩
    cases c with
    | true =>
      obtain ⟨h1, _⟩ := Prod.mk.injEq .. ▸ Option.some.inj hf
      subst h1
      exact ⟨base.1, LogExtP_trans base.2 (LogExtP_emit _ hE)⟩
    | false =>
      obtain ⟨h1, _⟩ := Prod.mk.injEq .. ▸ Option.some.inj hf
      subst h1
      exact base

theorem runHttpOk_cancel_safe {k j fuel : Nat} {st st' : MState} {v : Value}
    {r : Except JsE HRes} (hk : st.descs k = some true)
    (hrun : runHttpOk fuel st j v = some (st', r)) :
    st'.descs = st.descs ∧ NoKev k st st' := by
  cases hs : st.subs j with
  | none =>
    simp only [runHttpOk, hs] at hrun
    obtain ⟨h1, _⟩ := Prod.mk.injEq .. ▸ Option.some.inj hrun
    subst h1; exact ⟨rfl, LogExtP_refl _ _⟩
  | some sub =>
    simp only [runHttpOk, hs] at hrun
    by_cases hc : st.descs j = some true
    · rw [if_pos hc] at hrun
      obtain ⟨h1, _⟩ := Prod.mk.injEq .. ▸ Option.some.inj hrun
      subst h1
      refine ⟨by rw [emit_descs, updPhase_descs, setStatus_descs], ?_⟩
      refine LogExtP_trans (LogExtP_of_eq _ ?_) (LogExtP_emit _ ?_)
      · rw [updPhase_log, setStatus_log]
      · rfl
    · rw [if_neg hc] at hrun
      have hj : j ≠ k := fun h => hc (h ▸ hk)
      have hne : (j == k) = false := beq_eq_false_iff_ne.mpr hj
      split at hrun
      · exact absurd hrun (by simp)
      · -- decorate returned an exception: `opDone j "threw"` is appended
        rename_i st1 e heq
        obtain ⟨h1, _⟩ := Prod.mk.injEq .. ▸ Option.some.inj hrun
        subst h1
        have hdec := decorate_descs_logext (k := k) ?_ heq
        · refine ⟨by rw [emit_descs, updPhase_descs, hdec.1], ?_⟩
          refine LogExtP_trans (LogExtP_trans hdec.2 (LogExtP_of_eq _ ?_))
            (LogExtP_emit _ ?_)
          · rw [updPhase_log]
          · rfl
        · -- the decorated body only touches the object, the log, and dispatch
          intro s s' r' hb
          split at hb
          · obtain ⟨h1, _⟩ := Prod.mk.injEq .. ▸ Option.some.inj hb
            subst h1; exact ⟨rfl, LogExtP_refl _ _⟩
          · rename_i od hod
            split at hb
            · rename_i l hl
              have htail := dbind_runD_tail_descs_logext (k := k)
                (E := Ev.succCb j v) (by simpa [evForB] using hne) hb
              refine ⟨by rw [htail.1, emit_descs, updObj_descs], ?_⟩
              refine LogExtP_trans (LogExtP_trans (LogExtP_of_eq _ ?_)
                (LogExtP_emit _ ?_)) htail.2
              · rw [updObj_log]
              · simpa [evForB] using hne
            · obtain ⟨h1, _⟩ := Prod.mk.injEq .. ▸ Option.some.inj hb
              subst h1; exact ⟨rfl, LogExtP_refl _ _⟩
      · -- decorate completed normally: `opDone j "ok"` is appended
        rename_i st1 u heq
        obtain ⟨h1, _⟩ := Prod.mk.injEq .. ▸ Option.some.inj hrun
        subst h1
        have hdec := decorate_descs_logext (k := k) ?_ heq
        · refine ⟨by rw [emit_descs, updPhase_descs, hdec.1], ?_⟩
          refine LogExtP_trans (LogExtP_trans hdec.2 (LogExtP_of_eq _ ?_))
            (LogExtP_emit _ ?_)
          · rw [updPhase_log]
          · rfl
        · intro s s' r' hb
          split at hb
          · obtain ⟨h1, _⟩ := Prod.mk.injEq .. ▸ Option.some.inj hb
            subst h1; exact ⟨rfl, LogExtP_refl _ _⟩
          · rename_i od hod
            split at hb
            · rename_i l hl
              have htail := dbind_runD_tail_descs_logext (k := k)
                (E := Ev.succCb j v) (by simpa [evForB] using hne) hb
              refine ⟨by rw [htail.1, emit_descs, updObj_descs], ?_⟩
              refine LogExtP_trans (LogExtP_trans (LogExtP_of_eq _ ?_)
                (LogExtP_emit _ ?_)) htail.2
              · rw [updObj_log]
              · simpa [evForB] using hne
            · obtain ⟨h1, _⟩ := Prod.mk.injEq .. ▸ Option.some.inj hb
              subst h1; exact ⟨rfl, LogExtP_refl _ _⟩

theorem runHttpErr_cancel_safe {k j fuel : Nat} {st st' : MState} {v : Value}
    {r : Except JsE HRes} (hk : st.descs k = some true)
    (hrun : runHttpErr fuel st j v = some (st', r)) :
    st'.descs = st.descs ∧ NoKev k st st' := by
  cases hs : st.subs j with
  | none =>
    simp only [runHttpErr, hs] at hrun
    obtain ⟨h1, _⟩ := Prod.mk.injEq .. ▸ Option.some.inj hrun
    subst h1; exact ⟨rfl, LogExtP_refl _ _⟩
  | some sub =>
    simp only [runHttpErr, hs] at hrun
    by_cases hc : st.descs j = some true
    · rw [if_pos hc] at hrun
      obtain ⟨h1, _⟩ := Prod.mk.injEq .. ▸ Option.some.inj hrun
      subst h1
      refine ⟨by rw [emit_descs, updPhase_descs, setStatus_descs], ?_⟩
      refine LogExtP_trans (LogExtP_of_eq _ ?_) (LogExtP_emit _ ?_)
      · rw [updPhase_log, setStatus_log]
      · rfl
    · rw [if_neg hc] at hrun
      have hj : j ≠ k := fun h => hc (h ▸ hk)
      have hne : (j == k) = false := beq_eq_false_iff_ne.mpr hj
      split at hrun
      · exact absurd hrun (by simp)
      · rename_i st1 e heq
        obtain ⟨h1, _⟩ := Prod.mk.injEq .. ▸ Option.some.inj hrun
        subst h1
        have hdec := decorate_descs_logext (k := k) ?_ heq
        · refine ⟨by rw [emit_descs, updPhase_descs, hdec.1], ?_⟩
          exact LogExtP_trans hdec.2 (LogExtP_emit _ rfl)
        · intro s s' r' hb
          split at hb
          · obtain ⟨h1, _⟩ := Prod.mk.injEq .. ▸ Option.some.inj hb
            subst h1; exact ⟨rfl, LogExtP_refl _ _⟩
          · rename_i od hod
            split at hb
            · rename_i l hl
              have htail := dbind_runD_tail_descs_logext (k := k)
                (E := Ev.errCb j v) (by simpa [evForB] using hne) hb
              refine ⟨by rw [htail.1, emit_descs, updObj_descs], ?_⟩
              refine LogExtP_trans (LogExtP_trans (LogExtP_of_eq _ rfl)
                (LogExtP_emit _ ?_)) htail.2
              simpa [evForB] using hne
            · obtain ⟨h1, _⟩ := Prod.mk.injEq .. ▸ Option.some.inj hb
              subst h1; exact ⟨rfl, LogExtP_refl _ _⟩
      · rename_i st1 u heq
        obtain ⟨h1, _⟩ := Prod.mk.injEq .. ▸ Option.some.inj hrun
        subst h1
        have hdec := decorate_descs_logext (k := k) ?_ heq
        · refine ⟨by rw [emit_descs, updPhase_descs, hdec.1], ?_⟩
          exact LogExtP_trans hdec.2 (LogExtP_emit _ rfl)
        · intro s s' r' hb
          split at hb
          · obtain ⟨h1, _⟩ := Prod.mk.injEq .. ▸ Option.some.inj hb
            subst h1; exact ⟨rfl, LogExtP_refl _ _⟩
          · rename_i od hod
            split at hb
            · rename_i l hl
              have htail := dbind_runD_tail_descs_logext (k := k)
                (E := Ev.errCb j v) (by simpa [evForB] using hne) hb
              refine ⟨by rw [htail.1, emit_descs, updObj_descs], ?_⟩
              refine LogExtP_trans (LogExtP_trans (LogExtP_of_eq _ rfl)
                (LogExtP_emit _ ?_)) htail.2
              simpa [evForB] using hne
            · obtain ⟨h1, _⟩ := Prod.mk.injEq .. ▸ Option.some.inj hb
              subst h1; exact ⟨rfl, LogExtP_refl _ _⟩

theorem runPerform_cancel_safe {k j fuel : Nat} {st st' : MState}
    {r : Except JsE HRes} (hk : st.descs k = some true)
    (hrun : runPerform fuel st j = some (st', r)) :
    st'.descs = st.descs ∧ NoKev k st st' := by
  cases hs : st.subs j with
  | none =>
    simp only [runPerform, hs] at hrun
    obtain ⟨h1, _⟩ := Prod.mk.injEq .. ▸ Option.some.inj hrun
    subst h1; exact ⟨rfl, LogExtP_refl _ _⟩
  | some sub =>
    simp only [runPerform, hs] at hrun
    by_cases hc : st.descs j = some true
    · rw [if_pos hc] at hrun
      obtain ⟨h1, _⟩ := Prod.mk.injEq .. ▸ Option.some.inj hrun
      subst h1
      refine ⟨by rw [emit_descs, updPhase_descs, setStatus_descs], ?_⟩
      refine LogExtP_trans (LogExtP_of_eq _ ?_) (LogExtP_emit _ ?_)
      · rw [updPhase_log, setStatus_log]
      · rfl
    · rw [if_neg hc] at hrun
      have hj : j ≠ k := fun h => hc (h ▸ hk)
      have hne : (j == k) = false := beq_eq_false_iff_ne.mpr hj
      split at hrun
      · exact absurd hrun (by simp)
      · rename_i st1 e heq
        obtain ⟨h1, _⟩ := Prod.mk.injEq .. ▸ Option.some.inj hrun
        subst h1
        have hdec := decorate_descs_logext (k := k) ?_ heq
        · refine ⟨by rw [emit_descs, updPhase_descs, hdec.1], ?_⟩
          exact LogExtP_trans hdec.2 (LogExtP_emit _ rfl)
        · intro s s' r' hb
          split at hb
          · obtain ⟨h1, _⟩ := Prod.mk.injEq .. ▸ Option.some.inj hb
            subst h1; exact ⟨rfl, LogExtP_refl _ _⟩
          · rename_i od hod
            -- body: reset `$response`/`$error`, log `before-request`, dispatch
            have hfr := runD_frame _ _ _ _ _ hb
            refine ⟨by rw [hfr.1, emit_descs, updObj_descs], ?_⟩
            refine LogExtP_trans ⟨[Ev.beforeReq j], rfl, ?_⟩ (LogExtP_of_DFrame hfr)
            simpa [evForB] using hne
      · rename_i st1 u heq
        obtain ⟨h1, _⟩ := Prod.mk.injEq .. ▸ Option.some.inj hrun
        subst h1
        have hdec := decorate_descs_logext (k := k) ?_ heq
        · refine ⟨?_, ?_⟩
          · rw [emit_descs, updPhase_descs, updTrans_descs, updProm_descs,
              updProm_descs]
            exact hdec.1
          · refine LogExtP_trans hdec.2 (LogExtP_trans (LogExtP_of_eq _ rfl)
              (LogExtP_emit _ ?_))
            simpa [evForB] using hne
        · intro s s' r' hb
          split at hb
          · obtain ⟨h1, _⟩ := Prod.mk.injEq .. ▸ Option.some.inj hb
            subst h1; exact ⟨rfl, LogExtP_refl _ _⟩
          · rename_i od hod
            have hfr := runD_frame _ _ _ _ _ hb
            refine ⟨by rw [hfr.1, emit_descs, updObj_descs], ?_⟩
            refine LogExtP_trans ⟨[Ev.beforeReq j], rfl, ?_⟩ (LogExtP_of_DFrame hfr)
            simpa [evForB] using hne

theorem runHandler_cancel_safe {k fuel : Nat} {st st' : MState} {h : Handler}
    {v : Value} {r : Except JsE HRes} (hk : st.descs k = some true)
    (hrun : runHandler fuel st h v = some (st', r)) :
    st'.descs = st.descs ∧ NoKev k st st' := by
  cases h with
  | hPerform j => exact runPerform_cancel_safe hk hrun
  | hHttpOk j => exact runHttpOk_cancel_safe hk hrun
  | hHttpErr j => exact runHttpErr_cancel_safe hk hrun

theorem runS_cancel_safe {k : Nat} : ∀ fuel st job st', st.descs k = some true →
    runS fuel st job = some st' → st'.descs = st.descs ∧ NoKev k st st' := by
  intro fuel
  induction fuel with
  | zero => intro st job st' _ h; exact absurd h (by simp [runS])
  | succ n ih =>
    intro st job st' hk h
    cases job with
    | sSettle pid ok v =>
      simp only [runS] at h
      split at h
      · rename_i rs hp
        have h2 := ih _ _ _ (by simpa using hk) h
        refine ⟨by rw [h2.1, updProm_descs], ?_⟩
        exact LogExtP_trans (LogExtP_of_eq _ (updProm_log ..)) h2.2
      · obtain rfl := Option.some.inj h
        exact ⟨rfl, LogExtP_refl _ _⟩
    | sReacts rs ok v =>
      simp only [runS] at h
      cases rs with
      | nil =>
        obtain rfl := Option.some.inj h
        exact ⟨rfl, LogExtP_refl _ _⟩
      | cons r rest =>
        rcases Option.bind_eq_some.mp h with ⟨st1, h1, h2⟩
        have ha := ih _ _ _ hk h1
        have hb := ih _ _ _ (by rw [ha.1]; exact hk) h2
        exact ⟨by rw [hb.1, ha.1], LogExtP_trans ha.2 hb.2⟩
    | sReact r ok v =>
      simp only [runS] at h
      split at h
      · -- pass-through reaction
        exact ih _ _ _ hk h
      · rename_i hd hh
        split at h
        · exact absurd h (by simp)
        · -- the handler threw: the target is rejected with the exception
          rename_i st1 e hrh
          have ha := runHandler_cancel_safe hk hrh
          have hb := ih _ _ _ (by rw [ha.1]; exact hk) h
          exact ⟨by rw [hb.1, ha.1], LogExtP_trans ha.2 hb.2⟩
        · rename_i st1 hres hrh
          have ha := runHandler_cancel_safe hk hrh
          cases hres with
          | val v' =>
            have hb := ih _ _ _ (by rw [ha.1]; exact hk) h
            exact ⟨by rw [hb.1, ha.1], LogExtP_trans ha.2 hb.2⟩
          | rej v' =>
            have hb := ih _ _ _ (by rw [ha.1]; exact hk) h
            exact ⟨by rw [hb.1, ha.1], LogExtP_trans ha.2 hb.2⟩
          | prom p' =>
            cases hp : st1.proms p' with
            | none =>
              simp only [hp] at h
              obtain rfl := Option.some.inj h
              exact ⟨ha.1, ha.2⟩
            | some ps =>
              cases ps with
              | ppend rs' =>
                simp only [hp] at h
                obtain rfl := Option.some.inj h
                exact ⟨by rw [updProm_descs, ha.1],
                  LogExtP_trans ha.2 (LogExtP_of_eq _ (updProm_log ..))⟩
              | pres v' =>
                simp only [hp] at h
                have hb := ih _ _ _ (by rw [ha.1]; exact hk) h
                exact ⟨by rw [hb.1, ha.1], LogExtP_trans ha.2 hb.2⟩
              | prej v' =>
                simp only [hp] at h
                have hb := ih _ _ _ (by rw [ha.1]; exact hk) h
                exact ⟨by rw [hb.1, ha.1], LogExtP_trans ha.2 hb.2⟩


theorem onHook_descs (st : MState) (oid : Nat) (h : String) (cb : Cb) :
    (onHook st oid h cb).descs = st.descs := by
  unfold onHook; cases st.objs oid <;> rfl

theorem onHook_log (st : MState) (oid : Nat) (h : String) (cb : Cb) :
    (onHook st oid h cb).log = st.log := by
  unfold onHook; cases st.objs oid <;> rfl

theorem markCanceled_descs_true {k : Nat} :
    ∀ (l : List Nat) (st : MState), st.descs k = some true →
      (markCanceled st l).descs k = some true := by
  intro l
  induction l with
  | nil => intro st hk; exact hk
  | cons j rest ih =>
    intro st hk
    simp only [markCanceled]
    apply ih
    by_cases hj : k = j
    · subst hj; simp [updDesc]
    · simpa [updDesc, hj] using hk

theorem markCanceled_log : ∀ (l : List Nat) (st : MState),
    (markCanceled st l).log = st.log := by
  intro l
  induction l with
  | nil => intro st; rfl
  | cons j rest ih => intro st; simp only [markCanceled]; rw [ih]; rfl

theorem sendPrep_descs_ne {k' k : Nat} (st : MState) (oid : Nat) (od : ObjData)
    (s e : Bool) (h : k' ≠ k) :
    (sendPrep st oid k od s e).descs k' = st.descs k' := by
  simp only [sendPrep, updSub_objs, updDesc_objs, updPhase_objs]
  cases st.objs oid <;> simp [updObj, updDesc, updSub, h]

theorem sendPrep_log (st : MState) (oid k : Nat) (od : ObjData) (s e : Bool) :
    (sendPrep st oid k od s e).log = st.log := by
  simp only [sendPrep, updSub_objs, updDesc_objs, updPhase_objs]
  cases st.objs oid <;> rfl

theorem step_cancel_safe {k fuel : Nat} {st st' : MState} {a : Act}
    (hk : st.descs k = some true) (h : step fuel st a = some st') :
    st'.descs k = some true ∧ NoKev k st st' := by
  cases a with
  | send oid j s e =>
    simp only [step, sendOp] at h
    cases ho : st.objs oid with
    | none =>
      simp only [ho] at h
      obtain rfl := Option.some.inj h
      exact ⟨hk, LogExtP_refl _ _⟩
    | some od =>
      simp only [ho] at h
      by_cases hg : ((st.subs j).isSome || (st.descs j).isSome) = true
      · rw [if_pos hg] at h
        obtain rfl := Option.some.inj h
        exact ⟨hk, LogExtP_refl _ _⟩
      · rw [if_neg hg] at h
        have hjk : k ≠ j := by
          intro hkj
          subst hkj
          simp [hk] at hg
        have hkA : (sendPrep st oid j od s e).descs k = some true := by
          rw [sendPrep_descs_ne st oid od s e hjk]; exact hk
        have hlogA : NoKev k st (sendPrep st oid j od s e) :=
          LogExtP_of_eq _ (sendPrep_log st oid j od s e)
        cases hq : od.promise with
        | prSome p =>
          simp only [hq] at h
          split at h
          all_goals first
          | (obtain rfl := Option.some.inj h
             refine ⟨?_, LogExtP_trans hlogA (LogExtP_of_eq _ ?_)⟩
             · rw [setPromise_descs, updProm_descs, updProm_descs]; exact hkA
             · rw [setPromise_log, updProm_log, updProm_log])
          | (obtain rfl := Option.some.inj h
             refine ⟨?_, LogExtP_trans hlogA (LogExtP_of_eq _ ?_)⟩
             · rw [updProm_descs]; exact hkA
             · rw [updProm_log])
          | (have h2 := runS_cancel_safe _ _ _ _ (by
               rw [setPromise_descs, updProm_descs]; exact hkA) h
             refine ⟨?_, ?_⟩
             · rw [h2.1, setPromise_descs, updProm_descs]; exact hkA
             · refine LogExtP_trans hlogA (LogExtP_trans (LogExtP_of_eq _ ?_) h2.2)
               rw [setPromise_log, updProm_log])
        | prUndef =>
          simp only [hq] at h
          cases hr : runPerform fuel (sendPrep st oid j od s e) j with
          | none => rw [hr] at h; exact absurd h (by simp)
          | some p2 =>
            obtain ⟨st1, r1⟩ := p2
            rw [hr] at h
            have h2 := runPerform_cancel_safe hkA hr
            have hk1 : st1.descs k = some true := by rw [h2.1]; exact hkA
            have hlog1 : NoKev k st st1 := LogExtP_trans hlogA h2.2
            cases r1 with
            | error e2 =>
              simp only at h
              obtain rfl := Option.some.inj h
              exact ⟨hk1, hlog1⟩
            | ok hres =>
              cases hres with
              | prom p' =>
                simp only at h
                obtain rfl := Option.some.inj h
                exact ⟨by rw [setPromise_descs]; exact hk1,
                  LogExtP_trans hlog1 (LogExtP_of_eq _ (setPromise_log ..))⟩
              | val v' =>
                simp only at h
                obtain rfl := Option.some.inj h
                refine ⟨by rw [setPromise_descs, updProm_descs]; exact hk1, ?_⟩
                refine LogExtP_trans hlog1 (LogExtP_of_eq _ ?_)
                rw [setPromise_log, updProm_log]
              | rej v' =>
                simp only at h
                obtain rfl := Option.some.inj h
                refine ⟨by rw [setPromise_descs, updProm_descs]; exact hk1, ?_⟩
                refine LogExtP_trans hlog1 (LogExtP_of_eq _ ?_)
                rw [setPromise_log, updProm_log]
        | prNull =>
          simp only [hq] at h
          cases hr : runPerform fuel (sendPrep st oid j od s e) j with
          | none => rw [hr] at h; exact absurd h (by simp)
          | some p2 =>
            obtain ⟨st1, r1⟩ := p2
            rw [hr] at h
            have h2 := runPerform_cancel_safe hkA hr
            have hk1 : st1.descs k = some true := by rw [h2.1]; exact hkA
            have hlog1 : NoKev k st st1 := LogExtP_trans hlogA h2.2
            cases r1 with
            | error e2 =>
              simp only at h
              obtain rfl := Option.some.inj h
              exact ⟨hk1, hlog1⟩
            | ok hres =>
              cases hres with
              | prom p' =>
                simp only at h
                obtain rfl := Option.some.inj h
                exact ⟨by rw [setPromise_descs]; exact hk1,
                  LogExtP_trans hlog1 (LogExtP_of_eq _ (setPromise_log ..))⟩
              | val v' =>
                simp only at h
                obtain rfl := Option.some.inj h
                refine ⟨by rw [setPromise_descs, updProm_descs]; exact hk1, ?_⟩
                refine LogExtP_trans hlog1 (LogExtP_of_eq _ ?_)
                rw [setPromise_log, updProm_log]
              | rej v' =>
                simp only at h
                obtain rfl := Option.some.inj h
                refine ⟨by rw [setPromise_descs, updProm_descs]; exact hk1, ?_⟩
                refine LogExtP_trans hlog1 (LogExtP_of_eq _ ?_)
                rw [setPromise_log, updProm_log]
  | cancel oid =>
    simp only [step] at h
    obtain rfl := Option.some.inj h
    unfold cancelOp
    cases ho : st.objs oid with
    | none => simp only [ho]; exact ⟨hk, LogExtP_refl _ _⟩
    | some od =>
      simp only [ho]
      cases hp : od.pending with
      | parr l =>
        simp only [hp]
        refine ⟨?_, ?_⟩
        · rw [setPromise_descs]
          exact markCanceled_descs_true l st hk
        · refine LogExtP_of_eq _ ?_
          rw [setPromise_log, markCanceled_log]
      | pundef =>
        simp only [hp]
        exact ⟨by rw [setPromise_descs]; exact hk,
          LogExtP_of_eq _ (setPromise_log ..)⟩
      | pnull =>
        simp only [hp]
        exact ⟨by rw [setPromise_descs]; exact hk,
          LogExtP_of_eq _ (setPromise_log ..)⟩
  | settleA j ok n =>
    simp only [step] at h
    cases ht : st.trans j with
    | none =>
      simp only [ht] at h
      obtain rfl := Option.some.inj h
      exact ⟨hk, LogExtP_refl _ _⟩
    | some ts =>
      cases ts with
      | settledT =>
        simp only [ht] at h
        obtain rfl := Option.some.inj h
        exact ⟨hk, LogExtP_refl _ _⟩
      | inflight pid =>
        simp only [ht] at h
        have h2 := runS_cancel_safe _ _ _ _ (by simpa using hk) h
        refine ⟨by rw [h2.1]; simpa using hk, ?_⟩
        refine LogExtP_trans ⟨[Ev.tSettle j], rfl, by simp [evForB]⟩ h2.2
  | setDspA oid d =>
    simp only [step] at h
    obtain rfl := Option.some.inj h
    exact ⟨by rw [setDsp_descs]; exact hk, LogExtP_of_eq _ (setDsp_log ..)⟩
  | onA oid h2 cb =>
    simp only [step] at h
    obtain rfl := Option.some.inj h
    exact ⟨by rw [onHook_descs]; exact hk, LogExtP_of_eq _ (onHook_log ..)⟩

theorem exec_cancel_safe {k fuel : Nat} : ∀ (as : List Act) (st st' : MState),
    st.descs k = some true → exec fuel st as = some st' →
    st'.descs k = some true ∧ NoKev k st st' := by
  intro as
  induction as with
  | nil =>
    intro st st' hk h
    obtain rfl := Option.some.inj h
    exact ⟨hk, LogExtP_refl _ _⟩
  | cons a rest ih =>
    intro st st' hk h
    simp only [exec] at h
    rcases Option.bind_eq_some.mp h with ⟨st1, h1, h2⟩
    have ha := step_cancel_safe hk h1
    have hb := ih st1 st' ha.1 h2
    exact ⟨hb.1, LogExtP_trans ha.2 hb.2⟩


/-! ## Convenience constructors and projections for the theorems -/

/-- An object with given hooks, override, scope/type references and dispatch
capability; lifecycle fields fresh. -/
def mkDspObj (cbs : List (String × List Cb)) (dsp : Option Dsp)
    (scope typeRef : Option Nat) (hasD : Bool) : ObjData :=
  { initObj with cbs := cbs, dsp := dsp, scope := scope, typeRef := typeRef,
                 hasDispatch := hasD }

/-- A machine with a root object 0 (given hooks / override / back-references),
a scope object 1 whose `evt` hook logs `d`, and a type object 2 whose `evt`
hook logs `e`. -/
def heap3 (rootCbs : List (String × List Cb)) (rootDsp : Option Dsp)
    (scope typeRef : Option Nat) (scopeHasD : Bool) (d e : String) : MState :=
  { init1 with objs := fun i =>
      if i = 0 then some (mkDspObj rootCbs rootDsp scope typeRef true)
      else if i = 1 then some (mkDspObj [("evt", [Cb.logC d])] none none none scopeHasD)
      else if i = 2 then some (mkDspObj [("evt", [Cb.logC e])] none none none true)
      else none }

/-- A machine with a single object 0 with the given hooks and override. -/
def dspSt (cbs : List (String × List Cb)) (dsp : Option Dsp) : MState :=
  { init1 with objs := fun i =>
      if i = 0 then some (mkDspObj cbs dsp none none true) else none }

def pendingOf (st : MState) (oid : Nat) : Option PendVal :=
  (st.objs oid).map (fun od => od.pending)

def statusOf (st : MState) (oid : Nat) : Option (Option String) :=
  (st.objs oid).map (fun od => od.status)

def responseOf (st : MState) (oid : Nat) : Option RVal :=
  (st.objs oid).map (fun od => od.response)

def promiseOf (st : MState) (oid : Nat) : Option PromVal :=
  (st.objs oid).map (fun od => od.promise)

def dspSome (st : MState) (oid : Nat) : Option Bool :=
  (st.objs oid).map (fun od => od.dsp.isSome)

/-! ## Frame-based projections and settled-handler effects -/

theorem DFrame_proj {st st' : MState} (h : DFrame st st') {γ : Type}
    (f : ObjData → γ) (hf : ∀ od, f (eraseDsp od) = f od) (oid : Nat) :
    (st'.objs oid).map f = (st.objs oid).map f := by
  have h7 := h.2.2.2.2.2.2.1 oid
  cases h1 : st'.objs oid with
  | none => cases h2 : st.objs oid with
    | none => rfl
    | some b => rw [h1, h2] at h7; exact absurd h7 (by simp)
  | some a => cases h2 : st.objs oid with
    | none => rw [h1, h2] at h7; exact absurd h7 (by simp)
    | some b =>
      rw [h1, h2] at h7
      simp only [Option.map_some'] at h7 ⊢
      have h8 := Option.some.inj h7
      rw [← hf a, ← hf b, h8]

theorem DFrame_pendingOf {st st' : MState} (h : DFrame st st') (oid : Nat) :
    pendingOf st' oid = pendingOf st oid :=
  DFrame_proj h (fun od => od.pending) (fun _ => rfl) oid

theorem DFrame_statusOf {st st' : MState} (h : DFrame st st') (oid : Nat) :
    statusOf st' oid = statusOf st oid :=
  DFrame_proj h (fun od => od.status) (fun _ => rfl) oid

theorem DFrame_responseOf {st st' : MState} (h : DFrame st st') (oid : Nat) :
    responseOf st' oid = responseOf st oid :=
  DFrame_proj h (fun od => od.response) (fun _ => rfl) oid

theorem mem_log_of_logext {st st' : MState} {l : List Ev} {e : Ev}
    (hl : st'.log = l ++ st.log) (he : e ∈ st.log) : e ∈ st'.log := by
  rw [hl]; exact List.mem_append_right l he

theorem setDsp_objs_proj {γ : Type} (st : MState) (oid oid' : Nat) (d : Option Dsp)
    (f : ObjData → γ) (hf : ∀ od dd, f { od with dsp := dd } = f od) :
    ((setDsp st oid d).objs oid').map f = (st.objs oid').map f := by
  unfold setDsp
  cases h : st.objs oid with
  | none => rfl
  | some od =>
    simp only [updObj]
    by_cases hi : oid' = oid
    · subst hi; simp [h, hf]
    · simp [hi]

theorem setDsp_statusOf (st : MState) (oid oid' : Nat) (d : Option Dsp) :
    statusOf (setDsp st oid d) oid' = statusOf st oid' :=
  setDsp_objs_proj st oid oid' d (fun od => od.status) (fun _ _ => rfl)

theorem setDsp_responseOf (st : MState) (oid oid' : Nat) (d : Option Dsp) :
    responseOf (setDsp st oid d) oid' = responseOf st oid' :=
  setDsp_objs_proj st oid oid' d (fun od => od.response) (fun _ _ => rfl)

theorem setDsp_pendingOf (st : MState) (oid oid' : Nat) (d : Option Dsp) :
    pendingOf (setDsp st oid d) oid' = pendingOf st oid' :=
  setDsp_objs_proj st oid oid' d (fun od => od.pending) (fun _ _ => rfl)

theorem statusOf_emit (st : MState) (e : Ev) (oid : Nat) :
    statusOf (emit st e) oid = statusOf st oid := rfl
theorem statusOf_updPhase (st : MState) (k : Nat) (p : Ph) (oid : Nat) :
    statusOf (updPhase st k p) oid = statusOf st oid := rfl
theorem responseOf_emit (st : MState) (e : Ev) (oid : Nat) :
    responseOf (emit st e) oid = responseOf st oid := rfl
theorem responseOf_updPhase (st : MState) (k : Nat) (p : Ph) (oid : Nat) :
    responseOf (updPhase st k p) oid = responseOf st oid := rfl
theorem pendingOf_emit (st : MState) (e : Ev) (oid : Nat) :
    pendingOf (emit st e) oid = pendingOf st oid := rfl
theorem pendingOf_updPhase (st : MState) (k : Nat) (p : Ph) (oid : Nat) :
    pendingOf (updPhase st k p) oid = pendingOf st oid := rfl

theorem runHttpErr_effects {fuel k : Nat} {st st' : MState} {v : Value}
    {r : Except JsE HRes} {sub : Sub} {od : ObjData} {l : List Nat}
    (hsub : st.subs k = some sub) (hc : st.descs k = some false)
    (hod : st.objs sub.owner = some od) (hp : od.pending = PendVal.parr l)
    (hrun : runHttpErr fuel st k v = some (st', r)) :
    statusOf st' sub.owner = some (some "error") ∧
    responseOf st' sub.owner = some (RVal.rval v) ∧
    pendingOf st' sub.owner =
      some (if splicePending l k = [] then PendVal.pnull
            else PendVal.parr (splicePending l k)) ∧
    Ev.afterReqErr k v ∈ st'.log ∧
    (∀ h2, r = Except.ok h2 → h2 = HRes.rej (Value.vobj sub.owner) ∧
      (sub.hasErr = true → Ev.errCb k v ∈ st'.log)) := by
  simp only [runHttpErr, hsub] at hrun
  rw [if_neg (by simp [hc])] at hrun
  have hod1 : (setDsp st sub.owner (mkDspArg (DecArg.fnA sub.sdsp)
      (dspOf st sub.owner))).objs sub.owner =
      some { od with dsp := mkDspArg (DecArg.fnA sub.sdsp) (dspOf st sub.owner) } := by
    simp [setDsp, hod, updObj]
  split at hrun
  · exact absurd hrun (by simp)
  · -- decorate completed exceptionally (a hook threw)
    rename_i st1 e1 heq
    obtain ⟨hst', hr⟩ := Prod.mk.injEq .. ▸ Option.some.inj hrun
    simp only [decorate] at heq
    split at heq
    · exact absurd heq (by simp)
    · rename_i st2 r2 hb
      obtain ⟨h1, h2⟩ := Prod.mk.injEq .. ▸ Option.some.inj heq
      simp only [hod1, hp] at hb
      -- analyze the body: update, event, dispatch, optional error callback
      rcases dbind_eq_some hb with ⟨s3, e3, hx, h31, _⟩ | ⟨s3, a3, hx, hf⟩
      · -- the after-request-error dispatch threw
        have hfr := runD_frame _ _ _ _ _ hx
        subst h31
        have hs : statusOf st2 sub.owner = some (some "error") := by
          rw [DFrame_statusOf hfr]
          simp [statusOf, updObj]
        have hresp : responseOf st2 sub.owner = some (RVal.rval v) := by
          rw [DFrame_responseOf hfr]
          simp [responseOf, updObj]
        have hpend : pendingOf st2 sub.owner =
            some (if splicePending l k = [] then PendVal.pnull
                  else PendVal.parr (splicePending l k)) := by
          rw [DFrame_pendingOf hfr]
          simp [pendingOf, updObj]
        have hmem : Ev.afterReqErr k v ∈ st2.log := by
          obtain ⟨lx, hlx, _⟩ := hfr.2.2.2.2.2.2.2
          exact mem_log_of_logext hlx (List.mem_cons_self _ _)
        subst hst'
        refine ⟨?_, ?_, ?_, ?_, ?_⟩
        · rw [statusOf_emit, statusOf_updPhase, ← h1, setDsp_statusOf]; exact hs
        · rw [responseOf_emit, responseOf_updPhase, ← h1, setDsp_responseOf]
          exact hresp
        · rw [pendingOf_emit, pendingOf_updPhase, ← h1, setDsp_pendingOf]
          exact hpend
        · refine List.mem_cons_of_mem _ ?_
          show Ev.afterReqErr k v ∈ st1.log
          rw [← h1, setDsp_log]
          exact hmem
        · intro h2x hok
          rw [← hr] at hok
          exact absurd hok (by simp)
      · -- the dispatch completed; but then the decorated body returned ok,
        -- contradicting the `error` outcome unless the callback branch threw —
        -- it cannot: analyze the tail
        have hfr := runD_frame _ _ _ _ _ hx
        cases hhe : sub.hasErr with
        | true =>
          rw [hhe] at hf
          try rw [if_pos rfl] at hf
          obtain ⟨h1x, h2x⟩ := Prod.mk.injEq .. ▸ Option.some.inj hf
          rw [h2] at h2x
          exact absurd h2x (by simp)
        | false =>
          rw [hhe] at hf
          try rw [if_neg (by simp)] at hf
          obtain ⟨h1x, h2x⟩ := Prod.mk.injEq .. ▸ Option.some.inj hf
          rw [h2] at h2x
          exact absurd h2x (by simp)
  · -- decorate completed normally
    rename_i st1 u1 heq
    obtain ⟨hst', hr⟩ := Prod.mk.injEq .. ▸ Option.some.inj hrun
    simp only [decorate] at heq
    split at heq
    · exact absurd heq (by simp)
    · rename_i st2 r2 hb
      obtain ⟨h1, h2⟩ := Prod.mk.injEq .. ▸ Option.some.inj heq
      simp only [hod1, hp] at hb
      rcases dbind_eq_some hb with ⟨s3, e3, hx, h31, h32⟩ | ⟨s3, a3, hx, hf⟩
      · rw [h2] at h32
        exact absurd h32 (by simp)
      · have hfr := runD_frame _ _ _ _ _ hx
        have hs : statusOf s3 sub.owner = some (some "error") := by
          rw [DFrame_statusOf hfr]
          simp [statusOf, updObj]
        have hresp : responseOf s3 sub.owner = some (RVal.rval v) := by
          rw [DFrame_responseOf hfr]
          simp [responseOf, updObj]
        have hpend : pendingOf s3 sub.owner =
            some (if splicePending l k = [] then PendVal.pnull
                  else PendVal.parr (splicePending l k)) := by
          rw [DFrame_pendingOf hfr]
          simp [pendingOf, updObj]
        have hmem : Ev.afterReqErr k v ∈ s3.log := by
          obtain ⟨lx, hlx, _⟩ := hfr.2.2.2.2.2.2.2
          exact mem_log_of_logext hlx (List.mem_cons_self _ _)
        -- the optional error callback
        have htail : statusOf st2 sub.owner = some (some "error") ∧
            responseOf st2 sub.owner = some (RVal.rval v) ∧
            pendingOf st2 sub.owner =
              some (if splicePending l k = [] then PendVal.pnull
                    else PendVal.parr (splicePending l k)) ∧
            Ev.afterReqErr k v ∈ st2.log ∧
            (sub.hasErr = true → Ev.errCb k v ∈ st2.log) := by
          cases hhe : sub.hasErr with
          | true =>
            rw [hhe] at hf
            try rw [if_pos rfl] at hf
            obtain ⟨h1x, _⟩ := Prod.mk.injEq .. ▸ Option.some.inj hf
            subst h1x
            exact ⟨hs, hresp, hpend, List.mem_cons_of_mem _ hmem,
              fun _ => List.mem_cons_self _ _⟩
          | false =>
            rw [hhe] at hf
            try rw [if_neg (by simp)] at hf
            obtain ⟨h1x, _⟩ := Prod.mk.injEq .. ▸ Option.some.inj hf
            subst h1x
            exact ⟨hs, hresp, hpend, hmem, fun hcon => by simp [hhe] at hcon⟩
        subst hst'
        refine ⟨?_, ?_, ?_, ?_, ?_⟩
        · rw [statusOf_emit, statusOf_updPhase, ← h1, setDsp_statusOf]
          exact htail.1
        · rw [responseOf_emit, responseOf_updPhase, ← h1, setDsp_responseOf]
          exact htail.2.1
        · rw [pendingOf_emit, pendingOf_updPhase, ← h1, setDsp_pendingOf]
          exact htail.2.2.1
        · refine List.mem_cons_of_mem _ ?_
          show Ev.afterReqErr k v ∈ st1.log
          rw [← h1, setDsp_log]
          exact htail.2.2.2.1
        · intro h2x hok
          rw [← hr] at hok
          refine ⟨(Except.ok.inj hok).symm, fun hhe2 => ?_⟩
          refine List.mem_cons_of_mem _ ?_
          show Ev.errCb k v ∈ st1.log
          rw [← h1, setDsp_log]
          exact htail.2.2.2.2 hhe2


theorem runHttpOk_effects {fuel k : Nat} {st st' : MState} {v : Value}
    {r : Except JsE HRes} {sub : Sub} {od : ObjData} {l : List Nat}
    (hsub : st.subs k = some sub) (hc : st.descs k = some false)
    (hod : st.objs sub.owner = some od) (hp : od.pending = PendVal.parr l)
    (hrun : runHttpOk fuel st k v = some (st', r)) :
    statusOf st' sub.owner = some (some "ok") ∧
    responseOf st' sub.owner = some (RVal.rval v) ∧
    pendingOf st' sub.owner =
      some (if splicePending l k = [] then PendVal.pundef
            else PendVal.parr (splicePending l k)) ∧
    Ev.afterReq k v ∈ st'.log ∧
    (∀ h2, r = Except.ok h2 → h2 = HRes.val (Value.vobj sub.owner) ∧
      (sub.hasSucc = true → Ev.succCb k v ∈ st'.log)) := by
  simp only [runHttpOk, hsub] at hrun
  rw [if_neg (by simp [hc])] at hrun
  have hod1 : (setDsp st sub.owner (mkDspArg (DecArg.fnA sub.sdsp)
      (dspOf st sub.owner))).objs sub.owner =
      some { od with dsp := mkDspArg (DecArg.fnA sub.sdsp) (dspOf st sub.owner) } := by
    simp [setDsp, hod, updObj]
  split at hrun
  · exact absurd hrun (by simp)
  · -- decorate completed exceptionally (a hook threw)
    rename_i st1 e1 heq
    obtain ⟨hst', hr⟩ := Prod.mk.injEq .. ▸ Option.some.inj hrun
    simp only [decorate] at heq
    split at heq
    · exact absurd heq (by simp)
    · rename_i st2 r2 hb
      obtain ⟨h1, h2⟩ := Prod.mk.injEq .. ▸ Option.some.inj heq
      simp only [hod1, hp] at hb
      -- analyze the body: update, event, dispatch, optional error callback
      rcases dbind_eq_some hb with ⟨s3, e3, hx, h31, _⟩ | ⟨s3, a3, hx, hf⟩
      · -- the after-request-error dispatch threw
        have hfr := runD_frame _ _ _ _ _ hx
        subst h31
        have hs : statusOf st2 sub.owner = some (some "ok") := by
          rw [DFrame_statusOf hfr]
          simp [statusOf, updObj]
        have hresp : responseOf st2 sub.owner = some (RVal.rval v) := by
          rw [DFrame_responseOf hfr]
          simp [responseOf, updObj]
        have hpend : pendingOf st2 sub.owner =
            some (if splicePending l k = [] then PendVal.pundef
                  else PendVal.parr (splicePending l k)) := by
          rw [DFrame_pendingOf hfr]
          simp [pendingOf, updObj]
        have hmem : Ev.afterReq k v ∈ st2.log := by
          obtain ⟨lx, hlx, _⟩ := hfr.2.2.2.2.2.2.2
          exact mem_log_of_logext hlx (List.mem_cons_self _ _)
        subst hst'
        refine ⟨?_, ?_, ?_, ?_, ?_⟩
        · rw [statusOf_emit, statusOf_updPhase, ← h1, setDsp_statusOf]; exact hs
        · rw [responseOf_emit, responseOf_updPhase, ← h1, setDsp_responseOf]
          exact hresp
        · rw [pendingOf_emit, pendingOf_updPhase, ← h1, setDsp_pendingOf]
          exact hpend
        · refine List.mem_cons_of_mem _ ?_
          show Ev.afterReq k v ∈ st1.log
          rw [← h1, setDsp_log]
          exact hmem
        · intro h2x hok
          rw [← hr] at hok
          exact absurd hok (by simp)
      · -- the dispatch completed; but then the decorated body returned ok,
        -- contradicting the `error` outcome unless the callback branch threw —
        -- it cannot: analyze the tail
        have hfr := runD_frame _ _ _ _ _ hx
        cases hhe : sub.hasSucc with
        | true =>
          rw [hhe] at hf
          try rw [if_pos rfl] at hf
          obtain ⟨h1x, h2x⟩ := Prod.mk.injEq .. ▸ Option.some.inj hf
          rw [h2] at h2x
          exact absurd h2x (by simp)
        | false =>
          rw [hhe] at hf
          try rw [if_neg (by simp)] at hf
          obtain ⟨h1x, h2x⟩ := Prod.mk.injEq .. ▸ Option.some.inj hf
          rw [h2] at h2x
          exact absurd h2x (by simp)
  · -- decorate completed normally
    rename_i st1 u1 heq
    obtain ⟨hst', hr⟩ := Prod.mk.injEq .. ▸ Option.some.inj hrun
    simp only [decorate] at heq
    split at heq
    · exact absurd heq (by simp)
    · rename_i st2 r2 hb
      obtain ⟨h1, h2⟩ := Prod.mk.injEq .. ▸ Option.some.inj heq
      simp only [hod1, hp] at hb
      rcases dbind_eq_some hb with ⟨s3, e3, hx, h31, h32⟩ | ⟨s3, a3, hx, hf⟩
      · rw [h2] at h32
        exact absurd h32 (by simp)
      · have hfr := runD_frame _ _ _ _ _ hx
        have hs : statusOf s3 sub.owner = some (some "ok") := by
          rw [DFrame_statusOf hfr]
          simp [statusOf, updObj]
        have hresp : responseOf s3 sub.owner = some (RVal.rval v) := by
          rw [DFrame_responseOf hfr]
          simp [responseOf, updObj]
        have hpend : pendingOf s3 sub.owner =
            some (if splicePending l k = [] then PendVal.pundef
                  else PendVal.parr (splicePending l k)) := by
          rw [DFrame_pendingOf hfr]
          simp [pendingOf, updObj]
        have hmem : Ev.afterReq k v ∈ s3.log := by
          obtain ⟨lx, hlx, _⟩ := hfr.2.2.2.2.2.2.2
          exact mem_log_of_logext hlx (List.mem_cons_self _ _)
        -- the optional error callback
        have htail : statusOf st2 sub.owner = some (some "ok") ∧
            responseOf st2 sub.owner = some (RVal.rval v) ∧
            pendingOf st2 sub.owner =
              some (if splicePending l k = [] then PendVal.pundef
                    else PendVal.parr (splicePending l k)) ∧
            Ev.afterReq k v ∈ st2.log ∧
            (sub.hasSucc = true → Ev.succCb k v ∈ st2.log) := by
          cases hhe : sub.hasSucc with
          | true =>
            rw [hhe] at hf
            try rw [if_pos rfl] at hf
            obtain ⟨h1x, _⟩ := Prod.mk.injEq .. ▸ Option.some.inj hf
            subst h1x
            exact ⟨hs, hresp, hpend, List.mem_cons_of_mem _ hmem,
              fun _ => List.mem_cons_self _ _⟩
          | false =>
            rw [hhe] at hf
            try rw [if_neg (by simp)] at hf
            obtain ⟨h1x, _⟩ := Prod.mk.injEq .. ▸ Option.some.inj hf
            subst h1x
            exact ⟨hs, hresp, hpend, hmem, fun hcon => by simp [hhe] at hcon⟩
        subst hst'
        refine ⟨?_, ?_, ?_, ?_, ?_⟩
        · rw [statusOf_emit, statusOf_updPhase, ← h1, setDsp_statusOf]
          exact htail.1
        · rw [responseOf_emit, responseOf_updPhase, ← h1, setDsp_responseOf]
          exact htail.2.1
        · rw [pendingOf_emit, pendingOf_updPhase, ← h1, setDsp_pendingOf]
          exact htail.2.2.1
        · refine List.mem_cons_of_mem _ ?_
          show Ev.afterReq k v ∈ st1.log
          rw [← h1, setDsp_log]
          exact htail.2.2.2.1
        · intro h2x hok
          rw [← hr] at hok
          refine ⟨(Except.ok.inj hok).symm, fun hhe2 => ?_⟩
          refine List.mem_cons_of_mem _ ?_
          show Ev.succCb k v ∈ st1.log
          rw [← h1, setDsp_log]
          exact htail.2.2.2.2 hhe2



/-! ## C2 — cancellation: canceled descriptors resolve as canceled, fire no
hooks, invoke no callbacks, and are not surfaced as rejections -/

/-- **C2.** After `$cancel` marks a descriptor `k` canceled: (1) over every
continuation of the execution (any schedule of sends, settlements with any
transport outcome, cancels, hook registrations), no transport issuance,
`before-request` / `after-request` / `after-request-error` dispatch, or
success / error callback event for `k` ever occurs, and the flag stays set;
(2)-(4) whichever of the three lifecycle handlers observes the canceled flag
(`performRequest` before the transport, or either `$http` settlement handler —
i.e. regardless of transport outcome) sets the object's status to `canceled`
and *resolves* with the owning object (`Except.ok`, never a rejection). -/
theorem cancel_resolves_canceled_fires_no_hooks :
    (∀ (fuel k : Nat) (st st' : MState) (as : List Act),
      st.descs k = some true → exec fuel st as = some st' →
      st'.descs k = some true ∧
      ∃ l, st'.log = l ++ st.log ∧ ∀ e ∈ l, evForB k e = false) ∧
    (∀ (fuel k : Nat) (st : MState) (sub : Sub) (od : ObjData),
      st.subs k = some sub → st.descs k = some true →
      st.objs sub.owner = some od →
      runPerform fuel st k =
        some (emit (updPhase (setStatus st sub.owner "canceled") k Ph.donePh)
          (Ev.opDone k "canceled"), Except.ok (HRes.val (Value.vobj sub.owner))) ∧
      statusOf (emit (updPhase (setStatus st sub.owner "canceled") k Ph.donePh)
        (Ev.opDone k "canceled")) sub.owner = some (some "canceled")) ∧
    (∀ (fuel k : Nat) (st : MState) (v : Value) (sub : Sub) (od : ObjData),
      st.subs k = some sub → st.descs k = some true →
      st.objs sub.owner = some od →
      runHttpOk fuel st k v =
        some (emit (updPhase (setStatus st sub.owner "canceled") k Ph.donePh)
          (Ev.opDone k "canceled"), Except.ok (HRes.val (Value.vobj sub.owner))) ∧
      statusOf (emit (updPhase (setStatus st sub.owner "canceled") k Ph.donePh)
        (Ev.opDone k "canceled")) sub.owner = some (some "canceled")) ∧
    (∀ (fuel k : Nat) (st : MState) (v : Value) (sub : Sub) (od : ObjData),
      st.subs k = some sub → st.descs k = some true →
      st.objs sub.owner = some od →
      runHttpErr fuel st k v =
        some (emit (updPhase (setStatus st sub.owner "canceled") k Ph.donePh)
          (Ev.opDone k "canceled"), Except.ok (HRes.val (Value.vobj sub.owner))) ∧
      statusOf (emit (updPhase (setStatus st sub.owner "canceled") k Ph.donePh)
        (Ev.opDone k "canceled")) sub.owner = some (some "canceled")) := by
  refine ⟨?_, ?_, ?_, ?_⟩
  · intro fuel k st st' as hk h
    obtain ⟨hd, l, hl, he⟩ := exec_cancel_safe as st st' hk h
    exact ⟨hd, l, hl, he⟩
  · intro fuel k st sub od hsub hk hod
    constructor
    · simp [runPerform, hsub, hk]
    · simp [statusOf, setStatus, hod, updObj]
  · intro fuel k st v sub od hsub hk hod
    constructor
    · simp [runHttpOk, hsub, hk]
    · simp [statusOf, setStatus, hod, updObj]
  · intro fuel k st v sub od hsub hk hod
    constructor
    · simp [runHttpErr, hsub, hk]
    · simp [statusOf, setStatus, hod, updObj]

/-- A small concrete state with one submitted, canceled descriptor. -/
def stW : MState :=
  updDesc (updSub init1 1 ⟨0, none, false, false⟩) 1 true

/-- Witness for **C2** at a concrete input: descriptor 1 of `stW` is canceled;
running any continuation keeps the flag and adds no events for it, and the
canceled `performRequest` resolves with status `canceled`. -/
theorem cancel_resolves_canceled_fires_no_hooks_witness :
    (stW.descs 1 = some true ∧
      exec 20 stW [Act.settleA 1 true 5] = some stW) ∧
    (stW.subs 1 = some ⟨0, none, false, false⟩ ∧ stW.objs 0 = some initObj) ∧
    (stW.descs 1 = some true ∧
      ∃ l, stW.log = l ++ stW.log ∧ ∀ e ∈ l, evForB 1 e = false) ∧
    runPerform 10 stW 1 =
      some (emit (updPhase (setStatus stW 0 "canceled") 1 Ph.donePh)
        (Ev.opDone 1 "canceled"), Except.ok (HRes.val (Value.vobj 0))) := by
  refine ⟨⟨rfl, rfl⟩, ⟨rfl, rfl⟩, ?_, ?_⟩
  · exact (cancel_resolves_canceled_fires_no_hooks.1 20 1 stW stW
      [Act.settleA 1 true 5] rfl rfl)
  · exact (cancel_resolves_canceled_fires_no_hooks.2.1 10 1 stW
      ⟨0, none, false, false⟩ initObj rfl rfl rfl).1

/-! ## C4 — dispatch visiting order and bubbling -/

/-- **C4.** Every `$dispatch` of a hook name visits, in order: the active
override, then every registered instance callback in registration order, then
bubbles to the scope back-reference if it exposes `$dispatch`, otherwise to the
type back-reference; bubbling is mutually exclusive (the type is visited only
when no viable scope exists), and with no callbacks and no override, dispatch
still bubbles to scope, else type, else is a no-op.  Tags `a`-`e` mark the
override, the two instance callbacks, the scope's hook, and the type's hook;
the resulting log (oldest first) shows the visit order. -/
theorem dispatch_visit_order (a b c d e : String) :
    -- override, instance callbacks, then a viable scope; the type is NOT visited
    ((dispatch 30 (heap3 [("evt", [Cb.logC b, Cb.logC c])]
        (some (Dsp.fnD (fun _ => Cb.logC a))) (some 1) (some 2) true d e) 0 "evt" []).map
      (fun p => (p.1.log.reverse, p.2.toBool)) =
        some ([a, b, c, d].map Ev.cbLog, true)) ∧
    -- scope present but without the dispatch capability: type is the fallback
    ((dispatch 30 (heap3 [("evt", [Cb.logC b, Cb.logC c])]
        (some (Dsp.fnD (fun _ => Cb.logC a))) (some 1) (some 2) false d e) 0 "evt" []).map
      (fun p => (p.1.log.reverse, p.2.toBool)) =
        some ([a, b, c, e].map Ev.cbLog, true)) ∧
    -- no scope at all: type is the fallback
    ((dispatch 30 (heap3 [("evt", [Cb.logC b, Cb.logC c])]
        (some (Dsp.fnD (fun _ => Cb.logC a))) none (some 2) true d e) 0 "evt" []).map
      (fun p => (p.1.log.reverse, p.2.toBool)) =
        some ([a, b, c, e].map Ev.cbLog, true)) ∧
    -- no callbacks and no override: still bubbles to a viable scope
    ((dispatch 30 (heap3 [] none (some 1) (some 2) true d e) 0 "evt" []).map
      (fun p => (p.1.log.reverse, p.2.toBool)) = some ([Ev.cbLog d], true)) ∧
    -- no callbacks, no override, no scope: bubbles to type
    ((dispatch 30 (heap3 [] none none (some 2) true d e) 0 "evt" []).map
      (fun p => (p.1.log.reverse, p.2.toBool)) = some ([Ev.cbLog e], true)) ∧
    -- no callbacks, no override, no scope, no type: a no-op
    ((dispatch 30 (heap3 [] none none none true d e) 0 "evt" []).map
      (fun p => (p.1.log.reverse, p.2.toBool)) = some ([], true)) := by
  exact ⟨rfl, rfl, rfl, rfl, rfl, rfl⟩

/-! ## C5 — override save/restore in `$dispatch` -/

/-- **C5 (counterexample).** The claim says the override is restored for
*every* completion of `$dispatch`, *including when a callback throws*.  It is
not: `$dispatch` has no try/finally (lines 73-101), so when the instance
callback throws, `$$dsp` — cleared before the override ran — is left empty.
Here the object has an override and a throwing instance callback; the dispatch
completes exceptionally and afterwards the override slot is empty (`isSome =
false`), and a subsequent dispatch of the same hook no longer runs the
override. -/
theorem dispatch_throw_loses_override :
    -- before the dispatch, an override is installed …
    dspSome (dspSt [("evt", [Cb.throwC "boom"])]
        (some (Dsp.fnD (fun _ => Cb.logC "ovr")))) 0 = some true ∧
    -- … the dispatch completes (exceptionally), and afterwards the override
    -- slot is empty: the restoration the claim asserts did not happen
    (dispatch 30 (dspSt [("evt", [Cb.throwC "boom"])]
        (some (Dsp.fnD (fun _ => Cb.logC "ovr")))) 0 "evt" []).map
      (fun p => (dspSome p.1 0, p.2.toBool)) = some (some false, false) := by
  exact ⟨rfl, rfl⟩

/-- **C5 (amended).** During `$dispatch`, a present override is cleared before
it is invoked and restored after a *normal* completion, so a dispatch of the
same hook from within the override does not recurse into the override; when a
callback throws, however, the override is left cleared (not restored).
Part 1: the override re-dispatches `evt`; the inner dispatch runs only the
instance callback (log `o, c, c`, not `o, o, ...`), and afterwards the override
is back (a second dispatch runs it again).  Part 2: with a throwing instance
callback, the completion is exceptional and the override slot stays empty. -/
theorem dispatch_override_no_recursion_restored_on_ok (o c : String) :
    ((dispatch 30 (dspSt [("evt", [Cb.logC c])]
        (some (Dsp.fnD (fun _ => Cb.seqC (Cb.logC o) (Cb.dspSame "evt"))))) 0 "evt" []).map
      (fun p => (p.1.log.reverse, p.2.toBool, dspSome p.1 0,
        (dispatch 30 p.1 0 "evt" []).map (fun q => (q.1.log.reverse).drop 3))) =
      some ([Ev.cbLog o, Ev.cbLog c, Ev.cbLog c], true, some true,
        some [Ev.cbLog o, Ev.cbLog c, Ev.cbLog c])) ∧
    ((dispatch 30 (dspSt [("evt", [Cb.throwC "boom"])]
        (some (Dsp.fnD (fun _ => Cb.logC o)))) 0 "evt" []).map
      (fun p => (p.1.log.reverse, p.2.toBool, dspSome p.1 0)) =
      some ([Ev.cbLog o], false, some false)) := by
  exact ⟨rfl, rfl⟩

/-! ## C6 — `$decorate`: override installation, composition, restoration -/

/-- **C6.** `$decorate` with a hooks mapping installs a composed override for
the duration of the body: the previously active override is always invoked
first, then the new mapping's entry for the dispatched hook; and the prior
override is restored when the body completes — also when the body throws
(the restore sits in a `finally`, lines 164-169).
Part 1: during the body, dispatching `h` runs the prior override (`p`) then the
mapping's entry (`m`); afterwards the prior override is restored (a subsequent
dispatch runs only `p`).  Part 2: the body throws after dispatching; the result
is exceptional and the prior override is still restored. -/
theorem markCanceled_objs : ∀ (l : List Nat) (st : MState),
    (markCanceled st l).objs = st.objs := by
  intro l
  induction l with
  | nil => intro st; rfl
  | cons j rest ih => intro st; simp only [markCanceled]; rw [ih]; rfl

/-! ## C3 — the `$pending` field vs. outstanding descriptors -/

/-- The scenario refuting C3: submit, cancel, then let the transport settle. -/
def asC3 : List Act := [Act.send 0 1 false false, Act.cancel 0, Act.settleA 1 true 5]

/-- **C3 (counterexample).** The claim says `$pending` is cleared to an absent
value whenever the last outstanding descriptor settles, *including when that
descriptor settles as canceled*.  It is not: the canceled branches of the
settlement handlers (lines 291-294 and 318-321) skip the `splice`, so after
submit → cancel → transport-settle the descriptor is fully settled (transport
settled, perform-chain completed as canceled, status `canceled`) yet
`$pending` still holds the descriptor — a non-absent array. -/
theorem pending_cleared_claim_counterexample :
    (exec 60 init1 asC3).map (fun st =>
      (pendingOf st 0, st.phase 1, st.trans 1, statusOf st 0, st.log.reverse)) =
    some (some (PendVal.parr [1]), some Ph.donePh, some TState.settledT,
      some (some "canceled"),
      [Ev.beforeReq 1, Ev.issued 1, Ev.tSettle 1, Ev.opDone 1 "canceled"]) := by
  rfl

/-- **C3 (amended).** `$pending` is cleared to an absent value when the last
outstanding descriptor settles *as `ok` or as `error`* (`undefined` on the
success path, `null` on the error path, lines 304 and 326); a descriptor that
settles as canceled is never removed from `$pending`, so after cancellation
`$pending` can remain non-absent with no outstanding work.  Parts: (1)-(2) on
any state, a non-canceled settlement handler splices the descriptor out and
resets `$pending` to absent exactly when the array empties; (3)-(4) concrete
runs: a success settlement leaves `$pending = undefined`, an error settlement
leaves `$pending = null`; (5) the canceled run of `asC3` keeps `$pending`
non-absent after everything settles. -/
theorem pending_clearing_amended :
    (∀ (fuel k : Nat) (st st' : MState) (v : Value) (r : Except JsE HRes)
      (sub : Sub) (od : ObjData) (l : List Nat),
      st.subs k = some sub → st.descs k = some false →
      st.objs sub.owner = some od → od.pending = PendVal.parr l →
      runHttpOk fuel st k v = some (st', r) →
      pendingOf st' sub.owner =
        some (if splicePending l k = [] then PendVal.pundef
              else PendVal.parr (splicePending l k))) ∧
    (∀ (fuel k : Nat) (st st' : MState) (v : Value) (r : Except JsE HRes)
      (sub : Sub) (od : ObjData) (l : List Nat),
      st.subs k = some sub → st.descs k = some false →
      st.objs sub.owner = some od → od.pending = PendVal.parr l →
      runHttpErr fuel st k v = some (st', r) →
      pendingOf st' sub.owner =
        some (if splicePending l k = [] then PendVal.pnull
              else PendVal.parr (splicePending l k))) ∧
    ((exec 60 init1 [Act.send 0 1 false false, Act.settleA 1 true 5]).map
      (fun st => pendingOf st 0) = some (some PendVal.pundef)) ∧
    ((exec 60 init1 [Act.send 0 1 false false, Act.settleA 1 false 5]).map
      (fun st => pendingOf st 0) = some (some PendVal.pnull)) ∧
    ((exec 60 init1 asC3).map (fun st => (pendingOf st 0, st.phase 1)) =
      some (some (PendVal.parr [1]), some Ph.donePh)) := by
  refine ⟨?_, ?_, rfl, rfl, rfl⟩
  · intro fuel k st st' v r sub od l hsub hc hod hp hrun
    exact (runHttpOk_effects hsub hc hod hp hrun).2.2.1
  · intro fuel k st st' v r sub od l hsub hc hod hp hrun
    exact (runHttpErr_effects hsub hc hod hp hrun).2.2.1

/-- A concrete state for the C3 witness: one non-canceled descriptor (id 1)
pending on object 0. -/
def stw3 : MState :=
  { init1 with
    objs := fun i => if i = 0 then some { initObj with pending := PendVal.parr [1] }
                     else none
    subs := fun i => if i = 1 then some ⟨0, none, false, false⟩ else none
    descs := fun i => if i = 1 then some false else none }

/-- Witness for **C3 (amended)** at a concrete input: the success handler on
`stw3` clears `$pending` to `undefined`. -/
theorem pending_clearing_amended_witness :
    ∃ st' r, runHttpOk 30 stw3 1 (Value.vnum 7) = some (st', r) ∧
      pendingOf st' 0 = some PendVal.pundef := by
  have h0 : (runHttpOk 30 stw3 1 (Value.vnum 7)).isSome = true := by rfl
  obtain ⟨p, hp⟩ := Option.isSome_iff_exists.mp h0
  refine ⟨p.1, p.2, by rw [Prod.mk.eta]; exact hp, ?_⟩
  have h := pending_clearing_amended.1 30 1 stw3 p.1 (Value.vnum 7) p.2
    ⟨0, none, false, false⟩ { initObj with pending := PendVal.parr [1] } [1]
    rfl rfl rfl rfl (by rw [Prod.mk.eta]; exact hp)
  simpa [splicePending] using h

/-! ## C7 — transport errors: status, hooks, callback, rejection with the
object, and the queue continuing -/

/-- The scenario: A (with an error callback) fails, then B succeeds. -/
def asC7 : List Act := [Act.send 0 1 false true, Act.send 0 2 false false,
  Act.settleA 1 false 7, Act.settleA 2 true 3]

/-- **C7.** When the transport rejects a non-canceled request: (1) on any
state, the error handler sets `$status = 'error'`, records the error value as
the last response, dispatches `after-request-error` with the rejection value,
invokes the error callback when one was supplied, and — when it completes
normally — returns `$q.reject(self)`: the chain rejection carries the owning
object, not the raw error; (2) concretely, after A fails, its chain promise is
rejected with the object (`prej (vobj 0)`), `after-request-error` fired with
the rejection value, the error callback ran, and the subsequently queued B
still executed (its transport was issued and completed with status `ok`). -/
theorem transport_error_rejects_with_object_chain_continues :
    (∀ (fuel k : Nat) (st st' : MState) (v : Value) (r : Except JsE HRes)
      (sub : Sub) (od : ObjData) (l : List Nat),
      st.subs k = some sub → st.descs k = some false →
      st.objs sub.owner = some od → od.pending = PendVal.parr l →
      runHttpErr fuel st k v = some (st', r) →
      statusOf st' sub.owner = some (some "error") ∧
      responseOf st' sub.owner = some (RVal.rval v) ∧
      Ev.afterReqErr k v ∈ st'.log ∧
      (∀ h2, r = Except.ok h2 → h2 = HRes.rej (Value.vobj sub.owner) ∧
        (sub.hasErr = true → Ev.errCb k v ∈ st'.log))) ∧
    ((exec 60 init1 asC7).map (fun st =>
      (st.log.reverse, st.proms 1, statusOf st 0)) =
      some ([Ev.beforeReq 1, Ev.issued 1, Ev.tSettle 1,
        Ev.afterReqErr 1 (Value.vnum 7), Ev.errCb 1 (Value.vnum 7),
        Ev.opDone 1 "error", Ev.beforeReq 2, Ev.issued 2, Ev.tSettle 2,
        Ev.afterReq 2 (Value.vnum 3), Ev.opDone 2 "ok"],
        some (PState.prej (Value.vobj 0)), some (some "ok"))) := by
  constructor
  · intro fuel k st st' v r sub od l hsub hc hod hp hrun
    have h := runHttpErr_effects hsub hc hod hp hrun
    exact ⟨h.1, h.2.1, h.2.2.2.1, h.2.2.2.2⟩
  · rfl

/-- A concrete state for the C7 witness: descriptor 1 pending, not canceled,
with an error callback. -/
def stw7 : MState :=
  { init1 with
    objs := fun i => if i = 0 then some { initObj with pending := PendVal.parr [1] }
                     else none
    subs := fun i => if i = 1 then some ⟨0, none, false, true⟩ else none
    descs := fun i => if i = 1 then some false else none }

/-- Witness for **C7** at a concrete input. -/
theorem transport_error_rejects_with_object_chain_continues_witness :
    ∃ st' r, runHttpErr 30 stw7 1 (Value.vnum 9) = some (st', r) ∧
      statusOf st' 0 = some (some "error") ∧
      responseOf st' 0 = some (RVal.rval (Value.vnum 9)) ∧
      Ev.afterReqErr 1 (Value.vnum 9) ∈ st'.log := by
  have h0 : (runHttpErr 30 stw7 1 (Value.vnum 9)).isSome = true := by rfl
  obtain ⟨p, hp⟩ := Option.isSome_iff_exists.mp h0
  refine ⟨p.1, p.2, by rw [Prod.mk.eta]; exact hp, ?_⟩
  have h := transport_error_rejects_with_object_chain_continues.1 30 1 stw7 p.1
    (Value.vnum 9) p.2 ⟨0, none, false, true⟩
    { initObj with pending := PendVal.parr [1] } [1]
    rfl rfl rfl rfl (by rw [Prod.mk.eta]; exact hp)
  exact ⟨h.1, h.2.1, h.2.2.1⟩

/-! ## C8 — `$send` captures the dispatch override at submit time -/

/-- The scenario: A is submitted with no override; an override logging `tX` is
installed; B is submitted (capturing it); the override is removed; then A and
B settle. -/
def asC8 (tX : String) : List Act := [Act.send 0 1 false false,
  Act.setDspA 0 (some (Dsp.fnD (fun _ => Cb.logC tX))),
  Act.send 0 2 false false,
  Act.setDspA 0 none,
  Act.settleA 1 true 4,
  Act.settleA 2 false 9]

/-- **C8.** `$send` captures the current dispatch override at submit time (line
269), not at execution time: descriptor B is submitted while the override
logging `tX` is active but begins executing only after A settles — by which
time the ambient override has been removed (the second conjunct: after the
first four actions `$$dsp` is empty).  Still, B's `before-request` and its
`after-request-error` both run under the captured override, re-applied via
`$decorate` inside the execution function: `cbLog tX` appears right after
`beforeReq 2` and after `afterReqErr 2`, while A's hooks (submitted with no
override) fired without it. -/
theorem send_captures_dispatcher_at_submit (tX : String) :
    ((exec 60 init1 (asC8 tX)).map (fun st => st.log.reverse) =
      some [Ev.beforeReq 1, Ev.issued 1, Ev.tSettle 1,
        Ev.afterReq 1 (Value.vnum 4), Ev.opDone 1 "ok",
        Ev.beforeReq 2, Ev.cbLog tX, Ev.issued 2, Ev.tSettle 2,
        Ev.afterReqErr 2 (Value.vnum 9), Ev.cbLog tX, Ev.opDone 2 "error"]) ∧
    ((exec 60 init1 ((asC8 tX).take 4)).map (fun st => dspSome st 0) =
      some (some false)) := by
  exact ⟨rfl, rfl⟩

/-! ## C9 — `$then` / `$finally` require an existing chain tail -/

/-- **C9.** `$then` and `$finally` unconditionally invoke promise methods on
`this.$promise` (lines 228 and 249), so on an object whose chain tail is
absent — `$promise` still `undefined` because `$send` was never called, or
`null` because `$cancel` reset it (line 367) — they are not no-ops but fail
with a `TypeError`; their precondition is that a chain tail exists.
Conjuncts: (1) on any object with an absent tail both operations throw;
(2) `$cancel` always leaves `$promise = null`; (3) concretely, `$then` on a
fresh object throws; (4) after submit-then-cancel, `$promise` is `null` and
both `$then` and `$finally` fail. -/
theorem then_finally_require_chain_tail :
    (∀ (st : MState) (oid : Nat) (od : ObjData), st.objs oid = some od →
      od.promise = PromVal.prUndef ∨ od.promise = PromVal.prNull →
      thenOp st oid = Except.error JsE.typeError ∧
      finallyOp st oid = Except.error JsE.typeError) ∧
    (∀ (st : MState) (oid : Nat) (od : ObjData), st.objs oid = some od →
      promiseOf (cancelOp st oid) oid = some PromVal.prNull) ∧
    (thenOp init1 0 = Except.error JsE.typeError ∧
      finallyOp init1 0 = Except.error JsE.typeError) ∧
    ((exec 60 init1 [Act.send 0 1 false false, Act.cancel 0]).map
      (fun st => (promiseOf st 0, (thenOp st 0).isOk, (finallyOp st 0).isOk)) =
      some (some PromVal.prNull, false, false)) := by
  refine ⟨?_, ?_, ⟨rfl, rfl⟩, rfl⟩
  · intro st oid od hod hpr
    rcases hpr with h | h
    · constructor
      · simp [thenOp, hod, h]
      · simp [finallyOp, hod, h]
    · constructor
      · simp [thenOp, hod, h]
      · simp [finallyOp, hod, h]
  · intro st oid od hod
    unfold cancelOp
    rw [hod]
    cases hp : od.pending with
    | parr l =>
      simp only [hp]
      have hobj : (markCanceled st l).objs = st.objs := markCanceled_objs l st
      simp [setPromise, hobj, hod, promiseOf, updObj]
    | pundef =>
      simp only [hp]
      simp [setPromise, hod, promiseOf, updObj]
    | pnull =>
      simp only [hp]
      simp [setPromise, hod, promiseOf, updObj]

/-- Witness for **C9** at a concrete input: the fresh object `initObj` has an
absent chain tail, so `$then` and `$finally` throw, and `$cancel` leaves
`$promise = null`. -/
theorem then_finally_require_chain_tail_witness :
    init1.objs 0 = some initObj ∧
    (initObj.promise = PromVal.prUndef ∨ initObj.promise = PromVal.prNull) ∧
    (thenOp init1 0 = Except.error JsE.typeError ∧
      finallyOp init1 0 = Except.error JsE.typeError) ∧
    promiseOf (cancelOp init1 0) 0 = some PromVal.prNull := by
  exact ⟨rfl, Or.inl rfl,
    then_finally_require_chain_tail.1 init1 0 initObj rfl (Or.inl rfl),
    then_finally_require_chain_tail.2.1 init1 0 initObj rfl⟩

/-! ## C10 — `performRequest` resets `$response` / `$error` before
`before-request` -/

/-- An object whose `before-request` hook observes whether
`$response === null && $error === false`, with arbitrary stale values. -/
def obC10 (rv : RVal) (ef : Option Bool) (tF tS : String) : ObjData :=
  { initObj with cbs := [("before-request", [Cb.obsState tF tS])],
                 response := rv, errFlag := ef }

def stC10 (rv : RVal) (ef : Option Bool) (tF tS : String) : MState :=
  { init1 with
    objs := fun i => if i = 0 then some (obC10 rv ef tF tS) else none
    subs := fun i => if i = 1 then some ⟨0, none, false, false⟩ else none
    descs := fun i => if i = 1 then some false else none }

/-- **C10.** For a non-canceled operation, `performRequest` sets
`this.$response = null` and `this.$error = false` (lines 283-284) immediately
before dispatching `before-request`: whatever stale response value `rv` and
error flag `ef` the object carries, the observing hook sees the reset state
(logs `tF`, never `tS`).  The second conjunct shows the reset is what hides
the stale value: dispatching the same hook directly (without `performRequest`)
on an object with a stale response logs `tS`. -/
theorem before_request_resets_response_and_error (rv : RVal) (ef : Option Bool)
    (tF tS : String) :
    ((runPerform 30 (stC10 rv ef tF tS) 1).map
      (fun p => (p.1.log.reverse, p.2.toBool)) =
      some ([Ev.beforeReq 1, Ev.cbLog tF, Ev.issued 1], true)) ∧
    ((dispatch 30 (stC10 (RVal.rval (Value.vnum 9)) none tF tS) 0
        "before-request" []).map (fun p => p.1.log.reverse) =
      some [Ev.cbLog tS]) := by
  exact ⟨rfl, rfl⟩

theorem decorate_composes_and_restores (p m : String) :
    ((decorateCb 30 (dspSt [] (some (Dsp.fnD (fun _ => Cb.logC p)))) 0
        (DecArg.mapA [("h", Cb.logC m)]) (Cb.dspSame "h")).map
      (fun r => (r.1.log.reverse, r.2.toBool, dspSome r.1 0,
        (dispatch 30 r.1 0 "h" []).map (fun q => (q.1.log.reverse).drop 2))) =
      some ([Ev.cbLog p, Ev.cbLog m], true, some true, some [Ev.cbLog p])) ∧
    ((decorateCb 30 (dspSt [] (some (Dsp.fnD (fun _ => Cb.logC p)))) 0
        (DecArg.mapA [("h", Cb.logC m)])
        (Cb.seqC (Cb.dspSame "h") (Cb.throwC "x"))).map
      (fun r => (r.1.log.reverse, r.2.toBool, dspSome r.1 0,
        (dispatch 30 r.1 0 "h" []).map (fun q => (q.1.log.reverse).drop 2))) =
      some ([Ev.cbLog p, Ev.cbLog m], false, some true, some [Ev.cbLog p])) := by
  exact ⟨rfl, rfl⟩

end RMCommonApi

namespace RMCommonApi

/-- Writing back the object already stored is the identity. -/
theorem updObj_self {st : MState} {oid : Nat} {od : ObjData}
    (h : st.objs oid = some od) : updObj st oid od = st := by
  cases st
  simp only [updObj, MState.mk.injEq, and_true, true_and]
  funext i
  by_cases hi : i = oid
  · subst hi; simpa using h.symm
  · simp [hi]

/-- `{ od with dsp := none }` is `od` itself when `od.dsp = none`. -/
theorem eraseDsp_self {od : ObjData} (h : od.dsp = none) :
    { od with dsp := none } = od := by
  cases od
  simp_all

/-- Dispatching on a hook-free object (no callbacks, no override, no scope,
no type) is a no-op. -/
theorem dispatch_clean (fuel : Nat) (st : MState) (od : ObjData)
    (hook : String) (args : List Value)
    (hod : st.objs 0 = some od) (hcbs : od.cbs = []) (hdsp : od.dsp = none)
    (hsc : od.scope = none) (hty : od.typeRef = none) :
    runD (fuel + 2) st (DJob.jDispatch 0 0 hook args) = some (st, Except.ok ()) := by
  have hlk : lookupCbs od.cbs hook = [] := by rw [hcbs]; rfl
  simp only [runD, hod, hdsp, hlk, hsc, hty, dbind]
  simp [setDsp, hod, eraseDsp_self hdsp, updObj_self hod]

end RMCommonApi

namespace RMCommonApi

/-- The state after `performRequest` has reset the object, fired
`before-request` (a no-op on a hook-free object) and issued the transport:
two fresh promises (the transport promise and the `.then` result), the
transport in flight, the descriptor flying. -/
def performResult (st : MState) (k : Nat) (od : ObjData) : MState :=
  emit (updPhase (updTrans (updProm (updProm
    { emit (updObj st 0 { od with response := RVal.rnull, errFlag := some false })
        (Ev.beforeReq k) with nextP := st.nextP + 2 }
    st.nextP (PState.ppend [⟨some (Handler.hHttpOk k), some (Handler.hHttpErr k),
      st.nextP + 1⟩]))
    (st.nextP + 1) (PState.ppend []))
    k (TState.inflight st.nextP)) k Ph.flying) (Ev.issued k)

theorem setDsp_none_self {st : MState} {od : ObjData}
    (hod : st.objs 0 = some od) (hdsp : od.dsp = none) :
    setDsp st 0 none = st := by
  simp [setDsp, hod, eraseDsp_self hdsp, updObj_self hod]

theorem runPerform_clean (fuel : Nat) (st : MState) (k : Nat) (s e : Bool)
    (od : ObjData)
    (hsub : st.subs k = some ⟨0, none, s, e⟩) (hdesc : st.descs k = some false)
    (hod : st.objs 0 = some od) (hcbs : od.cbs = []) (hdsp : od.dsp = none)
    (hsc : od.scope = none) (hty : od.typeRef = none) :
    runPerform (fuel + 2) st k =
      some (performResult st k od, Except.ok (HRes.prom (st.nextP + 1))) := by
  have hdof : dspOf st 0 = none := by simp [dspOf, hod, hdsp]
  have hod2 : (emit (updObj st 0
      { od with response := RVal.rnull, errFlag := some false })
      (Ev.beforeReq k)).objs 0 =
      some { od with response := RVal.rnull, errFlag := some false } := by
    simp [updObj]
  have hdisp := dispatch_clean fuel
    (emit (updObj st 0 { od with response := RVal.rnull, errFlag := some false })
      (Ev.beforeReq k))
    { od with response := RVal.rnull, errFlag := some false }
    "before-request" [Value.vdesc k] hod2 hcbs hdsp hsc hty
  simp only [runPerform, hsub]
  rw [if_neg (by simp [hdesc])]
  simp only [decorate, mkDspArg, hdof, setDsp_none_self hod hdsp, hod, hdisp, dbind]
  rw [setDsp_none_self hod2 hdsp]
  rfl

end RMCommonApi

namespace RMCommonApi

/-- The state after the transport success handler ran on a hook-free object:
descriptor spliced out of `$pending`, status `ok`, response recorded, the
optional success callback fired, descriptor done. -/
def httpOkResult (st : MState) (k : Nat) (od : ObjData) (l : List Nat)
    (v : Value) (s : Bool) : MState :=
  emit (updPhase
    ((fun s2 => if s then emit s2 (Ev.succCb k v) else s2)
      (emit (updObj st 0
        { od with
          pending := if splicePending l k = [] then PendVal.pundef
                     else PendVal.parr (splicePending l k),
          status := some "ok", response := RVal.rval v })
        (Ev.afterReq k v)))
    k Ph.donePh) (Ev.opDone k "ok")

/-- The state after the transport error handler ran on a hook-free object. -/
def httpErrResult (st : MState) (k : Nat) (od : ObjData) (l : List Nat)
    (v : Value) (e : Bool) : MState :=
  emit (updPhase
    ((fun s2 => if e then emit s2 (Ev.errCb k v) else s2)
      (emit (updObj st 0
        { od with
          pending := if splicePending l k = [] then PendVal.pnull
                     else PendVal.parr (splicePending l k),
          status := some "error", response := RVal.rval v })
        (Ev.afterReqErr k v)))
    k Ph.donePh) (Ev.opDone k "error")

theorem runHttpOk_clean (fuel : Nat) (st : MState) (k : Nat) (s e : Bool)
    (od : ObjData) (l : List Nat) (v : Value)
    (hsub : st.subs k = some ⟨0, none, s, e⟩) (hdesc : st.descs k = some false)
    (hod : st.objs 0 = some od) (hp : od.pending = PendVal.parr l)
    (hcbs : od.cbs = []) (hdsp : od.dsp = none)
    (hsc : od.scope = none) (hty : od.typeRef = none) :
    runHttpOk (fuel + 2) st k v =
      some (httpOkResult st k od l v s, Except.ok (HRes.val (Value.vobj 0))) := by
  have hdof : dspOf st 0 = none := by simp [dspOf, hod, hdsp]
  have hod2 : (emit (updObj st 0
      { od with
        pending := if splicePending l k = [] then PendVal.pundef
                   else PendVal.parr (splicePending l k),
        status := some "ok", response := RVal.rval v })
      (Ev.afterReq k v)).objs 0 =
      some { od with
        pending := if splicePending l k = [] then PendVal.pundef
                   else PendVal.parr (splicePending l k),
        status := some "ok", response := RVal.rval v } := by
    simp [updObj]
  have hdisp := dispatch_clean fuel _ _ "after-request" [v] hod2 hcbs hdsp hsc hty
  simp only [runHttpOk, hsub]
  rw [if_neg (by simp [hdesc])]
  simp only [decorate, mkDspArg, hdof, setDsp_none_self hod hdsp, hod, hp,
    hdisp, dbind]
  cases s with
  | true =>
    rw [if_pos rfl]
    have hod3 : (emit (emit (updObj st 0
        { od with
          pending := if splicePending l k = [] then PendVal.pundef
                     else PendVal.parr (splicePending l k),
          status := some "ok", response := RVal.rval v })
        (Ev.afterReq k v)) (Ev.succCb k v)).objs 0 =
        some { od with
          pending := if splicePending l k = [] then PendVal.pundef
                     else PendVal.parr (splicePending l k),
          status := some "ok", response := RVal.rval v } := by
      simp [updObj]
    simp only [setDsp_none_self hod3 hdsp]
    rfl
  | false =>
    rw [if_neg (by simp)]
    simp only [setDsp_none_self hod2 hdsp]
    rfl

theorem runHttpErr_clean (fuel : Nat) (st : MState) (k : Nat) (s e : Bool)
    (od : ObjData) (l : List Nat) (v : Value)
    (hsub : st.subs k = some ⟨0, none, s, e⟩) (hdesc : st.descs k = some false)
    (hod : st.objs 0 = some od) (hp : od.pending = PendVal.parr l)
    (hcbs : od.cbs = []) (hdsp : od.dsp = none)
    (hsc : od.scope = none) (hty : od.typeRef = none) :
    runHttpErr (fuel + 2) st k v =
      some (httpErrResult st k od l v e, Except.ok (HRes.rej (Value.vobj 0))) := by
  have hdof : dspOf st 0 = none := by simp [dspOf, hod, hdsp]
  have hod2 : (emit (updObj st 0
      { od with
        pending := if splicePending l k = [] then PendVal.pnull
                   else PendVal.parr (splicePending l k),
        status := some "error", response := RVal.rval v })
      (Ev.afterReqErr k v)).objs 0 =
      some { od with
        pending := if splicePending l k = [] then PendVal.pnull
                   else PendVal.parr (splicePending l k),
        status := some "error", response := RVal.rval v } := by
    simp [updObj]
  have hdisp := dispatch_clean fuel _ _ "after-request-error" [v] hod2 hcbs hdsp hsc hty
  simp only [runHttpErr, hsub]
  rw [if_neg (by simp [hdesc])]
  simp only [decorate, mkDspArg, hdof, setDsp_none_self hod hdsp, hod, hp,
    hdisp, dbind]
  cases e with
  | true =>
    rw [if_pos rfl]
    have hod3 : (emit (emit (updObj st 0
        { od with
          pending := if splicePending l k = [] then PendVal.pnull
                     else PendVal.parr (splicePending l k),
          status := some "error", response := RVal.rval v })
        (Ev.afterReqErr k v)) (Ev.errCb k v)).objs 0 =
        some { od with
          pending := if splicePending l k = [] then PendVal.pnull
                     else PendVal.parr (splicePending l k),
          status := some "error", response := RVal.rval v } := by
      simp [updObj]
    simp only [setDsp_none_self hod3 hdsp]
    rfl
  | false =>
    rw [if_neg (by simp)]
    simp only [setDsp_none_self hod2 hdsp]
    rfl

end RMCommonApi

namespace RMCommonApi

/-! ### The shape of a serialized request chain

Between actions the machine is quiescent; the promise graph of the single
object is a linear chain: an optional adoption-forward hop, then one pending
`.then`-target per queued descriptor, ending at the current `$promise` tail. -/

inductive Link where
  | fwdL : Nat → Link               -- a pass-through (adoption) reaction to q
  | perfL : Nat → Nat → Link        -- a `performRequest k` reaction targeting q
deriving DecidableEq, Repr

def linkTgt : Link → Nat
  | Link.fwdL q => q
  | Link.perfL _ q => q

def linkKs : List Link → List Nat
  | [] => []
  | Link.fwdL _ :: ls => linkKs ls
  | Link.perfL k _ :: ls => k :: linkKs ls

def pidsOf (root : Nat) (ls : List Link) : List Nat := root :: ls.map linkTgt

/-- The pending chain hanging below promise `root`: each promise holds exactly
the reaction the source attached to it, every queued descriptor is waiting
(submitted, not canceled, transport not issued), and the last promise is the
object's current `$promise` tail with nothing attached yet. -/
def chainOK (st : MState) : Nat → List Link → Prop
  | root, [] =>
      st.proms root = some (PState.ppend []) ∧
      promiseOf st 0 = some (PromVal.prSome root)
  | root, Link.fwdL q :: ls =>
      st.proms root = some (PState.ppend [⟨none, none, q⟩]) ∧ chainOK st q ls
  | root, Link.perfL k q :: ls =>
      st.proms root = some (PState.ppend
        [⟨some (Handler.hPerform k), some (Handler.hPerform k), q⟩]) ∧
      (∃ s e, st.subs k = some ⟨0, none, s, e⟩) ∧
      st.descs k = some false ∧
      st.phase k = some Ph.waiting ∧
      st.trans k = none ∧
      chainOK st q ls

theorem chainOK_congr {st st' : MState} : ∀ {P : Nat} {ls : List Link},
    (∀ p, p ∈ pidsOf P ls → st'.proms p = st.proms p) →
    (∀ k, k ∈ linkKs ls → st'.subs k = st.subs k ∧ st'.descs k = st.descs k ∧
      st'.phase k = st.phase k ∧ st'.trans k = st.trans k) →
    promiseOf st' 0 = promiseOf st 0 →
    chainOK st P ls → chainOK st' P ls := by
  intro P ls
  induction ls generalizing P with
  | nil =>
    intro hpr hk hprom h
    exact ⟨(hpr P (by simp [pidsOf])).trans h.1, hprom.trans h.2⟩
  | cons l rest ih =>
    intro hpr hk hprom h
    cases l with
    | fwdL q =>
      refine ⟨(hpr P (by simp [pidsOf])).trans h.1, ?_⟩
      refine ih (fun p hp => hpr p ?_) (fun k2 hk2 => hk k2 (by simpa [linkKs] using hk2)) hprom h.2
      simp only [pidsOf, List.mem_cons, List.map_cons, linkTgt] at hp ⊢
      tauto
    | perfL k q =>
      obtain ⟨h1, h2, h3, h4, h5, h6⟩ := h
      have hkk := hk k (by simp [linkKs])
      refine ⟨(hpr P (by simp [pidsOf])).trans h1,
        ⟨h2.choose, h2.choose_spec.choose, hkk.1.trans h2.choose_spec.choose_spec⟩,
        hkk.2.1.trans h3, hkk.2.2.1.trans h4, hkk.2.2.2.trans h5, ?_⟩
      refine ih (fun p hp => hpr p ?_) (fun k2 hk2 => hk k2 (by simp [linkKs, hk2])) hprom h6
      simp only [pidsOf, List.mem_cons, List.map_cons, linkTgt] at hp ⊢
      tauto

end RMCommonApi

namespace RMCommonApi

/-- The last promise of a chain (the object's `$promise` tail). -/
def tailPid : Nat → List Link → Nat
  | root, [] => root
  | _, l :: ls => tailPid (linkTgt l) ls

theorem chainOK_tail {st : MState} : ∀ {P : Nat} {ls : List Link},
    chainOK st P ls →
    st.proms (tailPid P ls) = some (PState.ppend []) ∧
    promiseOf st 0 = some (PromVal.prSome (tailPid P ls)) := by
  intro P ls
  induction ls generalizing P with
  | nil => intro h; exact ⟨h.1, h.2⟩
  | cons l rest ih =>
    intro h
    cases l with
    | fwdL q => exact ih h.2
    | perfL k q => exact ih h.2.2.2.2.2

theorem chainOK_waiting {st : MState} : ∀ {P : Nat} {ls : List Link},
    chainOK st P ls → ∀ k, k ∈ linkKs ls →
    st.phase k = some Ph.waiting ∧ st.trans k = none ∧
    st.descs k = some false ∧ (∃ s e, st.subs k = some ⟨0, none, s, e⟩) := by
  intro P ls
  induction ls generalizing P with
  | nil => intro _ k hk; simp [linkKs] at hk
  | cons l rest ih =>
    intro h k hk
    cases l with
    | fwdL q => exact ih h.2 k (by simpa [linkKs] using hk)
    | perfL k2 q =>
      simp only [linkKs, List.mem_cons] at hk
      rcases hk with rfl | hk
      · exact ⟨h.2.2.2.1, h.2.2.2.2.1, h.2.2.1, h.2.1⟩
      · exact ih h.2.2.2.2.2 k hk

theorem tailPid_mem (P : Nat) (ls : List Link) : tailPid P ls ∈ pidsOf P ls := by
  induction ls generalizing P with
  | nil => simp [tailPid, pidsOf]
  | cons l rest ih =>
    have h := ih (linkTgt l)
    simp only [tailPid, pidsOf, List.mem_cons, List.map_cons] at h ⊢
    tauto

/-- The single-object no-cancel invariant: the object is hook-free, every
submitted-but-unsettled descriptor sits in the serialized pipeline —
a (possibly empty) prefix of settled descriptors, then optionally one
descriptor with its transport in flight and the queued remainder hanging as a
pending promise chain below its `.then` promise. -/
def Inv (st : MState) : Prop :=
  ∃ od, st.objs 0 = some od ∧
    od.cbs = [] ∧ od.dsp = none ∧ od.scope = none ∧ od.typeRef = none ∧
    (∀ i, ¬ i = 0 → st.objs i = none) ∧
    (∀ k, ¬ st.descs k = some true) ∧
    (∀ k, st.subs k = none → st.phase k = none ∧ st.trans k = none) ∧
    ∃ dn rest, od.subsOrd = dn ++ rest ∧
      (∀ k ∈ dn, st.phase k = some Ph.donePh) ∧
      ((rest = [] ∧
        (od.pending = PendVal.pundef ∨ od.pending = PendVal.pnull) ∧
        (od.promise = PromVal.prUndef ∨
          ∃ p v, od.promise = PromVal.prSome p ∧ p < st.nextP ∧
            (st.proms p = some (PState.pres v) ∨ st.proms p = some (PState.prej v))) ∧
        (∀ k t, ¬ st.trans k = some (TState.inflight t))) ∨
       (∃ kf waits, rest = kf :: waits ∧
         st.phase kf = some Ph.flying ∧
         st.descs kf = some false ∧
         (∃ s e, st.subs kf = some ⟨0, none, s, e⟩) ∧
         od.pending = PendVal.parr (kf :: waits) ∧
         ∃ T P ls,
           st.trans kf = some (TState.inflight T) ∧
           st.proms T = some (PState.ppend
             [⟨some (Handler.hHttpOk kf), some (Handler.hHttpErr kf), P⟩]) ∧
           chainOK st P ls ∧
           linkKs ls = waits ∧
           (∀ p, p ∈ T :: pidsOf P ls → p < st.nextP) ∧
           (T :: pidsOf P ls).Nodup ∧
           (kf :: linkKs ls).Nodup ∧
           (∀ k t, st.trans k = some (TState.inflight t) → k = kf)))

theorem Inv_init1 : Inv init1 := by
  refine ⟨initObj, rfl, rfl, rfl, rfl, rfl, ?_, ?_, ?_, [], [], rfl, ?_, ?_⟩
  · intro i hi; simp [init1, hi]
  · intro k; simp [init1]
  · intro k _; exact ⟨rfl, rfl⟩
  · intro k hk; simp at hk
  · exact Or.inl ⟨rfl, Or.inl rfl, Or.inl rfl, by intro k t h; simp [init1] at h⟩

end RMCommonApi

namespace RMCommonApi

theorem runPerform_clean' (fuel : Nat) (st : MState) (k : Nat) (s e : Bool)
    (od : ObjData)
    (hsub : st.subs k = some ⟨0, none, s, e⟩) (hdesc : st.descs k = some false)
    (hod : st.objs 0 = some od) (hcbs : od.cbs = []) (hdsp : od.dsp = none)
    (hsc : od.scope = none) (hty : od.typeRef = none) :
    runPerform fuel st k = none ∨
    runPerform fuel st k =
      some (performResult st k od, Except.ok (HRes.prom (st.nextP + 1))) := by
  match fuel with
  | 0 =>
    left
    have hdof : dspOf st 0 = none := by simp [dspOf, hod, hdsp]
    simp [runPerform, hsub, hdesc, decorate, mkDspArg, hdof,
      setDsp_none_self hod hdsp, hod, runD]
  | 1 =>
    left
    have hdof : dspOf st 0 = none := by simp [dspOf, hod, hdsp]
    simp [runPerform, hsub, hdesc, decorate, mkDspArg, hdof,
      setDsp_none_self hod hdsp, hod, runD, dbind, updObj, hdsp]
  | n + 2 =>
    right
    exact runPerform_clean n st k s e od hsub hdesc hod hcbs hdsp hsc hty

theorem runHttpOk_clean' (fuel : Nat) (st : MState) (k : Nat) (s e : Bool)
    (od : ObjData) (l : List Nat) (v : Value)
    (hsub : st.subs k = some ⟨0, none, s, e⟩) (hdesc : st.descs k = some false)
    (hod : st.objs 0 = some od) (hp : od.pending = PendVal.parr l)
    (hcbs : od.cbs = []) (hdsp : od.dsp = none)
    (hsc : od.scope = none) (hty : od.typeRef = none) :
    runHttpOk fuel st k v = none ∨
    runHttpOk fuel st k v =
      some (httpOkResult st k od l v s, Except.ok (HRes.val (Value.vobj 0))) := by
  match fuel with
  | 0 =>
    left
    have hdof : dspOf st 0 = none := by simp [dspOf, hod, hdsp]
    simp [runHttpOk, hsub, hdesc, decorate, mkDspArg, hdof,
      setDsp_none_self hod hdsp, hod, hp, runD, dbind]
  | 1 =>
    left
    have hdof : dspOf st 0 = none := by simp [dspOf, hod, hdsp]
    simp [runHttpOk, hsub, hdesc, decorate, mkDspArg, hdof,
      setDsp_none_self hod hdsp, hod, hp, runD, dbind, updObj, hdsp]
  | n + 2 =>
    right
    exact runHttpOk_clean n st k s e od l v hsub hdesc hod hp hcbs hdsp hsc hty

theorem runHttpErr_clean' (fuel : Nat) (st : MState) (k : Nat) (s e : Bool)
    (od : ObjData) (l : List Nat) (v : Value)
    (hsub : st.subs k = some ⟨0, none, s, e⟩) (hdesc : st.descs k = some false)
    (hod : st.objs 0 = some od) (hp : od.pending = PendVal.parr l)
    (hcbs : od.cbs = []) (hdsp : od.dsp = none)
    (hsc : od.scope = none) (hty : od.typeRef = none) :
    runHttpErr fuel st k v = none ∨
    runHttpErr fuel st k v =
      some (httpErrResult st k od l v e, Except.ok (HRes.rej (Value.vobj 0))) := by
  match fuel with
  | 0 =>
    left
    have hdof : dspOf st 0 = none := by simp [dspOf, hod, hdsp]
    simp [runHttpErr, hsub, hdesc, decorate, mkDspArg, hdof,
      setDsp_none_self hod hdsp, hod, hp, runD, dbind]
  | 1 =>
    left
    have hdof : dspOf st 0 = none := by simp [dspOf, hod, hdsp]
    simp [runHttpErr, hsub, hdesc, decorate, mkDspArg, hdof,
      setDsp_none_self hod hdsp, hod, hp, runD, dbind, updObj, hdsp]
  | n + 2 =>
    right
    exact runHttpErr_clean n st k s e od l v hsub hdesc hod hp hcbs hdsp hsc hty

end RMCommonApi

namespace RMCommonApi

theorem linkKs_append (ls1 ls2 : List Link) :
    linkKs (ls1 ++ ls2) = linkKs ls1 ++ linkKs ls2 := by
  induction ls1 with
  | nil => rfl
  | cons l rest ih => cases l <;> simp [linkKs, ih]

theorem pidsOf_append_perf (P k q : Nat) (ls : List Link) :
    pidsOf P (ls ++ [Link.perfL k q]) = pidsOf P ls ++ [q] := by
  simp [pidsOf, linkTgt]

theorem tailPid_snoc (P k q : Nat) (ls : List Link) :
    tailPid P (ls ++ [Link.perfL k q]) = q := by
  induction ls generalizing P with
  | nil => rfl
  | cons l rest ih => simp [tailPid, ih]

theorem chainOK_snoc {st st' : MState} : ∀ {P : Nat} {ls : List Link} {k q : Nat},
    chainOK st P ls →
    (pidsOf P ls).Nodup →
    (∀ p, p ∈ pidsOf P ls → ¬ p = tailPid P ls → st'.proms p = st.proms p) →
    st'.proms (tailPid P ls) = some (PState.ppend
      [⟨some (Handler.hPerform k), some (Handler.hPerform k), q⟩]) →
    st'.proms q = some (PState.ppend []) →
    promiseOf st' 0 = some (PromVal.prSome q) →
    (∀ k2, k2 ∈ linkKs ls → st'.subs k2 = st.subs k2 ∧ st'.descs k2 = st.descs k2 ∧
      st'.phase k2 = st.phase k2 ∧ st'.trans k2 = st.trans k2) →
    (∃ s e, st'.subs k = some ⟨0, none, s, e⟩) →
    st'.descs k = some false → st'.phase k = some Ph.waiting →
    st'.trans k = none →
    chainOK st' P (ls ++ [Link.perfL k q]) := by
  intro P ls k q hch hnd hpr htl hqq hprom hkk hks hkd hkp hkt
  induction ls generalizing P with
  | nil =>
    exact ⟨htl, hks, hkd, hkp, hkt, hqq, hprom⟩
  | cons l rest ih =>
    have hndr : (pidsOf (linkTgt l) rest).Nodup := by
      have := hnd
      simp only [pidsOf, List.map_cons, List.nodup_cons] at this ⊢
      exact ⟨fun hm => this.2.1 hm, this.2.2⟩
    have hPmem : ∀ p, p ∈ pidsOf (linkTgt l) rest → p ∈ pidsOf P (l :: rest) := by
      intro p hp
      simp only [pidsOf, List.mem_cons, List.map_cons] at hp ⊢
      tauto
    have hPne : ¬ P = tailPid (linkTgt l) rest := by
      intro heq
      have hmem := tailPid_mem (linkTgt l) rest
      have := hnd
      simp only [pidsOf, List.nodup_cons] at this
      rw [← heq] at hmem
      simp only [pidsOf, List.mem_cons] at hmem
      rcases hmem with h | h
      · exact this.1 (by simp [← h])
      · exact this.1 (by simp [h])
    have htl' : tailPid P (l :: rest) = tailPid (linkTgt l) rest := rfl
    have hprP : st'.proms P = st.proms P := by
      refine hpr P (by simp [pidsOf]) ?_
      rw [htl']
      exact hPne
    cases l with
    | fwdL q2 =>
      refine ⟨hprP.trans hch.1, ?_⟩
      exact ih hch.2 hndr (fun p hp hpt => hpr p (hPmem p hp) hpt) htl
        (fun k2 hk2 => hkk k2 (by simpa [linkKs] using hk2))
    | perfL k2 q2 =>
      obtain ⟨h1, h2, h3, h4, h5, h6⟩ := hch
      have hk2 := hkk k2 (by simp [linkKs])
      refine ⟨hprP.trans h1,
        ⟨h2.choose, h2.choose_spec.choose, hk2.1.trans h2.choose_spec.choose_spec⟩,
        hk2.2.1.trans h3, hk2.2.2.1.trans h4, hk2.2.2.2.trans h5, ?_⟩
      exact ih h6 hndr (fun p hp hpt => hpr p (hPmem p hp) hpt) htl
        (fun k3 hk3 => hkk k3 (by simp [linkKs, hk3]))

end RMCommonApi

namespace RMCommonApi

theorem setPromise_subs (st : MState) (oid : Nat) (p : PromVal) :
    (setPromise st oid p).subs = st.subs := by
  unfold setPromise; cases st.objs oid <;> rfl

theorem setPromise_phase (st : MState) (oid : Nat) (p : PromVal) :
    (setPromise st oid p).phase = st.phase := by
  unfold setPromise; cases st.objs oid <;> rfl

theorem setPromise_trans (st : MState) (oid : Nat) (p : PromVal) :
    (setPromise st oid p).trans = st.trans := by
  unfold setPromise; cases st.objs oid <;> rfl

theorem setPromise_proms (st : MState) (oid : Nat) (p : PromVal) :
    (setPromise st oid p).proms = st.proms := by
  unfold setPromise; cases st.objs oid <;> rfl

theorem setPromise_nextP (st : MState) (oid : Nat) (p : PromVal) :
    (setPromise st oid p).nextP = st.nextP := by
  unfold setPromise; cases st.objs oid <;> rfl

theorem sendPrep_eq {st : MState} {od : ObjData} {k : Nat} {s e : Bool}
    (hod : st.objs 0 = some od) :
    sendPrep st 0 k od s e =
    updObj (updPhase (updDesc (updSub st k ⟨0, od.dsp, s, e⟩) k false) k Ph.waiting) 0
      { od with
        pending := PendVal.parr
          ((match od.pending with | PendVal.parr l => l | _ => []) ++ [k]),
        subsOrd := od.subsOrd ++ [k] } := by
  simp only [sendPrep, updSub_objs, updDesc_objs, updPhase_objs, hod]

theorem performResult_objs0 (st : MState) (k : Nat) (od : ObjData) :
    (performResult st k od).objs 0 =
      some { od with response := RVal.rnull, errFlag := some false } := by
  simp [performResult, updObj, updProm, updTrans, updPhase, emit]

theorem performResult_objs_ne (st : MState) (k : Nat) (od : ObjData) (i : Nat)
    (hi : ¬ i = 0) : (performResult st k od).objs i = st.objs i := by
  simp [performResult, updObj, updProm, updTrans, updPhase, emit, hi]

theorem performResult_subs (st : MState) (k : Nat) (od : ObjData) :
    (performResult st k od).subs = st.subs := rfl

theorem performResult_descs (st : MState) (k : Nat) (od : ObjData) :
    (performResult st k od).descs = st.descs := rfl

theorem performResult_nextP (st : MState) (k : Nat) (od : ObjData) :
    (performResult st k od).nextP = st.nextP + 2 := rfl

theorem performResult_phase_at (st : MState) (k : Nat) (od : ObjData) :
    (performResult st k od).phase k = some Ph.flying := by
  simp [performResult, updObj, updProm, updTrans, updPhase, emit]

theorem performResult_phase_ne (st : MState) (k : Nat) (od : ObjData) (k2 : Nat)
    (hk : ¬ k2 = k) : (performResult st k od).phase k2 = st.phase k2 := by
  simp [performResult, updObj, updProm, updTrans, updPhase, emit, hk]

theorem performResult_trans_at (st : MState) (k : Nat) (od : ObjData) :
    (performResult st k od).trans k = some (TState.inflight st.nextP) := by
  simp [performResult, updObj, updProm, updTrans, updPhase, emit]

theorem performResult_trans_ne (st : MState) (k : Nat) (od : ObjData) (k2 : Nat)
    (hk : ¬ k2 = k) : (performResult st k od).trans k2 = st.trans k2 := by
  simp [performResult, updObj, updProm, updTrans, updPhase, emit, hk]

theorem performResult_proms_T (st : MState) (k : Nat) (od : ObjData) :
    (performResult st k od).proms st.nextP =
      some (PState.ppend [⟨some (Handler.hHttpOk k), some (Handler.hHttpErr k),
        st.nextP + 1⟩]) := by
  simp [performResult, updObj, updProm, updTrans, updPhase, emit]

theorem performResult_proms_P (st : MState) (k : Nat) (od : ObjData) :
    (performResult st k od).proms (st.nextP + 1) = some (PState.ppend []) := by
  simp [performResult, updObj, updProm, updTrans, updPhase, emit]

theorem performResult_proms_ne (st : MState) (k : Nat) (od : ObjData) (p : Nat)
    (h1 : ¬ p = st.nextP) (h2 : ¬ p = st.nextP + 1) :
    (performResult st k od).proms p = st.proms p := by
  simp [performResult, updObj, updProm, updTrans, updPhase, emit, h1, h2]

theorem httpOkResult_objs0 (st : MState) (k : Nat) (od : ObjData) (l : List Nat)
    (v : Value) (s : Bool) :
    (httpOkResult st k od l v s).objs 0 =
      some { od with
        pending := if splicePending l k = [] then PendVal.pundef
                   else PendVal.parr (splicePending l k),
        status := some "ok", response := RVal.rval v } := by
  cases s <;> simp [httpOkResult, updObj, updPhase, emit]

theorem httpOkResult_objs_ne (st : MState) (k : Nat) (od : ObjData) (l : List Nat)
    (v : Value) (s : Bool) (i : Nat) (hi : ¬ i = 0) :
    (httpOkResult st k od l v s).objs i = st.objs i := by
  cases s <;> simp [httpOkResult, updObj, updPhase, emit, hi]

theorem httpOkResult_subs (st : MState) (k : Nat) (od : ObjData) (l : List Nat)
    (v : Value) (s : Bool) : (httpOkResult st k od l v s).subs = st.subs := by
  cases s <;> rfl

theorem httpOkResult_descs (st : MState) (k : Nat) (od : ObjData) (l : List Nat)
    (v : Value) (s : Bool) : (httpOkResult st k od l v s).descs = st.descs := by
  cases s <;> rfl

theorem httpOkResult_proms (st : MState) (k : Nat) (od : ObjData) (l : List Nat)
    (v : Value) (s : Bool) : (httpOkResult st k od l v s).proms = st.proms := by
  cases s <;> rfl

theorem httpOkResult_trans (st : MState) (k : Nat) (od : ObjData) (l : List Nat)
    (v : Value) (s : Bool) : (httpOkResult st k od l v s).trans = st.trans := by
  cases s <;> rfl

theorem httpOkResult_nextP (st : MState) (k : Nat) (od : ObjData) (l : List Nat)
    (v : Value) (s : Bool) : (httpOkResult st k od l v s).nextP = st.nextP := by
  cases s <;> rfl

theorem httpOkResult_phase_at (st : MState) (k : Nat) (od : ObjData) (l : List Nat)
    (v : Value) (s : Bool) :
    (httpOkResult st k od l v s).phase k = some Ph.donePh := by
  cases s <;> simp [httpOkResult, updObj, updPhase, emit]

theorem httpOkResult_phase_ne (st : MState) (k : Nat) (od : ObjData) (l : List Nat)
    (v : Value) (s : Bool) (k2 : Nat) (hk : ¬ k2 = k) :
    (httpOkResult st k od l v s).phase k2 = st.phase k2 := by
  cases s <;> simp [httpOkResult, updObj, updPhase, emit, hk]

theorem httpErrResult_objs0 (st : MState) (k : Nat) (od : ObjData) (l : List Nat)
    (v : Value) (e : Bool) :
    (httpErrResult st k od l v e).objs 0 =
      some { od with
        pending := if splicePending l k = [] then PendVal.pnull
                   else PendVal.parr (splicePending l k),
        status := some "error", response := RVal.rval v } := by
  cases e <;> simp [httpErrResult, updObj, updPhase, emit]

theorem httpErrResult_objs_ne (st : MState) (k : Nat) (od : ObjData) (l : List Nat)
    (v : Value) (e : Bool) (i : Nat) (hi : ¬ i = 0) :
    (httpErrResult st k od l v e).objs i = st.objs i := by
  cases e <;> simp [httpErrResult, updObj, updPhase, emit, hi]

theorem httpErrResult_subs (st : MState) (k : Nat) (od : ObjData) (l : List Nat)
    (v : Value) (e : Bool) : (httpErrResult st k od l v e).subs = st.subs := by
  cases e <;> rfl

theorem httpErrResult_descs (st : MState) (k : Nat) (od : ObjData) (l : List Nat)
    (v : Value) (e : Bool) : (httpErrResult st k od l v e).descs = st.descs := by
  cases e <;> rfl

theorem httpErrResult_proms (st : MState) (k : Nat) (od : ObjData) (l : List Nat)
    (v : Value) (e : Bool) : (httpErrResult st k od l v e).proms = st.proms := by
  cases e <;> rfl

theorem httpErrResult_trans (st : MState) (k : Nat) (od : ObjData) (l : List Nat)
    (v : Value) (e : Bool) : (httpErrResult st k od l v e).trans = st.trans := by
  cases e <;> rfl

theorem httpErrResult_nextP (st : MState) (k : Nat) (od : ObjData) (l : List Nat)
    (v : Value) (e : Bool) : (httpErrResult st k od l v e).nextP = st.nextP := by
  cases e <;> rfl

theorem httpErrResult_phase_at (st : MState) (k : Nat) (od : ObjData) (l : List Nat)
    (v : Value) (e : Bool) :
    (httpErrResult st k od l v e).phase k = some Ph.donePh := by
  cases e <;> simp [httpErrResult, updObj, updPhase, emit]

theorem httpErrResult_phase_ne (st : MState) (k : Nat) (od : ObjData) (l : List Nat)
    (v : Value) (e : Bool) (k2 : Nat) (hk : ¬ k2 = k) :
    (httpErrResult st k od l v e).phase k2 = st.phase k2 := by
  cases e <;> simp [httpErrResult, updObj, updPhase, emit, hk]

end RMCommonApi

namespace RMCommonApi

theorem updProm_subs (st : MState) (pid : Nat) (p : PState) :
    (updProm st pid p).subs = st.subs := rfl

theorem updProm_phase (st : MState) (pid : Nat) (p : PState) :
    (updProm st pid p).phase = st.phase := rfl

theorem updProm_trans (st : MState) (pid : Nat) (p : PState) :
    (updProm st pid p).trans = st.trans := rfl

theorem updProm_nextP (st : MState) (pid : Nat) (p : PState) :
    (updProm st pid p).nextP = st.nextP := rfl

theorem updProm_proms_ne (st : MState) (pid : Nat) (p : PState) (p2 : Nat)
    (h : ¬ p2 = pid) : (updProm st pid p).proms p2 = st.proms p2 := by
  simp [updProm, h]

/-- The intermediate state built by `$send` before chaining onto an existing
`$promise` (lines 339-343): allocate the fresh `.then` promise. -/
def attachPrep (st : MState) (oid k : Nat) (od : ObjData) (s e : Bool) : MState :=
  updProm
    { sendPrep st oid k od s e with nextP := (sendPrep st oid k od s e).nextP + 1 }
    (sendPrep st oid k od s e).nextP (PState.ppend [])

theorem attachPrep_objs (st : MState) (oid k : Nat) (od : ObjData) (s e : Bool) :
    (attachPrep st oid k od s e).objs = (sendPrep st oid k od s e).objs := rfl

theorem attachPrep_subs (st : MState) (oid k : Nat) (od : ObjData) (s e : Bool) :
    (attachPrep st oid k od s e).subs = (sendPrep st oid k od s e).subs := rfl

theorem attachPrep_descs (st : MState) (oid k : Nat) (od : ObjData) (s e : Bool) :
    (attachPrep st oid k od s e).descs = (sendPrep st oid k od s e).descs := rfl

theorem attachPrep_phase (st : MState) (oid k : Nat) (od : ObjData) (s e : Bool) :
    (attachPrep st oid k od s e).phase = (sendPrep st oid k od s e).phase := rfl

theorem attachPrep_trans (st : MState) (oid k : Nat) (od : ObjData) (s e : Bool) :
    (attachPrep st oid k od s e).trans = (sendPrep st oid k od s e).trans := rfl

theorem attachPrep_nextP (st : MState) (oid k : Nat) (od : ObjData) (s e : Bool) :
    (attachPrep st oid k od s e).nextP = (sendPrep st oid k od s e).nextP + 1 := rfl

theorem attachPrep_proms_at (st : MState) (oid k : Nat) (od : ObjData) (s e : Bool) :
    (attachPrep st oid k od s e).proms (sendPrep st oid k od s e).nextP =
      some (PState.ppend []) := by
  simp [attachPrep, updProm]

theorem attachPrep_proms_ne (st : MState) (oid k : Nat) (od : ObjData) (s e : Bool)
    (p : Nat) (h : ¬ p = (sendPrep st oid k od s e).nextP) :
    (attachPrep st oid k od s e).proms p = (sendPrep st oid k od s e).proms p := by
  simp [attachPrep, updProm, h]

end RMCommonApi

namespace RMCommonApi

set_option maxHeartbeats 1000000

/-- After a `performRequest` run on a clean single-descriptor object whose
`$promise` is a pending chain tail `q`, adopting the returned `$http` promise
into `q`'s fresh `.then` target re-establishes the pipeline invariant. -/
theorem perform_attach_Inv (Z : MState) (odZ : ObjData) (k q : Nat) (s e : Bool)
    (dn : List Nat)
    (hodZ : Z.objs 0 = some odZ)
    (hcbs : odZ.cbs = []) (hdsp : odZ.dsp = none)
    (hsc : odZ.scope = none) (hty : odZ.typeRef = none)
    (hpend : odZ.pending = PendVal.parr [k])
    (hprom : odZ.promise = PromVal.prSome q)
    (hso : odZ.subsOrd = dn ++ [k])
    (hoth : ∀ i, ¬ i = 0 → Z.objs i = none)
    (hnc : ∀ k2, ¬ Z.descs k2 = some true)
    (hfresh : ∀ k2, Z.subs k2 = none → Z.phase k2 = none ∧ Z.trans k2 = none)
    (hdn : ∀ k2 ∈ dn, Z.phase k2 = some Ph.donePh)
    (hkdn : ∀ k2 ∈ dn, ¬ k2 = k)
    (hsubk : Z.subs k = some ⟨0, none, s, e⟩)
    (hdesck : Z.descs k = some false)
    (hqq : Z.proms q = some (PState.ppend []))
    (hqlt : q < Z.nextP)
    (htr : ∀ k2 t, ¬ Z.trans k2 = some (TState.inflight t)) :
    Inv (updProm (performResult Z k odZ) (Z.nextP + 1)
      (PState.ppend [⟨none, none, q⟩])) := by
  have hUobjs0 : (updProm (performResult Z k odZ) (Z.nextP + 1)
      (PState.ppend [⟨none, none, q⟩])).objs 0 =
      some { odZ with response := RVal.rnull, errFlag := some false } := by
    rw [updProm_objs, performResult_objs0]
  refine ⟨{ odZ with response := RVal.rnull, errFlag := some false },
    hUobjs0, hcbs, hdsp, hsc, hty, ?_, ?_, ?_, dn, [k], ?_, ?_, Or.inr ?_⟩
  · intro i hi
    rw [updProm_objs, performResult_objs_ne _ _ _ i hi]
    exact hoth i hi
  · intro k2
    rw [updProm_descs, performResult_descs]
    exact hnc k2
  · intro k2 hsub2
    rw [updProm_subs, performResult_subs] at hsub2
    have hk2 : ¬ k2 = k := by
      intro heq; rw [heq, hsubk] at hsub2; exact absurd hsub2 (by simp)
    refine ⟨?_, ?_⟩
    · rw [updProm_phase, performResult_phase_ne _ _ _ k2 hk2]
      exact (hfresh k2 hsub2).1
    · rw [updProm_trans, performResult_trans_ne _ _ _ k2 hk2]
      exact (hfresh k2 hsub2).2
  · exact hso
  · intro k2 hk2
    rw [updProm_phase, performResult_phase_ne _ _ _ k2 (hkdn k2 hk2)]
    exact hdn k2 hk2
  · refine ⟨k, [], rfl, ?_, ?_, ⟨s, e, ?_⟩, ?_,
      Z.nextP, Z.nextP + 1, [Link.fwdL q], ?_, ?_, ⟨?_, ⟨?_, ?_⟩⟩, rfl,
      ?_, ?_, ?_, ?_⟩
    · rw [updProm_phase, performResult_phase_at]
    · rw [updProm_descs, performResult_descs]; exact hdesck
    · rw [updProm_subs, performResult_subs]; exact hsubk
    · exact hpend
    · rw [updProm_trans, performResult_trans_at]
    · rw [updProm_proms_ne _ _ _ Z.nextP (by omega), performResult_proms_T]
    · exact updProm_proms_at _ _ _
    · rw [updProm_proms_ne _ _ _ q (by omega),
        performResult_proms_ne _ _ _ q (by omega) (by omega)]
      exact hqq
    · show promiseOf _ 0 = _
      rw [promiseOf, hUobjs0]
      simp [hprom]
    · intro p hp
      rw [updProm_nextP, performResult_nextP]
      simp only [pidsOf, List.map_cons, List.map_nil, linkTgt,
        List.mem_cons, List.mem_singleton] at hp
      rcases hp with rfl | rfl | rfl | hp
      · omega
      · omega
      · omega
      · simp at hp
    · simp [pidsOf, linkTgt, List.nodup_cons]
      omega
    · simp [linkKs]
    · intro k2 t ht
      rw [updProm_trans] at ht
      by_cases hk2 : k2 = k
      · exact hk2
      · rw [performResult_trans_ne _ _ _ k2 hk2] at ht
        exact absurd ht (htr k2 t)

theorem send_preserves_Inv {fuel oid k : Nat} {s e : Bool} {st st' : MState}
    (hInv : Inv st) (h : step fuel st (Act.send oid k s e) = some st') :
    Inv st' := by
  obtain ⟨od, hod, hcbs, hdsp, hsc, hty, hoth, hnc, hfresh, dn, rest, hord, hdn, hcase⟩ := hInv
  simp only [step, sendOp] at h
  by_cases hoid : oid = 0
  case neg =>
    rw [hoth oid hoid] at h
    obtain rfl := Option.some.inj h
    exact ⟨od, hod, hcbs, hdsp, hsc, hty, hoth, hnc, hfresh, dn, rest, hord, hdn, hcase⟩
  case pos =>
  subst hoid
  rw [hod] at h
  simp only at h
  by_cases hg : ((st.subs k).isSome || (st.descs k).isSome) = true
  · rw [if_pos hg] at h
    obtain rfl := Option.some.inj h
    exact ⟨od, hod, hcbs, hdsp, hsc, hty, hoth, hnc, hfresh, dn, rest, hord, hdn, hcase⟩
  · rw [if_neg hg] at h
    have hsubk : st.subs k = none := by
      cases hx : st.subs k with
      | none => rfl
      | some sb => rw [hx] at hg; simp at hg
    have hdesck : st.descs k = none := by
      cases hx : st.descs k with
      | none => rfl
      | some b => rw [hx] at hg; simp at hg
    have hphk := (hfresh k hsubk).1
    have htrk := (hfresh k hsubk).2
    -- facts about the prepared state
    have hprep := sendPrep_eq (k := k) (s := s) (e := e) hod
    have hkdn : ∀ k2, k2 ∈ dn → ¬ k2 = k := by
      intro k2 hk2 hkk
      subst hkk
      rw [hdn k2 hk2] at hphk
      exact absurd hphk (by simp)
    -- the object stored in the prepared state
    have hA_objs0 : (sendPrep st 0 k od s e).objs 0 =
        some { od with
          pending := PendVal.parr
            ((match od.pending with | PendVal.parr l => l | _ => []) ++ [k]),
          subsOrd := od.subsOrd ++ [k] } := by
      rw [hprep]; simp [updObj]
    have hA_objs_ne : ∀ i, ¬ i = 0 → (sendPrep st 0 k od s e).objs i = st.objs i := by
      intro i hi
      rw [hprep]; simp [updObj, hi]
    have hA_subs_at : (sendPrep st 0 k od s e).subs k = some ⟨0, none, s, e⟩ := by
      rw [hprep, ← hdsp]; simp [updObj, updPhase, updDesc, updSub]
    have hA_subs_ne : ∀ k2, ¬ k2 = k →
        (sendPrep st 0 k od s e).subs k2 = st.subs k2 := by
      intro k2 hk2
      rw [hprep]; simp [updObj, updPhase, updDesc, updSub, hk2]
    have hA_descs_at : (sendPrep st 0 k od s e).descs k = some false := by
      rw [hprep]; simp [updObj, updPhase, updDesc, updSub]
    have hA_descs_ne : ∀ k2, ¬ k2 = k →
        (sendPrep st 0 k od s e).descs k2 = st.descs k2 := by
      intro k2 hk2
      rw [hprep]; simp [updObj, updPhase, updDesc, updSub, hk2]
    have hA_phase_at : (sendPrep st 0 k od s e).phase k = some Ph.waiting := by
      rw [hprep]; simp [updObj, updPhase, updDesc, updSub]
    have hA_phase_ne : ∀ k2, ¬ k2 = k →
        (sendPrep st 0 k od s e).phase k2 = st.phase k2 := by
      intro k2 hk2
      rw [hprep]; simp [updObj, updPhase, updDesc, updSub, hk2]
    have hA_trans : (sendPrep st 0 k od s e).trans = st.trans := by
      rw [hprep]; rfl
    have hA_proms : (sendPrep st 0 k od s e).proms = st.proms := by
      rw [hprep]; rfl
    have hA_nextP : (sendPrep st 0 k od s e).nextP = st.nextP := by
      rw [hprep]; rfl
    cases hq : od.promise with
    | prNull =>
      -- `$promise = null` never occurs on cancel-free executions
      exfalso
      rcases hcase with ⟨hrest, hpend, hprom, htr⟩ | ⟨kf, waits, hrest, hfly⟩
      · rcases hprom with hpu | ⟨p, v, hps, _⟩
        · rw [hq] at hpu; exact absurd hpu (by simp)
        · rw [hq] at hps; exact absurd hps (by simp)
      · obtain ⟨_, _, _, _, T, P, ls, _, _, hch, _⟩ := hfly
        have htail := (chainOK_tail hch).2
        rw [promiseOf, hod] at htail
        simp only [Option.map_some'] at htail
        have := Option.some.inj htail
        rw [hq] at this
        exact absurd this (by simp)
    | prUndef =>
      -- no chain yet: `performRequest` runs synchronously
      simp only [hq] at h
      -- the pipeline must be idle, and `$pending` absent
      have hcase2 : rest = [] ∧
          (od.pending = PendVal.pundef ∨ od.pending = PendVal.pnull) := by
        rcases hcase with ⟨hrest, hpend, _, _⟩ | ⟨kf, waits, hrest, hfly⟩
        · exact ⟨hrest, hpend⟩
        · exfalso
          obtain ⟨_, _, _, _, T, P, ls, _, _, hch, _⟩ := hfly
          have htail := (chainOK_tail hch).2
          rw [promiseOf, hod] at htail
          simp only [Option.map_some'] at htail
          have h9 := Option.some.inj htail
          rw [hq] at h9
          exact absurd h9 (by simp)
      have htr : ∀ k2 t, ¬ st.trans k2 = some (TState.inflight t) := by
        rcases hcase with ⟨_, _, _, htr⟩ | ⟨kf, waits, hrest, hfly⟩
        · exact htr
        · exfalso
          obtain ⟨_, _, _, _, T, P, ls, _, _, hch, _⟩ := hfly
          have htail := (chainOK_tail hch).2
          rw [promiseOf, hod] at htail
          simp only [Option.map_some'] at htail
          have h9 := Option.some.inj htail
          rw [hq] at h9
          exact absurd h9 (by simp)
      obtain ⟨hrest, hpend⟩ := hcase2
      subst hrest
      have hop : (match od.pending with | PendVal.parr l => l | _ => []) = [] := by
        rcases hpend with hp | hp <;> rw [hp]
      rcases runPerform_clean' fuel (sendPrep st 0 k od s e) k s e
          { od with
            pending := PendVal.parr
              ((match od.pending with | PendVal.parr l => l | _ => []) ++ [k]),
            subsOrd := od.subsOrd ++ [k] }
          hA_subs_at hA_descs_at hA_objs0 hcbs hdsp hsc hty with hnone | hsome
      · rw [hnone] at h; exact absurd h (by simp)
      · rw [hsome] at h
        simp only at h
        obtain rfl := Option.some.inj h
        refine ⟨{ od with
            pending := PendVal.parr
              ((match od.pending with | PendVal.parr l => l | _ => []) ++ [k]),
            subsOrd := od.subsOrd ++ [k],
            response := RVal.rnull, errFlag := some false,
            promise := PromVal.prSome ((sendPrep st 0 k od s e).nextP + 1) },
          ?_, hcbs, hdsp, hsc, hty, ?_, ?_, ?_, dn, [k], ?_, ?_, Or.inr ?_⟩
        · simp [setPromise, performResult_objs0, updObj]
        · intro i hi
          simp [setPromise, updObj, hi, performResult_objs0,
            performResult_objs_ne _ _ _ i hi, hA_objs_ne i hi, hoth i hi]
        · intro k2
          rw [setPromise_descs, performResult_descs]
          by_cases hk2 : k2 = k
          · subst hk2; rw [hA_descs_at]; simp
          · rw [hA_descs_ne k2 hk2]; exact hnc k2
        · intro k2 hsub2
          rw [setPromise_subs, performResult_subs] at hsub2
          by_cases hk2 : k2 = k
          · subst hk2; rw [hA_subs_at] at hsub2; exact absurd hsub2 (by simp)
          · rw [hA_subs_ne k2 hk2] at hsub2
            refine ⟨?_, ?_⟩
            · rw [setPromise_phase, performResult_phase_ne _ _ _ k2 hk2,
                hA_phase_ne k2 hk2]
              exact (hfresh k2 hsub2).1
            · rw [setPromise_trans, performResult_trans_ne _ _ _ k2 hk2, hA_trans]
              exact (hfresh k2 hsub2).2
        · show od.subsOrd ++ [k] = dn ++ [k]
          rw [hord]; simp
        · intro k2 hk2
          rw [setPromise_phase, performResult_phase_ne _ _ _ k2 (hkdn k2 hk2),
            hA_phase_ne k2 (hkdn k2 hk2)]
          exact hdn k2 hk2
        · refine ⟨k, [], rfl, ?_, ?_, ⟨s, e, ?_⟩, ?_,
            (sendPrep st 0 k od s e).nextP, (sendPrep st 0 k od s e).nextP + 1, [],
            ?_, ?_, ⟨?_, ?_⟩, rfl, ?_, ?_, ?_, ?_⟩
          · rw [setPromise_phase, performResult_phase_at]
          · rw [setPromise_descs, performResult_descs, hA_descs_at]
          · rw [setPromise_subs, performResult_subs, hA_subs_at]
          · show PendVal.parr _ = PendVal.parr (k :: [])
            rw [hop]
            rfl
          · rw [setPromise_trans, performResult_trans_at]
          · rw [setPromise_proms, performResult_proms_T]
          · rw [setPromise_proms, performResult_proms_P]
          · show promiseOf _ 0 = _
            simp [promiseOf, setPromise, performResult_objs0, updObj]
          · intro p hp
            rw [setPromise_nextP, performResult_nextP]
            simp only [pidsOf, List.map_nil, List.mem_cons,
              List.mem_singleton] at hp
            rcases hp with rfl | hp
            · omega
            · simp at hp; omega
          · simp [pidsOf]
          · simp [linkKs]
          · intro k2 t ht
            rw [setPromise_trans] at ht
            by_cases hk2 : k2 = k
            · exact hk2
            · rw [performResult_trans_ne _ _ _ k2 hk2, hA_trans] at ht
              exact absurd ht (htr k2 t)

    | prSome p =>
      simp only [hq] at h
      have hAP : updProm
          { sendPrep st 0 k od s e with nextP := (sendPrep st 0 k od s e).nextP + 1 }
          (sendPrep st 0 k od s e).nextP (PState.ppend []) =
          attachPrep st 0 k od s e := rfl
      rw [hAP] at h
      rcases hcase with ⟨hrest, hpend, hprom, htr⟩ | ⟨kf, waits, hrest, hfly⟩
      · -- the pipeline is idle and the old chain is settled: the fresh
        -- reaction fires eagerly, running `performRequest` right away
        subst hrest
        rcases hprom with hpu | ⟨p0, v, hps, hplt, hsettle⟩
        · rw [hq] at hpu; exact absurd hpu (by simp)
        rw [hq] at hps
        obtain rfl : p = p0 := PromVal.prSome.inj hps
        have hop : (match od.pending with | PendVal.parr l => l | _ => []) = [] := by
          rcases hpend with hp2 | hp2 <;> rw [hp2]
        have hne : ¬ p = (sendPrep st 0 k od s e).nextP := by
          rw [hA_nextP]; omega
        set stD : MState := setPromise (attachPrep st 0 k od s e) 0
          (PromVal.prSome (sendPrep st 0 k od s e).nextP) with hstD
        have hodD : stD.objs 0 = some { od with
            pending := PendVal.parr
              ((match od.pending with | PendVal.parr l => l | _ => []) ++ [k]),
            subsOrd := od.subsOrd ++ [k],
            promise := PromVal.prSome (sendPrep st 0 k od s e).nextP } := by
          rw [hstD]
          simp [setPromise, attachPrep_objs, hA_objs0, updObj]
        have hsubD : stD.subs k = some ⟨0, none, s, e⟩ := by
          rw [hstD, setPromise_subs, attachPrep_subs]; exact hA_subs_at
        have hdescD : stD.descs k = some false := by
          rw [hstD, setPromise_descs, attachPrep_descs]; exact hA_descs_at
        have hcont : ∀ (b : Bool) (v0 : Value),
            runS fuel stD (SJob.sReact
              ⟨some (Handler.hPerform k), some (Handler.hPerform k),
                (sendPrep st 0 k od s e).nextP⟩ b v0) = some st' → Inv st' := by
          intro b v0 hrun
          cases fuel with
          | zero => exact absurd hrun (by simp [runS])
          | succ f =>
            simp only [runS, runHandler, ite_self] at hrun
            rcases runPerform_clean' f stD k s e
                { od with
                  pending := PendVal.parr
                    ((match od.pending with | PendVal.parr l => l | _ => []) ++ [k]),
                  subsOrd := od.subsOrd ++ [k],
                  promise := PromVal.prSome (sendPrep st 0 k od s e).nextP }
                hsubD hdescD hodD hcbs hdsp hsc hty with hnone | hsome
            · rw [hnone] at hrun; exact absurd hrun (by simp)
            · rw [hsome] at hrun
              simp only [performResult_proms_P, List.nil_append] at hrun
              obtain rfl := Option.some.inj hrun
              refine perform_attach_Inv stD _ k (sendPrep st 0 k od s e).nextP s e dn
                hodD hcbs hdsp hsc hty ?_ rfl ?_ ?_ ?_ ?_ ?_ hkdn hsubD hdescD ?_ ?_ ?_
              · show PendVal.parr _ = _
                rw [hop]
                rfl
              · show od.subsOrd ++ [k] = dn ++ [k]
                rw [hord]; simp
              · intro i hi
                rw [hstD]
                simp [setPromise, attachPrep_objs, hA_objs0, updObj, hi,
                  hA_objs_ne i hi, hoth i hi]
              · intro k2
                rw [hstD, setPromise_descs, attachPrep_descs]
                by_cases hk2 : k2 = k
                · subst hk2; rw [hA_descs_at]; simp
                · rw [hA_descs_ne k2 hk2]; exact hnc k2
              · intro k2 h2
                rw [hstD, setPromise_subs, attachPrep_subs] at h2
                by_cases hk2 : k2 = k
                · subst hk2; rw [hA_subs_at] at h2; exact absurd h2 (by simp)
                · rw [hA_subs_ne k2 hk2] at h2
                  refine ⟨?_, ?_⟩
                  · rw [hstD, setPromise_phase, attachPrep_phase, hA_phase_ne k2 hk2]
                    exact (hfresh k2 h2).1
                  · rw [hstD, setPromise_trans, attachPrep_trans, hA_trans]
                    exact (hfresh k2 h2).2
              · intro k2 hk2
                rw [hstD, setPromise_phase, attachPrep_phase,
                  hA_phase_ne k2 (hkdn k2 hk2)]
                exact hdn k2 hk2
              · rw [hstD, setPromise_proms]
                exact attachPrep_proms_at st 0 k od s e
              · rw [hstD, setPromise_nextP, attachPrep_nextP]; omega
              · intro k2 t
                rw [hstD, setPromise_trans, attachPrep_trans, hA_trans]
                exact htr k2 t
        rcases hsettle with hsv | hsv
        · have hscr : (attachPrep st 0 k od s e).proms p =
              some (PState.pres v) := by
            rw [attachPrep_proms_ne st 0 k od s e p hne,
              show (sendPrep st 0 k od s e).proms = st.proms from hA_proms]
            exact hsv
          simp only [hscr] at h
          exact hcont true v h
        · have hscr : (attachPrep st 0 k od s e).proms p =
              some (PState.prej v) := by
            rw [attachPrep_proms_ne st 0 k od s e p hne,
              show (sendPrep st 0 k od s e).proms = st.proms from hA_proms]
            exact hsv
          simp only [hscr] at h
          exact hcont false v h
      · -- a chain is already active: the reaction is queued on its tail
        obtain ⟨hpkf, hdkf, hskf, hpendkf, T, P, ls, htkf, hpT, hch, hlk, hbnd,
          hndp, hndk, huniq⟩ := hfly
        subst hrest
        have htt := chainOK_tail hch
        have hpt : p = tailPid P ls := by
          have h2 := htt.2
          rw [promiseOf, hod] at h2
          simp only [Option.map_some'] at h2
          have h3 := Option.some.inj h2
          rw [hq] at h3
          exact PromVal.prSome.inj h3
        subst hpt
        have hkkf : ¬ kf = k := by
          intro heq
          obtain ⟨s1, e1, hs1⟩ := hskf
          rw [heq, hsubk] at hs1
          exact absurd hs1 (by simp)
        have hkw : ∀ k2, k2 ∈ waits → ¬ k2 = k := by
          intro k2 hk2 heq
          obtain ⟨s1, e1, hs1⟩ :=
            (chainOK_waiting hch k2 (by rw [hlk]; exact hk2)).2.2.2
          rw [heq, hsubk] at hs1
          exact absurd hs1 (by simp)
        have hlt : tailPid P ls < st.nextP :=
          hbnd (tailPid P ls) (List.mem_cons_of_mem _ (tailPid_mem P ls))
        have hne : ¬ tailPid P ls = (sendPrep st 0 k od s e).nextP := by
          rw [hA_nextP]; omega
        have hscr : (attachPrep st 0 k od s e).proms (tailPid P ls) =
            some (PState.ppend []) := by
          rw [attachPrep_proms_ne st 0 k od s e _ hne,
            show (sendPrep st 0 k od s e).proms = st.proms from hA_proms]
          exact htt.1
        simp only [hscr, List.nil_append] at h
        obtain rfl := Option.some.inj h
        set stE : MState := setPromise
          (updProm (attachPrep st 0 k od s e) (tailPid P ls)
            (PState.ppend [⟨some (Handler.hPerform k), some (Handler.hPerform k),
              (sendPrep st 0 k od s e).nextP⟩]))
          0 (PromVal.prSome (sendPrep st 0 k od s e).nextP) with hstE
        have hEobjs0 : stE.objs 0 = some { od with
            pending := PendVal.parr
              ((match od.pending with | PendVal.parr l => l | _ => []) ++ [k]),
            subsOrd := od.subsOrd ++ [k],
            promise := PromVal.prSome (sendPrep st 0 k od s e).nextP } := by
          rw [hstE]
          simp [setPromise, attachPrep_objs, hA_objs0, updObj]
        refine ⟨{ od with
            pending := PendVal.parr
              ((match od.pending with | PendVal.parr l => l | _ => []) ++ [k]),
            subsOrd := od.subsOrd ++ [k],
            promise := PromVal.prSome (sendPrep st 0 k od s e).nextP },
          hEobjs0, hcbs, hdsp, hsc, hty, ?_, ?_, ?_, dn, kf :: (waits ++ [k]),
          ?_, ?_, Or.inr ?_⟩
        · intro i hi
          rw [hstE]
          simp [setPromise, attachPrep_objs, hA_objs0, updObj, hi,
            hA_objs_ne i hi, hoth i hi]
        · intro k2
          rw [hstE, setPromise_descs, updProm_descs, attachPrep_descs]
          by_cases hk2 : k2 = k
          · subst hk2; rw [hA_descs_at]; simp
          · rw [hA_descs_ne k2 hk2]; exact hnc k2
        · intro k2 h2
          rw [hstE, setPromise_subs, updProm_subs, attachPrep_subs] at h2
          by_cases hk2 : k2 = k
          · subst hk2; rw [hA_subs_at] at h2; exact absurd h2 (by simp)
          · rw [hA_subs_ne k2 hk2] at h2
            refine ⟨?_, ?_⟩
            · rw [hstE, setPromise_phase, updProm_phase, attachPrep_phase,
                hA_phase_ne k2 hk2]
              exact (hfresh k2 h2).1
            · rw [hstE, setPromise_trans, updProm_trans, attachPrep_trans, hA_trans]
              exact (hfresh k2 h2).2
        · show od.subsOrd ++ [k] = dn ++ (kf :: (waits ++ [k]))
          rw [hord]; simp
        · intro k2 hk2
          rw [hstE, setPromise_phase, updProm_phase, attachPrep_phase,
            hA_phase_ne k2 (hkdn k2 hk2)]
          exact hdn k2 hk2
        · refine ⟨kf, waits ++ [k], rfl, ?_, ?_, ?_, ?_, T, P,
            ls ++ [Link.perfL k ((sendPrep st 0 k od s e).nextP)],
            ?_, ?_, ?_, ?_, ?_, ?_, ?_, ?_⟩
          · rw [hstE, setPromise_phase, updProm_phase, attachPrep_phase,
              hA_phase_ne kf hkkf]
            exact hpkf
          · rw [hstE, setPromise_descs, updProm_descs, attachPrep_descs,
              hA_descs_ne kf hkkf]
            exact hdkf
          · obtain ⟨s1, e1, hs1⟩ := hskf
            refine ⟨s1, e1, ?_⟩
            rw [hstE, setPromise_subs, updProm_subs, attachPrep_subs,
              hA_subs_ne kf hkkf]
            exact hs1
          · show PendVal.parr _ = PendVal.parr (kf :: (waits ++ [k]))
            rw [hpendkf]
            rfl
          · rw [hstE, setPromise_trans, updProm_trans, attachPrep_trans, hA_trans]
            exact htkf
          · have hTtail : ¬ T = tailPid P ls := by
              intro heq
              rw [List.nodup_cons] at hndp
              exact hndp.1 (heq ▸ tailPid_mem P ls)
            have hTq : ¬ T = (sendPrep st 0 k od s e).nextP := by
              have := hbnd T (List.mem_cons_self _ _)
              rw [hA_nextP]; omega
            rw [hstE, setPromise_proms, updProm_proms_ne _ _ _ T hTtail,
              attachPrep_proms_ne st 0 k od s e T hTq,
              show (sendPrep st 0 k od s e).proms = st.proms from hA_proms]
            exact hpT
          · refine chainOK_snoc hch (List.nodup_cons.mp hndp).2 ?_ ?_ ?_ ?_ ?_ ?_ ?_ ?_ ?_
            · intro p2 hp2 hpt2
              have hp2lt : p2 < st.nextP := hbnd p2 (List.mem_cons_of_mem _ hp2)
              rw [hstE, setPromise_proms, updProm_proms_ne _ _ _ p2 hpt2,
                attachPrep_proms_ne st 0 k od s e p2 (by rw [hA_nextP]; omega),
                show (sendPrep st 0 k od s e).proms = st.proms from hA_proms]
            · rw [hstE, setPromise_proms]
              exact updProm_proms_at _ _ _
            · rw [hstE, setPromise_proms,
                updProm_proms_ne _ _ _ _ (by rw [hA_nextP]; omega)]
              exact attachPrep_proms_at st 0 k od s e
            · rw [promiseOf, hEobjs0]
              simp
            · intro k2 hk2
              have hk2k : ¬ k2 = k := hkw k2 (by rw [← hlk]; exact hk2)
              refine ⟨?_, ?_, ?_, ?_⟩
              · rw [hstE, setPromise_subs, updProm_subs, attachPrep_subs,
                  hA_subs_ne k2 hk2k]
              · rw [hstE, setPromise_descs, updProm_descs, attachPrep_descs,
                  hA_descs_ne k2 hk2k]
              · rw [hstE, setPromise_phase, updProm_phase, attachPrep_phase,
                  hA_phase_ne k2 hk2k]
              · rw [hstE, setPromise_trans, updProm_trans, attachPrep_trans, hA_trans]
            · refine ⟨s, e, ?_⟩
              rw [hstE, setPromise_subs, updProm_subs, attachPrep_subs]
              exact hA_subs_at
            · rw [hstE, setPromise_descs, updProm_descs, attachPrep_descs]
              exact hA_descs_at
            · rw [hstE, setPromise_phase, updProm_phase, attachPrep_phase]
              exact hA_phase_at
            · rw [hstE, setPromise_trans, updProm_trans, attachPrep_trans, hA_trans]
              exact htrk
          · rw [linkKs_append, hlk]
            rfl
          · intro p2 hp2
            have hEnextP : stE.nextP = st.nextP + 1 := by
              rw [hstE, setPromise_nextP, updProm_nextP, attachPrep_nextP, hA_nextP]
            rw [hEnextP]
            rw [pidsOf_append_perf] at hp2
            rcases List.mem_cons.mp hp2 with heq | hp3
            · have hb := hbnd T (List.mem_cons_self _ _)
              rw [heq]
              omega
            · rcases List.mem_append.mp hp3 with hp4 | hp4
              · have hb := hbnd p2 (List.mem_cons_of_mem _ hp4)
                omega
              · have heq : p2 = (sendPrep st 0 k od s e).nextP := by
                  simpa using hp4
                rw [heq, hA_nextP]
                omega
          · rw [pidsOf_append_perf, ← List.cons_append, List.nodup_append]
            refine ⟨hndp, List.nodup_singleton _, ?_⟩
            intro a ha hb
            simp only [List.mem_singleton] at hb
            rw [hb] at ha
            have := hbnd _ ha
            rw [hA_nextP] at this
            omega
          · rw [linkKs_append,
              show linkKs [Link.perfL k ((sendPrep st 0 k od s e).nextP)] = [k]
                from rfl, hlk, ← List.cons_append, List.nodup_append]
            refine ⟨by rw [← hlk]; exact hndk, List.nodup_singleton _, ?_⟩
            intro a ha hb
            simp only [List.mem_singleton] at hb
            rw [hb] at ha
            rcases List.mem_cons.mp ha with heq | hmem
            · exact hkkf heq.symm
            · exact hkw k hmem rfl
          · intro k2 t ht
            rw [hstE, setPromise_trans, updProm_trans, attachPrep_trans,
              hA_trans] at ht
            exact huniq k2 t ht

end RMCommonApi

namespace RMCommonApi

theorem splicePending_cons_self (k : Nat) (l : List Nat) :
    splicePending (k :: l) k = l := by
  simp [splicePending]

/-- Settling the root of a pending chain on a clean pipeline state advances the
queue and re-establishes the invariant: leading adoptions pass the value
through, and the first queued `performRequest` reaction issues the next
transport call. -/
theorem cascade_Inv : ∀ (ls : List Link) (fuel : Nat) (st : MState) (P : Nat)
    (od : ObjData) (dn : List Nat) (b : Bool) (v0 : Value) (st' : MState),
    st.objs 0 = some od →
    od.cbs = [] → od.dsp = none → od.scope = none → od.typeRef = none →
    (linkKs ls = [] → od.pending = PendVal.pundef ∨ od.pending = PendVal.pnull) →
    (¬ linkKs ls = [] → od.pending = PendVal.parr (linkKs ls)) →
    od.subsOrd = dn ++ linkKs ls →
    (∀ i, ¬ i = 0 → st.objs i = none) →
    (∀ k2, ¬ st.descs k2 = some true) →
    (∀ k2, st.subs k2 = none → st.phase k2 = none ∧ st.trans k2 = none) →
    (∀ k2, k2 ∈ dn → st.phase k2 = some Ph.donePh) →
    chainOK st P ls →
    (∀ p2, p2 ∈ pidsOf P ls → p2 < st.nextP) →
    (pidsOf P ls).Nodup →
    (linkKs ls).Nodup →
    (∀ k2 t, ¬ st.trans k2 = some (TState.inflight t)) →
    runS fuel st (SJob.sSettle P b v0) = some st' →
    Inv st' := by
  intro ls
  induction ls with
  | nil =>
    intro fuel st P od dn b v0 st' hod hcbs hdsp hsc hty hpendA hpendB hso hoth
      hnc hfresh hdn hch hbnd hndp hndk htr hrun
    obtain ⟨hP, hPr⟩ := hch
    cases fuel with
    | zero => exact absurd hrun (by simp [runS])
    | succ f =>
      simp only [runS, hP] at hrun
      cases f with
      | zero => exact absurd hrun (by simp [runS])
      | succ f2 =>
        simp only [runS] at hrun
        obtain rfl := Option.some.inj hrun
        have hodp : od.promise = PromVal.prSome P := by
          rw [promiseOf, hod] at hPr
          simp only [Option.map_some'] at hPr
          exact Option.some.inj hPr
        refine ⟨od, by rw [updProm_objs]; exact hod, hcbs, hdsp, hsc, hty,
          ?_, ?_, ?_, dn, [], hso, ?_, Or.inl ⟨rfl, hpendA rfl, ?_, ?_⟩⟩
        · intro i hi
          rw [updProm_objs]
          exact hoth i hi
        · intro k2
          rw [updProm_descs]
          exact hnc k2
        · intro k2 h2
          rw [updProm_subs] at h2
          exact ⟨(hfresh k2 h2).1, (hfresh k2 h2).2⟩
        · intro k2 hk2
          rw [updProm_phase]
          exact hdn k2 hk2
        · refine Or.inr ⟨P, v0, hodp, ?_, ?_⟩
          · rw [updProm_nextP]
            exact hbnd P (by simp [pidsOf])
          · cases b with
            | false => exact Or.inr (by simp [updProm_proms_at])
            | true => exact Or.inl (by simp [updProm_proms_at])
        · intro k2 t
          rw [updProm_trans]
          exact htr k2 t
  | cons l ls' ih =>
    cases l with
    | fwdL q =>
      intro fuel st P od dn b v0 st' hod hcbs hdsp hsc hty hpendA hpendB hso hoth
        hnc hfresh hdn hch hbnd hndp hndk htr hrun
      obtain ⟨hP, hch'⟩ := hch
      cases fuel with
      | zero => exact absurd hrun (by simp [runS])
      | succ f =>
        simp only [runS, hP] at hrun
        cases f with
        | zero => exact absurd hrun (by simp [runS])
        | succ f2 =>
          simp only [runS] at hrun
          cases f2 with
          | zero => exact absurd hrun (by simp [runS])
          | succ f3 =>
            simp only [runS, ite_self] at hrun
            rcases Option.bind_eq_some.mp hrun with ⟨st3, h1, h2⟩
            obtain rfl := Option.some.inj h2
            have hPnotin : ¬ P ∈ pidsOf q ls' := by
              intro hmem
              simp only [pidsOf, List.map_cons, linkTgt, List.nodup_cons] at hndp
              exact hndp.1 hmem
            refine ih f3 (updProm st P (if b then PState.pres v0 else PState.prej v0))
              q od dn b v0 st3 (by rw [updProm_objs]; exact hod)
              hcbs hdsp hsc hty hpendA hpendB hso
              (fun i hi => by rw [updProm_objs]; exact hoth i hi)
              (fun k2 => by rw [updProm_descs]; exact hnc k2)
              (fun k2 h2 => by rw [updProm_subs] at h2; exact hfresh k2 h2)
              (fun k2 hk2 => by rw [updProm_phase]; exact hdn k2 hk2)
              ?_ ?_ ?_ hndk
              (fun k2 t => by rw [updProm_trans]; exact htr k2 t) h1
            · refine chainOK_congr ?_ ?_ ?_ hch'
              · intro p2 hp2
                refine updProm_proms_ne _ _ _ p2 (fun heq => hPnotin ?_)
                rw [← heq]
                exact hp2
              · intro k2 _
                exact ⟨rfl, rfl, rfl, rfl⟩
              · rfl
            · intro p2 hp2
              rw [updProm_nextP]
              exact hbnd p2 (List.mem_cons_of_mem _ hp2)
            · exact (List.nodup_cons.mp hndp).2
    | perfL k2 q =>
      intro fuel st P od dn b v0 st' hod hcbs hdsp hsc hty hpendA hpendB hso hoth
        hnc hfresh hdn hch hbnd hndp hndk htr hrun
      obtain ⟨hP, hsub2, hdesc2, hph2, htr2, hch'⟩ := hch
      obtain ⟨s2, e2, hs2⟩ := hsub2
      cases fuel with
      | zero => exact absurd hrun (by simp [runS])
      | succ f =>
        simp only [runS, hP] at hrun
        cases f with
        | zero => exact absurd hrun (by simp [runS])
        | succ f2 =>
          simp only [runS] at hrun
          cases f2 with
          | zero => exact absurd hrun (by simp [runS])
          | succ f3 =>
            simp only [runS, ite_self, runHandler] at hrun
            set st2 : MState := updProm st P
              (if b = true then PState.pres v0 else PState.prej v0) with hst2
            have hsubB : st2.subs k2 = some ⟨0, none, s2, e2⟩ := hs2
            have hdescB : st2.descs k2 = some false := hdesc2
            have hodB : st2.objs 0 = some od := hod
            have hn2 : st2.nextP = st.nextP := by rw [hst2, updProm_nextP]
            have hndpTail : (pidsOf q ls').Nodup := (List.nodup_cons.mp hndp).2
            have hPnotin : ¬ P ∈ pidsOf q ls' := (List.nodup_cons.mp hndp).1
            have hkfnotin : ¬ k2 ∈ linkKs ls' := (List.nodup_cons.mp hndk).1
            rcases runPerform_clean' f3 st2 k2 s2 e2 od
                hsubB hdescB hodB hcbs hdsp hsc hty with hnone | hsome
            · rw [hnone] at hrun
              exact absurd hrun (by simp)
            · rw [hsome] at hrun
              simp only [performResult_proms_P, List.nil_append,
                Option.some_bind] at hrun
              obtain rfl := Option.some.inj hrun
              refine ⟨{ od with response := RVal.rnull, errFlag := some false },
                ?_, hcbs, hdsp, hsc, hty, ?_, ?_, ?_, dn, k2 :: linkKs ls',
                ?_, ?_, Or.inr ?_⟩
              · rw [updProm_objs, performResult_objs0]
              · intro i hi
                rw [updProm_objs, performResult_objs_ne _ _ _ i hi, hst2,
                  updProm_objs]
                exact hoth i hi
              · intro k3
                rw [updProm_descs, performResult_descs, hst2, updProm_descs]
                exact hnc k3
              · intro k3 h3
                rw [updProm_subs, performResult_subs, hst2, updProm_subs] at h3
                by_cases hk3 : k3 = k2
                · rw [hk3, hs2] at h3
                  exact absurd h3 (by simp)
                · refine ⟨?_, ?_⟩
                  · rw [updProm_phase, performResult_phase_ne _ _ _ k3 hk3, hst2,
                      updProm_phase]
                    exact (hfresh k3 h3).1
                  · rw [updProm_trans, performResult_trans_ne _ _ _ k3 hk3, hst2,
                      updProm_trans]
                    exact (hfresh k3 h3).2
              · exact hso
              · intro k3 hk3
                have hne3 : ¬ k3 = k2 := by
                  intro heq
                  have hd := hdn k3 hk3
                  rw [heq, hph2] at hd
                  exact absurd hd (by simp)
                rw [updProm_phase, performResult_phase_ne _ _ _ k3 hne3, hst2,
                  updProm_phase]
                exact hdn k3 hk3
              · refine ⟨k2, linkKs ls', rfl, ?_, ?_, ⟨s2, e2, ?_⟩, ?_,
                  st2.nextP, st2.nextP + 1, Link.fwdL q :: ls',
                  ?_, ?_, ?_, rfl, ?_, ?_, ?_, ?_⟩
                · rw [updProm_phase, performResult_phase_at]
                · rw [updProm_descs, performResult_descs, hst2, updProm_descs]
                  exact hdesc2
                · rw [updProm_subs, performResult_subs, hst2, updProm_subs]
                  exact hs2
                · exact hpendB (by simp [linkKs])
                · rw [updProm_trans, performResult_trans_at]
                · rw [updProm_proms_ne _ _ _ _ (by omega), performResult_proms_T]
                · refine ⟨updProm_proms_at _ _ _, ?_⟩
                  refine chainOK_congr ?_ ?_ ?_ hch'
                  · intro p2 hp2
                    have hble : p2 < st.nextP :=
                      hbnd p2 (List.mem_cons_of_mem _ hp2)
                    have hpP : ¬ p2 = P := fun heq => hPnotin (by
                      rw [← heq]; exact hp2)
                    rw [updProm_proms_ne _ _ _ p2 (by omega),
                      performResult_proms_ne _ _ _ p2 (by omega) (by omega),
                      hst2, updProm_proms_ne _ _ _ p2 hpP]
                  · intro k3 hk3
                    have hk3ne : ¬ k3 = k2 := fun heq => hkfnotin (by
                      rw [← heq]; exact hk3)
                    refine ⟨rfl, rfl, ?_, ?_⟩
                    · rw [updProm_phase, performResult_phase_ne _ _ _ k3 hk3ne,
                        hst2, updProm_phase]
                    · rw [updProm_trans, performResult_trans_ne _ _ _ k3 hk3ne,
                        hst2, updProm_trans]
                  · show promiseOf _ 0 = promiseOf st 0
                    rw [promiseOf, promiseOf, updProm_objs, performResult_objs0,
                      hod]
                    rfl
                · intro p2 hp2
                  have hUn : (updProm (performResult st2 k2 od) (st2.nextP + 1)
                      (PState.ppend [⟨none, none, q⟩])).nextP = st.nextP + 2 := by
                    rw [updProm_nextP, performResult_nextP, hn2]
                  rw [hUn]
                  rcases List.mem_cons.mp hp2 with heq | hp3
                  · rw [heq, hn2]
                    omega
                  · rcases List.mem_cons.mp hp3 with heq | hp4
                    · rw [heq]
                      omega
                    · have := hbnd p2 (List.mem_cons_of_mem _ hp4)
                      omega
                · rw [List.nodup_cons]
                  have hlt2 : ∀ x, x ∈ pidsOf q ls' → x < st.nextP :=
                    fun x hx => hbnd x (List.mem_cons_of_mem _ hx)
                  refine ⟨?_, ?_⟩
                  · intro hmem
                    rcases List.mem_cons.mp hmem with heq | hmem2
                    · omega
                    · have := hlt2 _ hmem2
                      omega
                  · show ((st2.nextP + 1) :: pidsOf q ls').Nodup
                    rw [List.nodup_cons]
                    refine ⟨?_, hndpTail⟩
                    intro hmem
                    have := hlt2 _ hmem
                    omega
                · exact hndk
                · intro k3 t ht
                  by_cases hk3 : k3 = k2
                  · exact hk3
                  · rw [updProm_trans, performResult_trans_ne _ _ _ k3 hk3, hst2,
                      updProm_trans] at ht
                    exact absurd ht (htr k3 t)

end RMCommonApi

namespace RMCommonApi

set_option maxHeartbeats 1000000

theorem settle_preserves_Inv {fuel k : Nat} {ok : Bool} {n : Nat} {st st' : MState}
    (hInv : Inv st) (h : step fuel st (Act.settleA k ok n) = some st') : Inv st' := by
  obtain ⟨od, hod, hcbs, hdsp, hsc, hty, hoth, hnc, hfresh, dn, rest, hord, hdn,
    hcase⟩ := hInv
  simp only [step] at h
  cases htk : st.trans k with
  | none =>
    simp only [htk] at h
    obtain rfl := Option.some.inj h
    exact ⟨od, hod, hcbs, hdsp, hsc, hty, hoth, hnc, hfresh, dn, rest, hord, hdn,
      hcase⟩
  | some t =>
    cases t with
    | settledT =>
      simp only [htk] at h
      obtain rfl := Option.some.inj h
      exact ⟨od, hod, hcbs, hdsp, hsc, hty, hoth, hnc, hfresh, dn, rest, hord, hdn,
        hcase⟩
    | inflight pid =>
      simp only [htk] at h
      rcases hcase with ⟨hrest, hpend, hprom, htr⟩ | ⟨kf, waits, hrest, hfly⟩
      · exact absurd htk (htr k pid)
      · obtain ⟨hpkf, hdkf, hskf, hpendkf, T, P, ls, htkf, hpT, hch, hlk, hbnd,
          hndp, hndk, huniq⟩ := hfly
        obtain rfl : k = kf := huniq k pid htk
        have hTp : T = pid := by
          rw [htkf] at htk
          exact TState.inflight.inj (Option.some.inj htk)
        subst hTp
        subst hrest
        obtain ⟨s2, e2, hs2⟩ := hskf
        have hkfdn : ¬ k ∈ dn := by
          intro hmem
          have hd := hdn k hmem
          rw [hpkf] at hd
          exact absurd hd (by simp)
        have hTnotin : ¬ T ∈ pidsOf P ls := (List.nodup_cons.mp hndp).1
        have hndpT : (pidsOf P ls).Nodup := (List.nodup_cons.mp hndp).2
        have hkfls : ¬ k ∈ linkKs ls := (List.nodup_cons.mp hndk).1
        have hndkT : (linkKs ls).Nodup := (List.nodup_cons.mp hndk).2
        cases fuel with
        | zero => exact absurd h (by simp [runS])
        | succ f =>
          have hpT1 : (emit (updTrans st k TState.settledT)
              (Ev.tSettle k)).proms T =
              some (PState.ppend [⟨some (Handler.hHttpOk k),
                some (Handler.hHttpErr k), P⟩]) := hpT
          simp only [runS, hpT1] at h
          cases f with
          | zero => exact absurd h (by simp [runS])
          | succ f2 =>
            simp only [runS] at h
            cases f2 with
            | zero => exact absurd h (by simp [runS])
            | succ f3 =>
              simp only [runS] at h
              set st2 : MState := updProm
                (emit (updTrans st k TState.settledT) (Ev.tSettle k)) T
                (if ok = true then PState.pres (Value.vnum n)
                 else PState.prej (Value.vnum n)) with hst2
              have hsubB : st2.subs k = some ⟨0, none, s2, e2⟩ := hs2
              have hdescB : st2.descs k = some false := hdkf
              have hodB : st2.objs 0 = some od := hod
              have hsp : splicePending (k :: waits) k = waits :=
                splicePending_cons_self k waits
              -- shared facts for the cascade, phrased for any handler result
              -- state `Y` that agrees with the handler result lemmas
              cases ok with
              | true =>
                rw [if_pos rfl] at h
                simp only [runHandler] at h
                rcases runHttpOk_clean' f3 st2 k s2 e2 od (k :: waits)
                    (Value.vnum n) hsubB hdescB hodB hpendkf hcbs hdsp hsc hty
                  with hnone | hsome
                · rw [hnone] at h
                  exact absurd h (by simp)
                · rw [hsome] at h
                  simp only [Option.some_bind] at h
                  rcases Option.bind_eq_some.mp h with ⟨st4, h1, h2⟩
                  obtain rfl := Option.some.inj h2
                  have h0 := httpOkResult_objs0 st2 k od (k :: waits)
                    (Value.vnum n) s2
                  rw [hsp] at h0
                  refine cascade_Inv ls f3 _ P _ (dn ++ [k]) true (Value.vobj 0)
                    st4 h0 hcbs hdsp hsc hty ?_ ?_ ?_ ?_ ?_ ?_ ?_ ?_ ?_ hndpT
                    hndkT ?_ h1
                  · intro he
                    left
                    show (if waits = [] then PendVal.pundef
                          else PendVal.parr waits) = PendVal.pundef
                    rw [if_pos (by rw [← hlk]; exact he)]
                  · intro he
                    show (if waits = [] then PendVal.pundef
                          else PendVal.parr waits) = PendVal.parr (linkKs ls)
                    rw [if_neg (by rw [← hlk]; exact he), hlk]
                  · show od.subsOrd = (dn ++ [k]) ++ linkKs ls
                    rw [hord, hlk]
                    simp
                  · intro i hi
                    rw [httpOkResult_objs_ne _ _ _ _ _ _ i hi]
                    exact hoth i hi
                  · intro k3
                    rw [httpOkResult_descs]
                    exact hnc k3
                  · intro k3 h3
                    rw [httpOkResult_subs] at h3
                    have h3' : st.subs k3 = none := h3
                    by_cases hk3 : k3 = k
                    · rw [hk3, hs2] at h3'
                      exact absurd h3' (by simp)
                    · refine ⟨?_, ?_⟩
                      · rw [httpOkResult_phase_ne _ _ _ _ _ _ k3 hk3]
                        exact (hfresh k3 h3').1
                      · rw [httpOkResult_trans]
                        show (updTrans st k TState.settledT).trans k3 = none
                        simp only [updTrans]
                        rw [if_neg hk3]
                        exact (hfresh k3 h3').2
                  · intro k3 hk3
                    rcases List.mem_append.mp hk3 with hmem | hmem
                    · have hne : ¬ k3 = k := fun heq => hkfdn (by
                        rw [← heq]; exact hmem)
                      rw [httpOkResult_phase_ne _ _ _ _ _ _ k3 hne]
                      exact hdn k3 hmem
                    · have heq : k3 = k := by simpa using hmem
                      rw [heq, httpOkResult_phase_at]
                  · refine chainOK_congr ?_ ?_ ?_ hch
                    · intro p2 hp2
                      have hpT2 : ¬ p2 = T := fun heq => hTnotin (by
                        rw [← heq]; exact hp2)
                      rw [httpOkResult_proms]
                      exact updProm_proms_ne _ _ _ p2 hpT2
                    · intro k3 hk3
                      have hne : ¬ k3 = k := fun heq => hkfls (by
                        rw [← heq]; exact hk3)
                      refine ⟨?_, ?_, ?_, ?_⟩
                      · rw [httpOkResult_subs]
                        rfl
                      · rw [httpOkResult_descs]
                        rfl
                      · rw [httpOkResult_phase_ne _ _ _ _ _ _ k3 hne]
                        rfl
                      · rw [httpOkResult_trans]
                        show (updTrans st k TState.settledT).trans k3 =
                          st.trans k3
                        simp only [updTrans]
                        rw [if_neg hne]
                    · show promiseOf _ 0 = promiseOf st 0
                      rw [promiseOf, promiseOf, h0, hod]
                      rfl
                  · intro p2 hp2
                    rw [httpOkResult_nextP]
                    exact hbnd p2 (List.mem_cons_of_mem _ hp2)
                  · intro k3 t ht
                    rw [httpOkResult_trans] at ht
                    have ht' : (updTrans st k TState.settledT).trans k3 =
                        some (TState.inflight t) := ht
                    by_cases hk3 : k3 = k
                    · rw [hk3] at ht'
                      simp [updTrans] at ht'
                    · simp only [updTrans] at ht'
                      rw [if_neg hk3] at ht'
                      exact absurd (huniq k3 t ht') hk3
              | false =>
                rw [if_neg (by simp)] at h
                simp only [runHandler] at h
                rcases runHttpErr_clean' f3 st2 k s2 e2 od (k :: waits)
                    (Value.vnum n) hsubB hdescB hodB hpendkf hcbs hdsp hsc hty
                  with hnone | hsome
                · rw [hnone] at h
                  exact absurd h (by simp)
                · rw [hsome] at h
                  simp only [Option.some_bind] at h
                  rcases Option.bind_eq_some.mp h with ⟨st4, h1, h2⟩
                  obtain rfl := Option.some.inj h2
                  have h0 := httpErrResult_objs0 st2 k od (k :: waits)
                    (Value.vnum n) e2
                  rw [hsp] at h0
                  refine cascade_Inv ls f3 _ P _ (dn ++ [k]) false (Value.vobj 0)
                    st4 h0 hcbs hdsp hsc hty ?_ ?_ ?_ ?_ ?_ ?_ ?_ ?_ ?_ hndpT
                    hndkT ?_ h1
                  · intro he
                    right
                    show (if waits = [] then PendVal.pnull
                          else PendVal.parr waits) = PendVal.pnull
                    rw [if_pos (by rw [← hlk]; exact he)]
                  · intro he
                    show (if waits = [] then PendVal.pnull
                          else PendVal.parr waits) = PendVal.parr (linkKs ls)
                    rw [if_neg (by rw [← hlk]; exact he), hlk]
                  · show od.subsOrd = (dn ++ [k]) ++ linkKs ls
                    rw [hord, hlk]
                    simp
                  · intro i hi
                    rw [httpErrResult_objs_ne _ _ _ _ _ _ i hi]
                    exact hoth i hi
                  · intro k3
                    rw [httpErrResult_descs]
                    exact hnc k3
                  · intro k3 h3
                    rw [httpErrResult_subs] at h3
                    have h3' : st.subs k3 = none := h3
                    by_cases hk3 : k3 = k
                    · rw [hk3, hs2] at h3'
                      exact absurd h3' (by simp)
                    · refine ⟨?_, ?_⟩
                      · rw [httpErrResult_phase_ne _ _ _ _ _ _ k3 hk3]
                        exact (hfresh k3 h3').1
                      · rw [httpErrResult_trans]
                        show (updTrans st k TState.settledT).trans k3 = none
                        simp only [updTrans]
                        rw [if_neg hk3]
                        exact (hfresh k3 h3').2
                  · intro k3 hk3
                    rcases List.mem_append.mp hk3 with hmem | hmem
                    · have hne : ¬ k3 = k := fun heq => hkfdn (by
                        rw [← heq]; exact hmem)
                      rw [httpErrResult_phase_ne _ _ _ _ _ _ k3 hne]
                      exact hdn k3 hmem
                    · have heq : k3 = k := by simpa using hmem
                      rw [heq, httpErrResult_phase_at]
                  · refine chainOK_congr ?_ ?_ ?_ hch
                    · intro p2 hp2
                      have hpT2 : ¬ p2 = T := fun heq => hTnotin (by
                        rw [← heq]; exact hp2)
                      rw [httpErrResult_proms]
                      exact updProm_proms_ne _ _ _ p2 hpT2
                    · intro k3 hk3
                      have hne : ¬ k3 = k := fun heq => hkfls (by
                        rw [← heq]; exact hk3)
                      refine ⟨?_, ?_, ?_, ?_⟩
                      · rw [httpErrResult_subs]
                        rfl
                      · rw [httpErrResult_descs]
                        rfl
                      · rw [httpErrResult_phase_ne _ _ _ _ _ _ k3 hne]
                        rfl
                      · rw [httpErrResult_trans]
                        show (updTrans st k TState.settledT).trans k3 =
                          st.trans k3
                        simp only [updTrans]
                        rw [if_neg hne]
                    · show promiseOf _ 0 = promiseOf st 0
                      rw [promiseOf, promiseOf, h0, hod]
                      rfl
                  · intro p2 hp2
                    rw [httpErrResult_nextP]
                    exact hbnd p2 (List.mem_cons_of_mem _ hp2)
                  · intro k3 t ht
                    rw [httpErrResult_trans] at ht
                    have ht' : (updTrans st k TState.settledT).trans k3 =
                        some (TState.inflight t) := ht
                    by_cases hk3 : k3 = k
                    · rw [hk3] at ht'
                      simp [updTrans] at ht'
                    · simp only [updTrans] at ht'
                      rw [if_neg hk3] at ht'
                      exact absurd (huniq k3 t ht') hk3

end RMCommonApi

namespace RMCommonApi

/-- Schedules made only of submissions and transport settlements (no `$cancel`,
no hook registration, no override changes). -/
def isSendOrSettle : Act → Bool
  | Act.send _ _ _ _ => true
  | Act.settleA _ _ _ => true
  | _ => false

theorem exec_preserves_Inv : ∀ (as : List Act) (fuel : Nat) (st st' : MState),
    Inv st → (∀ a ∈ as, isSendOrSettle a = true) →
    exec fuel st as = some st' → Inv st' := by
  intro as
  induction as with
  | nil =>
    intro fuel st st' hInv _ h
    simp only [exec] at h
    rw [← Option.some.inj h]
    exact hInv
  | cons a rest ih =>
    intro fuel st st' hInv hok h
    simp only [exec] at h
    rcases Option.bind_eq_some.mp h with ⟨st1, h1, h2⟩
    have ha := hok a (List.mem_cons_self _ _)
    have hInv1 : Inv st1 := by
      cases a with
      | send oid k s e => exact send_preserves_Inv hInv h1
      | settleA k2 b n => exact settle_preserves_Inv hInv h1
      | cancel oid => simp [isSendOrSettle] at ha
      | setDspA oid d => simp [isSendOrSettle] at ha
      | onA oid hname cb => simp [isSendOrSettle] at ha
    exact ih fuel st1 st' hInv1
      (fun a2 ha2 => hok a2 (List.mem_cons_of_mem _ ha2)) h2

/-- What the pipeline invariant says about FIFO order: transports never
overlap; the finished submissions form a prefix of the recorded submission
order; and whenever a transport is in flight it belongs to the earliest
unfinished submission, with every later submission still waiting (its
transport not even issued). -/
theorem Inv_fifo {st : MState} (hInv : Inv st) :
    (∀ k1 k2 t1 t2, st.trans k1 = some (TState.inflight t1) →
      st.trans k2 = some (TState.inflight t2) → k1 = k2) ∧
    (∀ od2, st.objs 0 = some od2 → ∃ dn2 rest2,
      od2.subsOrd = dn2 ++ rest2 ∧
      (∀ x ∈ dn2, st.phase x = some Ph.donePh) ∧
      (∀ x ∈ rest2, ¬ st.phase x = some Ph.donePh) ∧
      (∀ k2 t, st.trans k2 = some (TState.inflight t) →
        ∃ ws, rest2 = k2 :: ws ∧
          ∀ x ∈ ws, st.trans x = none ∧ st.phase x = some Ph.waiting)) := by
  obtain ⟨od, hod, hcbs, hdsp, hsc, hty, hoth, hnc, hfresh, dn, rest, hord, hdn,
    hcase⟩ := hInv
  constructor
  · intro k1 k2 t1 t2 h1 h2
    rcases hcase with ⟨_, _, _, htr⟩ | ⟨kf, waits, _, hfly⟩
    · exact absurd h1 (htr k1 t1)
    · obtain ⟨_, _, _, _, T, P, ls, _, _, _, _, _, _, _, huniq⟩ := hfly
      rw [huniq k1 t1 h1, huniq k2 t2 h2]
  · intro od2 hod2
    obtain rfl : od2 = od := Option.some.inj (hod2 ▸ hod)
    refine ⟨dn, rest, hord, hdn, ?_, ?_⟩
    · intro x hx
      rcases hcase with ⟨hrest, _, _, _⟩ | ⟨kf, waits, hrest, hfly⟩
      · subst hrest
        simp at hx
      · subst hrest
        obtain ⟨hpkf, _, _, _, T, P, ls, _, _, hch, hlk, _, _, _, _⟩ := hfly
        rcases List.mem_cons.mp hx with heq | hmem
        · intro hd
          rw [heq, hpkf] at hd
          exact absurd hd (by simp)
        · have hw := chainOK_waiting hch x (by rw [hlk]; exact hmem)
          intro hd
          rw [hw.1] at hd
          exact absurd hd (by simp)
    · intro k2 t h2
      rcases hcase with ⟨_, _, _, htr⟩ | ⟨kf, waits, hrest, hfly⟩
      · exact absurd h2 (htr k2 t)
      · obtain ⟨hpkf, _, _, _, T, P, ls, _, _, hch, hlk, _, _, _, huniq⟩ := hfly
        obtain rfl : k2 = kf := huniq k2 t h2
        refine ⟨waits, hrest, ?_⟩
        intro x hx
        have hw := chainOK_waiting hch x (by rw [hlk]; exact hx)
        exact ⟨hw.2.1, hw.1⟩

end RMCommonApi

namespace RMCommonApi

/-- C1: over every schedule of `$send` submissions and transport settlements
(the cancel-free fragment, starting from a fresh object), the request machine
serializes operations: (1) two descriptors never have overlapping in-flight
transport calls; (2) the finished operations always form a prefix of the
recorded submission order, and an in-flight transport always belongs to the
earliest unfinished submission while every later submission is still waiting
with its transport unissued — so the second of two back-to-back submissions is
issued only after the first's chain settles; and (3) a failure does not block
the queue: when operation 1's transport rejects, queued operation 2 is still
issued afterwards and completes, as the error branch of the chain tail
continues into the next operation. -/
theorem send_serializes_fifo {as : List Act} {fuel : Nat} {st' : MState}
    (hsched : ∀ a ∈ as, isSendOrSettle a = true)
    (hexec : exec fuel init1 as = some st') :
    (∀ k1 k2 t1 t2, st'.trans k1 = some (TState.inflight t1) →
      st'.trans k2 = some (TState.inflight t2) → k1 = k2) ∧
    (∀ od2, st'.objs 0 = some od2 → ∃ dn2 rest2,
      od2.subsOrd = dn2 ++ rest2 ∧
      (∀ x ∈ dn2, st'.phase x = some Ph.donePh) ∧
      (∀ x ∈ rest2, ¬ st'.phase x = some Ph.donePh) ∧
      (∀ k2 t, st'.trans k2 = some (TState.inflight t) →
        ∃ ws, rest2 = k2 :: ws ∧
          ∀ x ∈ ws, st'.trans x = none ∧ st'.phase x = some Ph.waiting)) ∧
    (exec 8 init1 [Act.send 0 1 false false, Act.send 0 2 false false,
        Act.settleA 1 false 7, Act.settleA 2 true 8]).map (fun s2 => s2.log) =
      some [Ev.opDone 2 "ok", Ev.afterReq 2 (Value.vnum 8), Ev.tSettle 2,
        Ev.issued 2, Ev.beforeReq 2, Ev.opDone 1 "error",
        Ev.afterReqErr 1 (Value.vnum 7), Ev.tSettle 1, Ev.issued 1,
        Ev.beforeReq 1] := by
  have hInv := exec_preserves_Inv as fuel init1 st' Inv_init1 hsched hexec
  have hf := Inv_fifo hInv
  exact ⟨hf.1, hf.2, by rfl⟩

theorem send_serializes_fifo_witness :
    ∃ st', exec 8 init1 [Act.send 0 1 false false] = some st' ∧
      ((∀ k1 k2 t1 t2, st'.trans k1 = some (TState.inflight t1) →
        st'.trans k2 = some (TState.inflight t2) → k1 = k2) ∧
      (∀ od2, st'.objs 0 = some od2 → ∃ dn2 rest2,
        od2.subsOrd = dn2 ++ rest2 ∧
        (∀ x ∈ dn2, st'.phase x = some Ph.donePh) ∧
        (∀ x ∈ rest2, ¬ st'.phase x = some Ph.donePh) ∧
        (∀ k2 t, st'.trans k2 = some (TState.inflight t) →
          ∃ ws, rest2 = k2 :: ws ∧
            ∀ x ∈ ws, st'.trans x = none ∧ st'.phase x = some Ph.waiting)) ∧
      (exec 8 init1 [Act.send 0 1 false false, Act.send 0 2 false false,
          Act.settleA 1 false 7, Act.settleA 2 true 8]).map (fun s2 => s2.log) =
        some [Ev.opDone 2 "ok", Ev.afterReq 2 (Value.vnum 8), Ev.tSettle 2,
          Ev.issued 2, Ev.beforeReq 2, Ev.opDone 1 "error",
          Ev.afterReqErr 1 (Value.vnum 7), Ev.tSettle 1, Ev.issued 1,
          Ev.beforeReq 1]) := by
  have h : (exec 8 init1 [Act.send 0 1 false false]).isSome = true := by decide
  obtain ⟨st', hst'⟩ := Option.isSome_iff_exists.mp h
  exact ⟨st', hst', send_serializes_fifo (by decide) hst'⟩

end RMCommonApi
